import Mathlib

/-!
Verification of the `trees` rewrite-equivalence engine.

Shallow embedding of the Rust sources:
* `src/perm/perms.rs`   — `Permutation`
* `src/perm/group.rs`   — `PermutationGroup` (Schreier–Sims)
* `src/term.rs`         — `Term`, `Term::substitute`
* `src/indexing.rs`     — `TermIndexing`, `IndexedTerm::matches`
* `src/eqclass.rs`      — `EquivalenceClasses`
* `src/iter.rs`         — `TreeStructureIterator`
* `src/tree.rs`         — `DAG`, `DAG::parse`
* `src/maps.rs`         — `TreeEquivalence`
* `src/transform.rs`    — `TreeTransform`

Machine integers (`usize`, the 16-bit permutation index type) are modelled as
`Nat`; the intended leaf counts stay far below either overflow bound, and no
code path relies on wrap-around.  Fallible code (panics, `expect`, fuel-limited
loops) is modelled with `Option`.  Pointer identity (`TermByAddress`,
`Rc::ptr_eq`) is modelled positionally: a node of a tree is designated by its
root path, which coincides with address identity for hosts in which the
designated subtree occurs at a single address.
-/

namespace Trees

/-- `src/perm/perms.rs` `Permutation`: a permutation stored as the array of its
images; indices at or beyond the array length are fixed points. -/
structure Permutation where
  perm : List Nat
deriving DecidableEq, Repr

/-- `Permutation::get`: the image of `index`, identity beyond the array. -/
def Permutation.get (p : Permutation) (index : Nat) : Nat :=
  p.perm.getD index index

/-- `Permutation::identity`: the empty image array. -/
def Permutation.identity : Permutation := ⟨[]⟩

/-- Loop body of `Permutation::nonfix_index`: scan the array from position `i`
and return the stored image at the first non-fixed position. -/
def Permutation.nonfixAux : Nat → List Nat → Option Nat
  | _, [] => none
  | i, v :: rest => if i ≠ v then some v else Permutation.nonfixAux (i + 1) rest

/-- `Permutation::nonfix_index`: the image stored at the first position `i`
with `perm[i] ≠ i`, if any.  (The code returns the image `*v`, not the
position `i` itself.) -/
def Permutation.nonfix_index (p : Permutation) : Option Nat :=
  Permutation.nonfixAux 0 p.perm

/-- `Permutation::is_identity`. -/
def Permutation.is_identity (p : Permutation) : Bool :=
  p.nonfix_index.isNone

/-- `Permutation::inverse`: build `vec![0; len]` and write `inverse[v] = i`
for every entry `(i, v)`. -/
def Permutation.inverse (p : Permutation) : Permutation :=
  ⟨p.perm.enum.foldl (fun acc iv => acc.set iv.2 iv.1)
    (List.replicate p.perm.length 0)⟩

/-- `Mul for Permutation` (also `MulAssign`): `(a * b).get i = b.get (a.get i)`,
with the result array materialised up to the longer operand's length. -/
def Permutation.mul (a b : Permutation) : Permutation :=
  ⟨(List.range (max a.perm.length b.perm.length)).map (fun i => b.get (a.get i))⟩

/-- Validity of the stored array: it is a permutation of `[0, len)`.  This is
invariant (i) of spec §3 ("every index in `[0, len(π))` appears exactly once as
an image"). -/
def Permutation.valid (p : Permutation) : Prop :=
  p.perm.Nodup ∧ ∀ v ∈ p.perm, v < p.perm.length

instance (p : Permutation) : Decidable p.valid := by
  unfold Permutation.valid; infer_instance

/-- `src/term.rs` `Term`: unlabeled leaves, binary operation nodes. -/
inductive Term where
  | Variable : Term
  | Operation : Term → Term → Term
deriving DecidableEq, Repr

/-- Number of leaves, in-order; this is the count produced by
`Term::clone_with_leaf_count`. -/
def Term.leafCount : Term → Nat
  | .Variable => 1
  | .Operation l r => l.leafCount + r.leafCount

/-- The subtree designated by a root path (`false` = left child); this models
a `TermByAddress` pointer into the host. -/
def Term.subtreeAt : Term → List Bool → Option Term
  | t, [] => some t
  | .Variable, _ :: _ => none
  | .Operation l r, d :: rest => Term.subtreeAt (if d then r else l) rest

/-- Structural embedding of a pattern into a host (spec glossary: every
pattern branch coincides with a host branch; pattern leaves overlay arbitrary
host subterms).  This is the success condition of `fromEmbedding`. -/
def Term.embedsB : Term → Term → Bool
  | .Variable, _ => true
  | .Operation pl pr, .Operation hl hr => Term.embedsB pl hl && Term.embedsB pr hr
  | .Operation _ _, .Variable => false

/-- Modelled from the spec: `TermMap` is imported from `crate::maps` by
`src/term.rs` and `src/eqclass.rs` but absent from `src/`; spec §3 defines a
map as a triple (source term, target term, permutation π of their leaves),
read as "the i-th leaf of `source` corresponds to the π(i)-th leaf of
`target`". -/
structure TermMap where
  source : Term
  target : Term
  perm : Permutation
deriving DecidableEq, Repr

/-- Modelled from the spec: map composition (spec §3/§4.4), defined when
`self.target == other.source`; yields `(self.source, other.target, π₂ ∘ π₁)`,
i.e. apply `self.perm` first.  This is the `MulAssign` used by
`EquivalenceClasses::find`. -/
def TermMap.comp (m other : TermMap) : TermMap :=
  ⟨m.source, other.target, m.perm.mul other.perm⟩

/-- Modelled from the spec: `TermMap::into_backward` swaps source and target
and inverts the permutation (spec §4.4 `inverse()`). -/
def TermMap.into_backward (m : TermMap) : TermMap :=
  ⟨m.target, m.source, m.perm.inverse⟩

/-- Modelled from the spec: `TermMap::into_perm` discards the endpoint terms
(spec §4.4 `toPermutation()`). -/
def TermMap.into_perm (m : TermMap) : Permutation :=
  m.perm

/-- Modelled from the spec: the identity map on a term (spec §4.4
`identity(t)`); the identity permutation is the empty array (§4.1). -/
def TermMap.identity_map (t : Term) : TermMap :=
  ⟨t, t, Permutation.identity⟩

/-- Modelled from the spec: `TermBijection` is a `TermMap` paired with its
cached inverse (spec §4.4); `substitute` reads `source()` (the rewrite's left
side `L`), `target()` (the right side `R`) and `backward()` (the array of
π⁻¹, translating `R`-leaf positions to `L`-leaf positions). -/
structure TermBijection where
  source : Term
  target : Term
  forward : Permutation
  backward : Permutation
deriving DecidableEq, Repr

/-- The `propagate` pass at the start of `Term::substitute`: walk the rewrite
source `L` over the matched host region in lockstep and collect, for each
`L`-leaf in order, the embedded host subterm; `None` models the
"match_root not embedded here" panic. -/
def embedLeaves : Term → Term → Option (List Term)
  | .Variable, region => some [region]
  | .Operation pl pr, .Operation hl hr => do
      let a ← embedLeaves pl hl
      let b ← embedLeaves pr hr
      pure (a ++ b)
  | .Operation _ _, .Variable => none

/-- The `replacements` vector of `Term::substitute`: for each embedded host
subterm, its clone (structurally identical, since leaves carry no payload)
with the cumulative leaf range `[start, end)` it occupied in the match
region.  `Term::clone_with_leaf_count` supplies the tree and its leaf count. -/
def mkReplacements : List Term → Nat → List (Term × Nat × Nat)
  | [], _ => []
  | t :: rest, acc => (t, acc, acc + t.leafCount) :: mkReplacements rest (acc + t.leafCount)

/-- The `replace_leaves_with_count` call inside `insert_replacements_helper`:
rebuild the rewrite target `R`, replacing its `j`-th leaf by
`replacements[backward[j]]`, extending the computed map by the range
`[start + leaf_index, end + leaf_index)` and advancing `leaf_index` by the
replacement's size.  Returns (tree, next leaf label `j`, new `leaf_index`,
pushed map entries). -/
def instantiate_target (reps : List (Term × Nat × Nat)) (backward : List Nat) :
    Term → Nat → Nat → Option (Term × Nat × Nat × List Nat)
  | .Variable, j, li => do
      let ti ← backward.get? j
      let (rep, s, e) ← reps.get? ti
      pure (rep, j + 1, li + (e - s), List.range' (s + li) (e - s))
  | .Operation l r, j, li => do
      let (tl, j₁, li₁, m₁) ← instantiate_target reps backward l j li
      let (tr, j₂, li₂, m₂) ← instantiate_target reps backward r j₁ li₁
      pure (Term.Operation tl tr, j₂, li₂, m₁ ++ m₂)

/-- `Term::insert_replacements_helper`: rebuild the host, pushing each
outside leaf's running host index, and splicing the instantiated rewrite
target at the match root (designated by the path).  Returns
(tree, final `leaf_index`, computed map). -/
def insert_replacements_helper (reps : List (Term × Nat × Nat)) (backward : List Nat)
    (target : Term) : Term → Option (List Bool) → Nat → Option (Term × Nat × List Nat)
  | .Variable, _, li => some (Term.Variable, li + 1, [li])
  | .Operation _ _, some [], li => do
      let (t, _, li', m) ← instantiate_target reps backward target 0 li
      pure (t, li', m)
  | .Operation l r, mp, li =>
      let (lp, rp) : Option (List Bool) × Option (List Bool) :=
        match mp with
        | some (d :: rest) => if d then (none, some rest) else (some rest, none)
        | _ => (none, none)
      do
        let (tl, li₁, m₁) ← insert_replacements_helper reps backward target l lp li
        let (tr, li₂, m₂) ← insert_replacements_helper reps backward target r rp li₁
        pure (Term.Operation tl tr, li₂, m₁ ++ m₂)

/-- `Term::substitute`: replace the match region (the subtree at `path`,
modelling the `match_root` address) using the rewrite bijection `b`; returns
the rebuilt term together with the accumulated `computed_map` vector of
host-leaf indices, indexed by result-leaf position (the array of the backward
map `H' → H` that the code hands to `TermMap::new` before upgrading and
inverting it). -/
def Term.substitute (H : Term) (path : List Bool) (b : TermBijection) :
    Option (Term × List Nat) := do
  let region ← H.subtreeAt path
  let es ← embedLeaves b.source region
  let reps := mkReplacements es 0
  let (result, _, cmap) ← insert_replacements_helper reps b.backward.perm b.target H (some path) 0
  pure (result, cmap)

/-- `src/perm/group.rs` `PermutationGroup`: one level of the Schreier–Sims
stabiliser chain, holding the stabilised point, the generators discovered at
this level, the inverse transversal (indexed by orbit point), the orbit list,
and the lazily created next level. -/
inductive PermutationGroup where
  | mk (stab_point : Nat) (generators : List Permutation)
      (transversal_inv : List (Option Permutation)) (orbits : List Nat)
      (stab_subgroup : Option PermutationGroup)

/-- `PermutationGroup::inv_coset_repr` on the transversal array: `&None` for
out-of-range points. -/
def PermutationGroup.inv_coset_repr_list (tinv : List (Option Permutation)) (orbit : Nat) :
    Option Permutation :=
  tinv.getD orbit none

/-- `PermutationGroup::new`: empty level stabilising `stab_point`, with the
identity as that point's inverse coset representative. -/
def PermutationGroup.new (stab_point : Nat) : PermutationGroup :=
  .mk stab_point []
    ((List.range (stab_point + 1)).map
      (fun i => if i = stab_point then some Permutation.identity else none))
    [stab_point] none

/-- Field accessor: the stabilised point of the chain's first level. -/
def PermutationGroup.stab_point : PermutationGroup → Nat
  | .mk b _ _ _ _ => b

/-- Field accessor: the first level's transversal array. -/
def PermutationGroup.transversalOf : PermutationGroup → List (Option Permutation)
  | .mk _ _ tinv _ _ => tinv

/-- Field accessor: the first level's orbit list. -/
def PermutationGroup.orbitsOf : PermutationGroup → List Nat
  | .mk _ _ _ orbits _ => orbits

/-- Field accessor: the next level of the chain. -/
def PermutationGroup.subOf : PermutationGroup → Option PermutationGroup
  | .mk _ _ _ _ sub => sub

/-- `PermutationGroup::contains_owned`: sift through the chain, multiplying by
the stored inverse coset representatives; at the deepest level require the
residue to be the identity. -/
def PermutationGroup.contains_owned : PermutationGroup → Permutation → Bool
  | .mk b _ tinv _ sub, p =>
    match PermutationGroup.inv_coset_repr_list tinv (p.get b) with
    | none => false
    | some u =>
      match sub with
      | none => (p.mul u).is_identity
      | some g => PermutationGroup.contains_owned g (p.mul u)

/-- `PermutationGroup::contains` (clones and sifts). -/
def PermutationGroup.contains (g : PermutationGroup) (p : Permutation) : Bool :=
  g.contains_owned p

/-- The `resize_with` followed by the indexed write in `process_orbit`: grow
the transversal with `None` up to index `i` if needed, then set slot `i`. -/
def growSet (tinv : List (Option Permutation)) (i : Nat) (v : Option Permutation) :
    List (Option Permutation) :=
  (if i < tinv.length then tinv else tinv ++ List.replicate (i + 1 - tinv.length) none).set i v

mutual

/-- `PermutationGroup::extend`, fuelled: a no-op when the generator is already
contained; otherwise push the generator, process the snapshot of the orbit
list, then drain the work queue of newly found orbit points.  Every nested
call consumes one unit of fuel; `none` models fuel exhaustion (the Rust
recursion always terminates) or an internal panic. -/
def PermutationGroup.extendF : Nat → PermutationGroup → Permutation → Option PermutationGroup
  | 0, _, _ => none
  | fuel + 1, g, generator =>
    if PermutationGroup.contains_owned g generator then some g
    else
      match g with
      | .mk b gens tinv orbits sub => do
        let (g₂, gi₂, q₂) ← PermutationGroup.foldOrbits fuel generator orbits
          (PermutationGroup.mk b (gens ++ [generator]) tinv orbits sub) none []
        let (g₃, _) ← PermutationGroup.drain fuel generator g₂ gi₂ q₂
        pure g₃

/-- The `for i in 0..self.orbits.len()` loop of `extend`: process each point
of the orbit-list snapshot, threading group, cached generator inverse and
work queue. -/
def PermutationGroup.foldOrbits : Nat → Permutation →
    List Nat → PermutationGroup → Option Permutation → List Nat →
    Option (PermutationGroup × Option Permutation × List Nat)
  | _, _, [], g, gi, q => some (g, gi, q)
  | 0, _, _ :: _, _, _, _ => none
  | fuel + 1, generator, o :: rest, g, gi, q => do
      let (g', gi', q') ← PermutationGroup.process_orbit fuel g generator gi o q
      PermutationGroup.foldOrbits fuel generator rest g' gi' q'

/-- The `while let Some(orbit) = queue.pop_front()` loop of `extend`. -/
def PermutationGroup.drain : Nat → Permutation →
    PermutationGroup → Option Permutation → List Nat →
    Option (PermutationGroup × Option Permutation)
  | _, _, g, gi, [] => some (g, gi)
  | 0, _, _, _, _ :: _ => none
  | fuel + 1, generator, g, gi, o :: rest => do
      let (g', gi', q') ← PermutationGroup.process_orbit fuel g generator gi o rest
      PermutationGroup.drain fuel generator g' gi' q'

/-- `process_orbit` inside `PermutationGroup::extend`: map the orbit point
through the new generator; a point already in the transversal yields a
Schreier generator sifted into the (lazily created) next level, a new point
receives its inverse coset representative and joins orbit list and queue. -/
def PermutationGroup.process_orbit : Nat → PermutationGroup →
    Permutation → Option Permutation → Nat → List Nat →
    Option (PermutationGroup × Option Permutation × List Nat)
  | 0, _, _, _, _, _ => none
  | fuel + 1, .mk b gens tinv orbits sub, generator, generator_inv, orbit, queue =>
    match PermutationGroup.inv_coset_repr_list tinv orbit with
    | none => none
    | some u =>
      let new_orbit := generator.get orbit
      match PermutationGroup.inv_coset_repr_list tinv new_orbit with
      | some u' =>
        let subgroup_generator := (u.inverse.mul generator).mul u'
        match subgroup_generator.nonfix_index with
        | none => some (.mk b gens tinv orbits sub, generator_inv, queue)
        | some non_fixpoint =>
          match PermutationGroup.extendF fuel (sub.getD (PermutationGroup.new non_fixpoint))
              subgroup_generator with
          | none => none
          | some sub' => some (.mk b gens tinv orbits (some sub'), generator_inv, queue)
      | none =>
        let gi := generator_inv.getD generator.inverse
        some (.mk b gens (growSet tinv new_orbit (some (gi.mul u))) (orbits ++ [new_orbit]) sub,
          some gi, queue ++ [new_orbit])

end

/-- The base-point extraction in `PermutationGroup::from_generators`: the
first non-`None` `nonfix_index` across the generators; `None` models the
"No non-identity generator" panic. -/
def PermutationGroup.pick_stab_point (generators : List Permutation) : Option Nat :=
  (((generators.map Permutation.nonfix_index).dropWhile Option.isNone).head?).join

/-- `PermutationGroup::from_generators`, fuelled: pick the base point, then
`extend` with every generator in order. -/
def PermutationGroup.from_generators (fuel : Nat) (generators : List Permutation) :
    Option PermutationGroup :=
  match PermutationGroup.pick_stab_point generators with
  | none => none
  | some b =>
      generators.foldlM (fun g gen => PermutationGroup.extendF fuel g gen)
        (PermutationGroup.new b)

/-- Well-formedness of a stabiliser chain, maintained by `new` and `extend`:
the stabilised point's inverse coset representative is the identity, the
orbit list starts with the stabilised point, stored transversal entries are
valid permutations, and the next level (if present) is well-formed. -/
def PermutationGroup.wfB : PermutationGroup → Bool
  | .mk b _ tinv orbits sub =>
    decide (PermutationGroup.inv_coset_repr_list tinv b = some Permutation.identity) &&
    decide (orbits.head? = some b) &&
    tinv.all (fun o => match o with | none => true | some u => decide u.valid) &&
    (match sub with | none => true | some g => PermutationGroup.wfB g)

/-- First-match lookup in the pattern table (`HashMap<(usize, usize), usize>`
modelled as an association list in insertion order; keys are inserted at most
once, so first-match agrees with the hash map). -/
def lookupPair (tbl : List ((Nat × Nat) × Nat)) (k : Nat × Nat) : Option Nat :=
  (tbl.find? (fun e => decide (e.1 = k))).map (fun e => e.2)

/-- One step of the table-building `reduce` of `TermIndexing::from`: look the
child-label pair up, inserting a fresh label `table.len() + 1` on first
encounter. -/
def tableStep (tbl : List ((Nat × Nat) × Nat)) (k : Nat × Nat) :
    List ((Nat × Nat) × Nat) × Nat :=
  match lookupPair tbl k with
  | some l => (tbl, l)
  | none => (tbl ++ [(k, tbl.length + 1)], tbl.length + 1)

/-- The `reduce` of `TermIndexing::from`: leaves are labelled `0`, branches by
their child-label pair via `tableStep`. -/
def buildAux : Term → List ((Nat × Nat) × Nat) → List ((Nat × Nat) × Nat) × Nat
  | .Variable, tbl => (tbl, 0)
  | .Operation l r, tbl =>
      let (t₁, a) := buildAux l tbl
      let (t₂, b) := buildAux r t₁
      tableStep t₂ (a, b)

/-- `src/indexing.rs` `TermIndexing::from`: the pattern table of a term. -/
def TermIndexing.build (t : Term) : List ((Nat × Nat) × Nat) :=
  (buildAux t []).1

/-- The per-branch body of `IndexedTerm::matches`: starting from `{0}`, insert
every table label whose key pair is covered by the child label sets; the flag
records whether the sentinel label `table.len()` was inserted (the branch is a
match site). -/
def matchStep (tbl : List ((Nat × Nat) × Nat)) (lls rls : List Nat) : List Nat × Bool :=
  tbl.foldl
    (fun acc e =>
      if e.1.1 ∈ lls ∧ e.1.2 ∈ rls then
        (e.2 :: acc.1, acc.2 || decide (e.2 = tbl.length))
      else acc)
    ([0], false)

/-- The `reduce` of `IndexedTerm::matches`: label sets bottom-up, collecting
the match sites (as root paths, `false` = left) in traversal order. -/
def matchesAux (tbl : List ((Nat × Nat) × Nat)) : Term → List Nat × List (List Bool)
  | .Variable => ([0], [])
  | .Operation l r =>
      let (lls, ml) := matchesAux tbl l
      let (rls, mr) := matchesAux tbl r
      let (labs, hit) := matchStep tbl lls rls
      (labs, ml.map (List.cons false) ++ mr.map (List.cons true) ++ if hit then [[]] else [])

/-- `src/indexing.rs` `IndexedTerm`: a term with its pattern table. -/
structure IndexedTerm where
  term : Term
  index : List ((Nat × Nat) × Nat)
deriving DecidableEq, Repr

/-- `IndexedTerm::from`. -/
def IndexedTerm.fromTerm (t : Term) : IndexedTerm :=
  ⟨t, TermIndexing.build t⟩

/-- `IndexedTerm::matches`: all match sites of the stored pattern inside the
host, as root paths (modelling the returned node handles). -/
def IndexedTerm.matches (it : IndexedTerm) (host : Term) : List (List Bool) :=
  (matchesAux it.index host).2

/-- Depth of a stabiliser chain (number of levels below the first). -/
def PermutationGroup.depth : PermutationGroup → Nat
  | .mk _ _ _ _ none => 0
  | .mk _ _ _ _ (some g) => PermutationGroup.depth g + 1

/-- `src/eqclass.rs` `EqClassEntry`: a class root (term, rank, optional
automorphism group) or a child (term, parent index, parent map). -/
inductive EqClassEntry where
  | Root (term : IndexedTerm) (rank : Nat) (automorphisms : Option PermutationGroup)
  | Child (term : IndexedTerm) (parent : Nat) (parent_map : TermMap)

/-- The term held by an entry. -/
def EqClassEntry.termOf : EqClassEntry → Term
  | .Root t _ _ => t.term
  | .Child t _ _ => t.term

/-- `src/eqclass.rs` `EquivalenceClasses`: the entry vector and the
term-to-entry side table (`HashMap<TermRef, usize>` modelled as an
association list; keys are inserted at most once). -/
structure EquivalenceClasses where
  entries : List EqClassEntry
  by_shape : List (Term × Nat)

/-- `EquivalenceClasses::new`. -/
def EquivalenceClasses.new : EquivalenceClasses := ⟨[], []⟩

/-- Lookup in the side table. -/
def lookupShape (bs : List (Term × Nat)) (t : Term) : Option Nat :=
  (bs.find? (fun e => decide (e.1 = t))).map (fun e => e.2)

/-- `EquivalenceClasses::entry_for_term`: resolve a term to its entry index,
creating a fresh root entry on first sighting. -/
def EquivalenceClasses.entry_for_term (s : EquivalenceClasses) (t : Term) :
    EquivalenceClasses × Nat :=
  match lookupShape s.by_shape t with
  | some i => (s, i)
  | none =>
      (⟨s.entries ++ [.Root (IndexedTerm.fromTerm t) 0 none], s.by_shape ++ [(t, s.entries.length)]⟩,
        s.entries.length)

/-- `EquivalenceClasses::find`, fuelled: follow parent links to the root; each
traversed child whose parent is itself a child is rewritten to point at its
grandparent with the two parent maps composed, and the tracking map is
composed with the traversed (updated) parent map.  Both call sites pass a
tracking map, so it is threaded unconditionally.  `none` models the
`get_disjoint_mut` panics and fuel exhaustion (unreachable in the code). -/
def EquivalenceClasses.findF : Nat → EquivalenceClasses → Nat → TermMap →
    Option (EquivalenceClasses × Nat × TermMap)
  | 0, _, _, _ => none
  | fuel + 1, s, index, tracking =>
    match s.entries.get? index with
    | none => none
    | some (.Root _ _ _) => some (s, index, tracking)
    | some (.Child ct p pm) =>
      if index = p then none
      else
        match s.entries.get? p with
        | none => none
        | some pe =>
          let (pm', p') :=
            match pe with
            | .Child _ pp ppm => (pm.comp ppm, pp)
            | .Root _ _ _ => (pm, p)
          EquivalenceClasses.findF fuel ⟨s.entries.set index (.Child ct p' pm'), s.by_shape⟩
            p' (tracking.comp pm')

/-- `EquivalenceClasses::add_equiv`: resolve both endpoint entries, find both
roots while composing the tracked maps (target first, with the map itself;
then source, with its inverse), then either record an automorphism at the
common root or union the two classes by rank, converting the losing root into
a child carrying the composed map.  `gfuel` bounds the Schreier–Sims
extension; the find fuel is the entry count, which suffices. -/
def EquivalenceClasses.add_equiv (gfuel : Nat) (s : EquivalenceClasses) (map : TermMap) :
    Option EquivalenceClasses := do
  let (s₁, target) := s.entry_for_term map.target
  let (s₂, source) := s₁.entry_for_term map.source
  let ffuel := s₂.entries.length + 1
  let (s₃, target_root, source_to_target_root) ← EquivalenceClasses.findF ffuel s₂ target map
  let (s₄, source_root, target_root_to_source_root) ←
    EquivalenceClasses.findF ffuel s₃ source source_to_target_root.into_backward
  if target_root = source_root then
    match s₄.entries.get? target_root with
    | some (.Root rt rrank rauto) =>
        match target_root_to_source_root.into_perm.nonfix_index with
        | none => pure s₄
        | some non_fixpoint =>
            match PermutationGroup.extendF gfuel (rauto.getD (PermutationGroup.new non_fixpoint))
                target_root_to_source_root.into_perm with
            | none => none
            | some grp' =>
                pure ⟨s₄.entries.set target_root (.Root rt rrank (some grp')), s₄.by_shape⟩
    | _ => none
  else
    match s₄.entries.get? source_root, s₄.entries.get? target_root with
    | some (.Root st srank _), some (.Root tt trank _) =>
        let (sroot, troot, m, losing_term) :=
          if srank < trank then
            (target_root, source_root, target_root_to_source_root.into_backward, st)
          else (source_root, target_root, target_root_to_source_root, tt)
        let entries₁ :=
          if srank = trank then
            s₄.entries.set source_root (.Root st (srank + 1)
              (match s₄.entries.get? source_root with
               | some (.Root _ _ a) => a
               | _ => none))
          else s₄.entries
        pure ⟨entries₁.set troot (.Child losing_term sroot m), s₄.by_shape⟩
    | _, _ => none

/-- A serial sequence of `add_equiv` calls starting from `new()`. -/
def EquivalenceClasses.run (gfuel : Nat) (ops : List TermMap) : Option EquivalenceClasses :=
  ops.foldlM (fun s m => EquivalenceClasses.add_equiv gfuel s m) EquivalenceClasses.new

/-- Observer: compose the parent maps along the path from an entry to its
root (the map accumulated by `find_immut`), fuelled. -/
def EquivalenceClasses.mapToRootAux : Nat → EquivalenceClasses → Nat → TermMap →
    Option (TermMap × Nat)
  | 0, _, _, _ => none
  | fuel + 1, s, index, acc =>
    match s.entries.get? index with
    | none => none
    | some (.Root _ _ _) => some (acc, index)
    | some (.Child _ p pm) => EquivalenceClasses.mapToRootAux fuel s p (acc.comp pm)

/-- Observer: the composed child-to-root map of an entry, seeded with the
identity map on the entry's own term (as in the `Debug` dump); the fuel
`entries.length + 1` covers every acyclic parent chain. -/
def EquivalenceClasses.mapToRoot (s : EquivalenceClasses) (i : Nat) : Option (TermMap × Nat) :=
  match s.entries.get? i with
  | none => none
  | some e =>
      EquivalenceClasses.mapToRootAux (s.entries.length + 1) s i (TermMap.identity_map e.termOf)

/-- Observer: the term stored at an entry. -/
def EquivalenceClasses.termAt (s : EquivalenceClasses) (i : Nat) : Option Term :=
  (s.entries.get? i).map EqClassEntry.termOf

/-- Observer: is the entry a root? -/
def EquivalenceClasses.isRootAt (s : EquivalenceClasses) (i : Nat) : Bool :=
  match s.entries.get? i with
  | some (.Root _ _ _) => true
  | _ => false

/-- Observer: is the entry a child? -/
def EquivalenceClasses.isChildAt (s : EquivalenceClasses) (i : Nat) : Bool :=
  match s.entries.get? i with
  | some (.Child _ _ _) => true
  | _ => false

/-- `src/tree.rs` `DAG`: binary tree with labelled leaves. -/
inductive DAG (T : Type) where
  | Leaf (value : T)
  | Branch (left right : DAG T)
deriving DecidableEq, Repr

/-- Leaf count of a `DAG`. -/
def DAG.leafCount {T : Type} : DAG T → Nat
  | .Leaf _ => 1
  | .Branch l r => l.leafCount + r.leafCount

/-- `src/iter.rs` `TreeStructureIterator`: either the one-shot leaf iterator
or an inner frame holding the left and right sub-iterators, the current
split, and the current right subtree. -/
inductive TreeStructureIterator where
  | InnerIterator (done : Bool) (left right : TreeStructureIterator)
      (left_leaves right_leaves : Nat) (right_subtree : DAG Unit)
  | LeafIterator (done : Bool)
deriving DecidableEq, Repr

mutual

/-- `TreeStructureIterator::new`, fuelled: the leaf iterator for one leaf,
otherwise an inner frame over the split `(1, leaves - 1)` whose first right
subtree is pulled eagerly (`right.next().unwrap()`). -/
def TreeStructureIterator.newF : Nat → Nat → Option TreeStructureIterator
  | 0, _ => none
  | fuel + 1, leaves =>
    if leaves = 1 then some (.LeafIterator false)
    else do
      let right ← TreeStructureIterator.newF fuel (leaves - 1)
      match ← TreeStructureIterator.nextF fuel right with
      | none => none
      | some (right_subtree, right') =>
          pure (.InnerIterator false (.LeafIterator false) right' 1 (leaves - 1) right_subtree)

/-- `Iterator::next for TreeStructureIterator`, fuelled.  The outer `none`
models fuel exhaustion or a panic; `some none` is the iterator reporting
exhaustion (Rust `None`); `some (some (tree, state))` is an emitted tree with
the successor state.  The `done` flag of an inner frame is set but never
tested by the code, and polling past exhaustion underflows
`right_leaves -= 1` (a panic, modelled as `none`). -/
def TreeStructureIterator.nextF : Nat → TreeStructureIterator →
    Option (Option (DAG Unit × TreeStructureIterator))
  | 0, _ => none
  | _ + 1, .LeafIterator done =>
      if done then some none else some (some (DAG.Leaf (), .LeafIterator true))
  | fuel + 1, .InnerIterator done left right ll rl rs => do
      match ← TreeStructureIterator.nextF fuel left with
      | some (left_subtree, left') =>
          pure (some (DAG.Branch left_subtree rs, .InnerIterator done left' right ll rl rs))
      | none =>
        match ← TreeStructureIterator.nextF fuel right with
        | some (subtree, right') => do
            let newleft ← TreeStructureIterator.newF fuel ll
            TreeStructureIterator.nextF fuel (.InnerIterator done newleft right' ll rl subtree)
        | none =>
            if rl = 0 then none
            else if rl - 1 = 0 then some none
            else do
              let newleft ← TreeStructureIterator.newF fuel (ll + 1)
              let newright ← TreeStructureIterator.newF fuel (rl - 1)
              match ← TreeStructureIterator.nextF fuel newright with
              | none => none
              | some (rs₂, newright') =>
                  TreeStructureIterator.nextF fuel
                    (.InnerIterator done newleft newright' (ll + 1) (rl - 1) rs₂)

end

/-- Run the iterator to exhaustion, collecting the emitted trees; succeeds
exactly when the iterator reports `None` within the fuel. -/
def TreeStructureIterator.runF : Nat → TreeStructureIterator → Option (List (DAG Unit))
  | 0, _ => none
  | fuel + 1, it => do
      match ← TreeStructureIterator.nextF (fuel + 1) it with
      | none => pure []
      | some (t, it') => do
          let rest ← TreeStructureIterator.runF fuel it'
          pure (t :: rest)

/-- All structurally distinct binary trees with exactly `k` leaves, in the
enumerator's order (splits `(left, right)` with growing left size; within a
split, right subtrees outermost), computed with a structural fuel so that it
evaluates; `allTrees` instantiates the fuel with `k`, which suffices. -/
def allTreesF : Nat → Nat → List (DAG Unit)
  | 0, _ => []
  | _ + 1, 0 => []
  | _ + 1, 1 => [DAG.Leaf ()]
  | fuel + 1, k + 2 =>
      (List.range (k + 1)).bind (fun i =>
        (allTreesF fuel (k + 1 - i)).bind (fun r =>
          (allTreesF fuel (i + 1)).map (fun l => DAG.Branch l r)))

/-- All structurally distinct binary trees with exactly `k` leaves. -/
def allTrees (k : Nat) : List (DAG Unit) := allTreesF k k

/-- The still-unvisited splits of a `k`-leaf enumeration, starting at left
size `ls`. -/
def splitsFrom (k ls : Nat) : List (DAG Unit) :=
  (List.range' ls (k - ls)).bind (fun ll =>
    (allTrees (k - ll)).bind (fun r =>
      (allTrees ll).map (fun l => DAG.Branch l r)))

/-- The sequence of trees an iterator state will still emit. -/
def remaining : TreeStructureIterator → List (DAG Unit)
  | .LeafIterator done => if done then [] else [DAG.Leaf ()]
  | .InnerIterator done left right ll rl rs =>
      if done then []
      else
        (remaining left).map (fun lt => DAG.Branch lt rs) ++
        (remaining right).bind (fun r => (allTrees ll).map (fun l => DAG.Branch l r)) ++
        splitsFrom (ll + rl) (ll + 1)

/-- Letter test of the parser: `'a'..='z' | 'A'..='Z'`. -/
def isLetter (c : Char) : Prop :=
  ('a' ≤ c ∧ c ≤ 'z') ∨ ('A' ≤ c ∧ c ≤ 'Z')

instance (c : Char) : Decidable (isLetter c) := by
  unfold isLetter; infer_instance

mutual

/-- `src/tree.rs` `DAG::parse_inner`, fuelled: parse one atom (letter, or a
parenthesised expression with the closing bracket asserted), then look for
`*`.  `none` models the `panic!()` and `assert_eq!` aborts. -/
def DAG.parse_inner : Nat → List Char → Option (DAG String × List Char)
  | 0, _ => none
  | fuel + 1, input =>
    match input with
    | '(' :: rest => do
        let (child, rest₁) ← DAG.parse_inner fuel rest
        match rest₁ with
        | ')' :: rest₂ => DAG.parseTail fuel child rest₂
        | _ => none
    | c :: rest =>
        if isLetter c then DAG.parseTail fuel (DAG.Leaf c.toString) rest else none
    | [] => none

/-- The `input.peek()` step of `parse_inner`: on `*`, consume it and parse the
right operand; otherwise return the atom alone. -/
def DAG.parseTail : Nat → DAG String → List Char → Option (DAG String × List Char)
  | 0, _, _ => none
  | fuel + 1, left, input =>
    match input with
    | '*' :: rest => do
        let (right, rest') ← DAG.parse_inner fuel rest
        pure (DAG.Branch left right, rest')
    | _ => some (left, input)

end

/-- `src/tree.rs` `DAG::parse`: strip spaces, parse, and return the term,
silently ignoring any unconsumed suffix.  (`LabeledTerm::parse` in
`src/labeled.rs` is the same procedure.) -/
def DAG.parse (input : List Char) : Option (DAG String) :=
  (DAG.parse_inner (input.length + 1) (input.filter (fun c => c ≠ ' '))).map (fun r => r.1)

mutual

/-- The rule grammar of spec §6: `atom := letter | '(' expr ')'`. -/
inductive AtomG : List Char → Prop where
  | letter (c : Char) : isLetter c → AtomG [c]
  | paren (e : List Char) : ExprG e → AtomG ('(' :: (e ++ [')']))

/-- The rule grammar of spec §6: `expr := atom ('*' expr)?`. -/
inductive ExprG : List Char → Prop where
  | atom (a : List Char) : AtomG a → ExprG a
  | star (a e : List Char) : AtomG a → ExprG e → ExprG (a ++ '*' :: e)

end

/-- `src/maps.rs` `TreeBijection`: a pair of address-keyed leaf maps
(`HashMap<*const DAG, Rc<DAG>>` modelled as association lists of root
paths). -/
structure TreeBijection (T : Type) where
  left_to_right : List (List Bool × List Bool)
  right_to_left : List (List Bool × List Bool)

/-- `src/maps.rs` `TreeEquivalence`: two terms, their pattern tables, and the
leaf bijection between them. -/
structure TreeEquivalence (T : Type) where
  left : DAG T
  right : DAG T
  left_pattern_table : List ((Nat × Nat) × Nat)
  right_pattern_table : List ((Nat × Nat) × Nat)
  bijection : TreeBijection T

/-- `src/transform.rs` `TreeTransform`: a directed view of an equivalence
(the Rust struct borrows the equivalence; the model stores it). -/
structure TreeTransform (T : Type) where
  equivalence : TreeEquivalence T
  source_left : Bool

/-- `TreeTransform::new`. -/
def TreeTransform.new {T : Type} (equivalence : TreeEquivalence T) (source_left : Bool) :
    TreeTransform T :=
  ⟨equivalence, source_left⟩

/-- `TreeTransform::source`. -/
def TreeTransform.source {T : Type} (t : TreeTransform T) : DAG T :=
  if t.source_left then t.equivalence.left else t.equivalence.right

/-- `TreeTransform::target`. -/
def TreeTransform.target {T : Type} (t : TreeTransform T) : DAG T :=
  if t.source_left then t.equivalence.right else t.equivalence.left

/-- `TreeEquivalence::left_to_right` (maps.rs line 231). -/
def TreeEquivalence.left_to_right {T : Type} (e : TreeEquivalence T) : TreeTransform T :=
  TreeTransform.new e true

/-- `TreeEquivalence::right_to_left` (maps.rs line 235): the code passes
`true` here as well. -/
def TreeEquivalence.right_to_left {T : Type} (e : TreeEquivalence T) : TreeTransform T :=
  TreeTransform.new e true

/-- Verification predicate: every stored inverse coset representative of the
first level survives a step of `extend` (transversal entries are never
overwritten). -/
def TinvPres (g g' : PermutationGroup) : Prop :=
  ∀ j u, PermutationGroup.inv_coset_repr_list g.transversalOf j = some u →
    PermutationGroup.inv_coset_repr_list g'.transversalOf j = some u

/-- Verification predicate: the cached generator inverse of `extend` is either
not yet computed or the generator's inverse. -/
def GiOk (gen : Permutation) (gi : Option Permutation) : Prop :=
  gi = none ∨ gi = some gen.inverse

/-- Verification predicate: conclusions common to every state-evolving step
of `extend`: well-formedness and the stabilised point are preserved,
transversal entries survive, and membership answers never flip to false. -/
def StepOk (g g' : PermutationGroup) : Prop :=
  g'.wfB = true ∧ g'.stab_point = g.stab_point ∧ TinvPres g g' ∧
  (∀ σ, PermutationGroup.contains_owned g σ = true →
    PermutationGroup.contains_owned g' σ = true)

/-- Induction statement for `extendF`: on success from a well-formed group
and a valid permutation, the step is sound and the new group contains the
extended generator. -/
def PextP (fuel : Nat) : Prop :=
  ∀ G p G', G.wfB = true → p.valid →
    PermutationGroup.extendF fuel G p = some G' →
    StepOk G G' ∧ PermutationGroup.contains_owned G' p = true

/-- Induction statement for `process_orbit`; the final conjunct covers the
very first call of an `extend` run (orbit = stabilised point, no cached
inverse yet): afterwards the group contains the generator. -/
def PpoP (fuel : Nat) : Prop :=
  ∀ g gen gi o q g' gi' q', g.wfB = true → gen.valid → GiOk gen gi →
    PermutationGroup.process_orbit fuel g gen gi o q = some (g', gi', q') →
    StepOk g g' ∧ GiOk gen gi' ∧
      (o = g.stab_point → gi = none →
        PermutationGroup.contains_owned g' gen = true)

/-- Induction statement for the orbit-snapshot loop of `extend`; the final
conjunct covers the start of an `extend` run, whose snapshot list begins with
the stabilised point. -/
def PfoldP (fuel : Nat) : Prop :=
  ∀ gen l g gi q g' gi' q', g.wfB = true → gen.valid → GiOk gen gi →
    PermutationGroup.foldOrbits fuel gen l g gi q = some (g', gi', q') →
    StepOk g g' ∧ GiOk gen gi' ∧
      (l.head? = some g.stab_point → gi = none →
        PermutationGroup.contains_owned g' gen = true)

/-- Induction statement for the work-queue loop of `extend`. -/
def PdrainP (fuel : Nat) : Prop :=
  ∀ gen g gi q g' gi', g.wfB = true → gen.valid → GiOk gen gi →
    PermutationGroup.drain fuel gen g gi q = some (g', gi') →
    StepOk g g' ∧ GiOk gen gi'

/-- The shape denoted by a label of a pattern table: `0` is a leaf, and an
entry `((a, b), l)` makes `l` the label of a branch whose children are
labelled `a` and `b`. -/
inductive HasLabel (tbl : List ((Nat × Nat) × Nat)) : Term → Nat → Prop where
  | var : HasLabel tbl Term.Variable 0
  | op (l r : Term) (a b lab : Nat) : HasLabel tbl l a → HasLabel tbl r b →
      ((a, b), lab) ∈ tbl → HasLabel tbl (Term.Operation l r) lab

/-- Structural invariant of tables built by `TermIndexing::from`: the `i`-th
inserted entry carries label `i + 1`, and its key refers to labels of
strictly earlier entries (or the leaf label `0`). -/
def tblInv (tbl : List ((Nat × Nat) × Nat)) : Prop :=
  ∀ i, (h : i < tbl.length) →
    (tbl.get ⟨i, h⟩).2 = i + 1 ∧ (tbl.get ⟨i, h⟩).1.1 ≤ i ∧ (tbl.get ⟨i, h⟩).1.2 ≤ i

/-- Reachable-state invariant of the tree-structure iterator: `done` is never
set on a live inner frame, and both split sizes are positive. -/
def WFit : TreeStructureIterator → Prop
  | .LeafIterator _ => True
  | .InnerIterator done left right ll rl _ =>
      done = false ∧ WFit left ∧ WFit right ∧ 1 ≤ ll ∧ 1 ≤ rl

/-- State invariant of `EquivalenceClasses` reachable states: the shape table
points at entries holding the very term, and every child entry has an
in-range parent distinct from itself, a ghost rank strictly increasing
towards the root (hence acyclic parent chains), and a parent map going from
its own term to its parent's term. -/
def EqInv (s : EquivalenceClasses) : Prop :=
  (∀ p ∈ s.by_shape, ∃ e, s.entries.get? p.2 = some e ∧ e.termOf = p.1) ∧
  ∃ rk : Nat → Nat,
    ∀ i t p pm, s.entries.get? i = some (EqClassEntry.Child t p pm) →
      p < s.entries.length ∧ rk i < rk p ∧ pm.source = t.term ∧
      ∃ pe, s.entries.get? p = some pe ∧ pm.target = pe.termOf

/-! ### Permutation lemmas -/

theorem Permutation.get_def (p : Permutation) (i : Nat) : p.get i = p.perm[i]?.getD i := by
  simp [Permutation.get, List.getD_eq_getElem?_getD]

theorem Permutation.get_of_lt {p : Permutation} {i : Nat} (h : i < p.perm.length) :
    p.get i = p.perm[i] := by
  simp [Permutation.get_def, List.getElem?_eq_getElem h]

theorem Permutation.get_of_ge {p : Permutation} {i : Nat} (h : p.perm.length ≤ i) :
    p.get i = i := by
  simp [Permutation.get_def, List.getElem?_eq_none h]

theorem Permutation.identity_get (i : Nat) : Permutation.identity.get i = i :=
  Permutation.get_of_ge (by simp [Permutation.identity])

theorem Permutation.eq_of_perm_eq {a b : Permutation} (h : a.perm = b.perm) : a = b := by
  cases a; cases b; simpa using h

theorem Permutation.mul_length (a b : Permutation) :
    (a.mul b).perm.length = max a.perm.length b.perm.length := by
  simp [Permutation.mul]

theorem Permutation.get_mul (a b : Permutation) (i : Nat) :
    (a.mul b).get i = b.get (a.get i) := by
  by_cases h : i < max a.perm.length b.perm.length
  · rw [Permutation.get_of_lt (by simpa [Permutation.mul_length] using h)]
    simp [Permutation.mul, List.getElem_map, List.getElem_range]
  · have ha : a.perm.length ≤ i := le_trans (le_max_left _ _) (Nat.le_of_not_lt h)
    have hb : b.perm.length ≤ i := le_trans (le_max_right _ _) (Nat.le_of_not_lt h)
    rw [Permutation.get_of_ge (by simpa [Permutation.mul_length] using Nat.le_of_not_lt h),
      Permutation.get_of_ge ha, Permutation.get_of_ge hb]

theorem Permutation.map_get_range (p : Permutation) :
    (List.range p.perm.length).map p.get = p.perm := by
  apply List.ext_getElem (by simp)
  intro n h₁ h₂
  simp only [List.getElem_map, List.getElem_range]
  exact Permutation.get_of_lt h₂

theorem Permutation.id_mul (p : Permutation) : Permutation.identity.mul p = p := by
  apply Permutation.eq_of_perm_eq
  show (List.range _).map _ = _
  have : ∀ i, p.get (Permutation.identity.get i) = p.get i := fun i => by
    rw [Permutation.identity_get]
  simp only [Permutation.identity, List.length_nil, Nat.zero_max, Nat.max_zero]
  calc (List.range p.perm.length).map (fun i => p.get ((Permutation.mk []).get i))
      = (List.range p.perm.length).map p.get := by
        apply List.map_congr_left; intro i _; rw [show (Permutation.mk []).get i = i from
          Permutation.get_of_ge (by simp)]
    _ = p.perm := Permutation.map_get_range p

theorem Permutation.mul_id (p : Permutation) : p.mul Permutation.identity = p := by
  apply Permutation.eq_of_perm_eq
  show (List.range _).map _ = _
  simp only [Permutation.identity, List.length_nil, Nat.zero_max, Nat.max_zero]
  calc (List.range p.perm.length).map (fun i => (Permutation.mk []).get (p.get i))
      = (List.range p.perm.length).map p.get := by
        apply List.map_congr_left; intro i _
        rw [show (Permutation.mk []).get (p.get i) = p.get i from
          Permutation.get_of_ge (by simp)]
    _ = p.perm := Permutation.map_get_range p

theorem Permutation.eq_of_get_eq {a b : Permutation}
    (hl : a.perm.length = b.perm.length) (h : ∀ i, a.get i = b.get i) : a = b := by
  apply Permutation.eq_of_perm_eq
  apply List.ext_getElem hl
  intro n h₁ h₂
  rw [← Permutation.get_of_lt h₁, ← Permutation.get_of_lt h₂, h n]

theorem Permutation.mul_assoc (a b c : Permutation) :
    (a.mul b).mul c = a.mul (b.mul c) := by
  apply Permutation.eq_of_get_eq
  · simp [Permutation.mul_length, Nat.max_assoc]
  · intro i
    simp [Permutation.get_mul]

/-! ### Validity lemmas -/

theorem Permutation.valid_identity : Permutation.identity.valid := by
  constructor <;> simp [Permutation.identity]

theorem Permutation.valid.get_lt {p : Permutation} (hp : p.valid) {i n : Nat}
    (hn : p.perm.length ≤ n) (h : i < n) : p.get i < n := by
  by_cases hi : i < p.perm.length
  · rw [Permutation.get_of_lt hi]
    exact lt_of_lt_of_le (hp.2 _ (List.getElem_mem hi)) hn
  · rw [Permutation.get_of_ge (Nat.le_of_not_lt hi)]; exact h

theorem Permutation.valid.get_inj {p : Permutation} (hp : p.valid) :
    Function.Injective p.get := by
  intro i j h
  by_cases hi : i < p.perm.length <;> by_cases hj : j < p.perm.length
  · rw [Permutation.get_of_lt hi, Permutation.get_of_lt hj] at h
    exact (hp.1.getElem_inj_iff.mp h)
  · exfalso
    rw [Permutation.get_of_lt hi, Permutation.get_of_ge (Nat.le_of_not_lt hj)] at h
    have : p.perm[i] < p.perm.length := hp.2 _ (List.getElem_mem hi)
    omega
  · exfalso
    rw [Permutation.get_of_ge (Nat.le_of_not_lt hi), Permutation.get_of_lt hj] at h
    have : p.perm[j] < p.perm.length := hp.2 _ (List.getElem_mem hj)
    omega
  · rw [Permutation.get_of_ge (Nat.le_of_not_lt hi), Permutation.get_of_ge
      (Nat.le_of_not_lt hj)] at h
    exact h

theorem Permutation.valid.get_surj {p : Permutation} (hp : p.valid) {j : Nat}
    (hj : j < p.perm.length) : ∃ i < p.perm.length, p.get i = j := by
  classical
  set n := p.perm.length with hn
  have hsub : (Finset.range n).image p.get ⊆ Finset.range n := by
    intro x hx
    obtain ⟨i, hi, rfl⟩ := Finset.mem_image.mp hx
    exact Finset.mem_range.mpr (hp.get_lt le_rfl (Finset.mem_range.mp hi))
  have hcard : ((Finset.range n).image p.get).card = n := by
    rw [Finset.card_image_of_injective _ hp.get_inj, Finset.card_range]
  have heq : (Finset.range n).image p.get = Finset.range n :=
    Finset.eq_of_subset_of_card_le hsub (by rw [hcard, Finset.card_range])
  have : j ∈ (Finset.range n).image p.get := by rw [heq]; exact Finset.mem_range.mpr hj
  obtain ⟨i, hi, hg⟩ := Finset.mem_image.mp this
  exact ⟨i, Finset.mem_range.mp hi, hg⟩

theorem Permutation.valid.mul {a b : Permutation} (ha : a.valid) (hb : b.valid) :
    (a.mul b).valid := by
  have hinj : Function.Injective (fun i => b.get (a.get i)) :=
    fun i j h => ha.get_inj (hb.get_inj h)
  constructor
  · exact (List.nodup_range _).map hinj
  · intro v hv
    simp only [Permutation.mul, List.mem_map, List.mem_range] at hv
    obtain ⟨i, hi, rfl⟩ := hv
    rw [Permutation.mul_length]
    exact hb.get_lt (le_max_right _ _) (ha.get_lt (le_max_left _ _) hi)

/-! ### Inverse lemmas -/

theorem foldl_set_length (l : List (Nat × Nat)) (acc : List Nat) :
    (l.foldl (fun a iv => a.set iv.2 iv.1) acc).length = acc.length := by
  induction l generalizing acc with
  | nil => rfl
  | cons hd tl ih => simp [List.foldl_cons, ih, List.length_set]

theorem foldl_set_get_not_mem (l : List (Nat × Nat)) (acc : List Nat) (v : Nat)
    (h : v ∉ l.map Prod.snd) :
    (l.foldl (fun a iv => a.set iv.2 iv.1) acc)[v]? = acc[v]? := by
  induction l generalizing acc with
  | nil => rfl
  | cons hd tl ih =>
      simp only [List.map_cons, List.mem_cons, not_or] at h
      rw [List.foldl_cons, ih _ h.2, List.getElem?_set_ne (fun he => h.1 he.symm)]

theorem foldl_set_get_mem (l : List (Nat × Nat)) (acc : List Nat) (i v : Nat)
    (hmem : (i, v) ∈ l) (hnd : (l.map Prod.snd).Nodup) (hv : v < acc.length) :
    (l.foldl (fun a iv => a.set iv.2 iv.1) acc)[v]? = some i := by
  induction l generalizing acc with
  | nil => cases hmem
  | cons hd tl ih =>
      simp only [List.map_cons, List.nodup_cons] at hnd
      rcases List.mem_cons.mp hmem with heq | htl
      · subst heq
        rw [List.foldl_cons, foldl_set_get_not_mem _ _ _ hnd.1,
          List.getElem?_set_self', List.getElem?_eq_getElem hv]
        rfl
      · rw [List.foldl_cons]
        exact ih _ htl hnd.2 (by simpa [List.length_set] using hv)

theorem Permutation.inverse_length (p : Permutation) :
    p.inverse.perm.length = p.perm.length := by
  simp [Permutation.inverse, foldl_set_length]

theorem Permutation.inverse_get_entry {p : Permutation} (hp : p.valid) {i : Nat}
    (h : i < p.perm.length) : p.inverse.get (p.perm[i]) = i := by
  have hmem : (i, p.perm[i]) ∈ p.perm.enum := by
    have hi : i < p.perm.enum.length := by simpa [List.enum_length] using h
    have := List.getElem_enum p.perm i hi
    rw [← this]
    exact List.getElem_mem hi
  have hnd : (p.perm.enum.map Prod.snd).Nodup := by
    rw [List.enum_map_snd]; exact hp.1
  have hv : p.perm[i] < (List.replicate p.perm.length 0).length := by
    simpa using hp.2 _ (List.getElem_mem h)
  have := foldl_set_get_mem p.perm.enum (List.replicate p.perm.length 0) i (p.perm[i]) hmem hnd hv
  rw [Permutation.get_def]
  show (Permutation.inverse p).perm[p.perm[i]]?.getD _ = i
  rw [show (Permutation.inverse p).perm = p.perm.enum.foldl (fun a iv => a.set iv.2 iv.1)
    (List.replicate p.perm.length 0) from rfl, this]
  rfl

theorem Permutation.inverse_get {p : Permutation} (hp : p.valid) (i : Nat) :
    p.inverse.get (p.get i) = i := by
  by_cases h : i < p.perm.length
  · rw [Permutation.get_of_lt h]; exact Permutation.inverse_get_entry hp h
  · have h1 : p.get i = i := Permutation.get_of_ge (Nat.le_of_not_lt h)
    rw [h1]
    exact Permutation.get_of_ge (by rw [Permutation.inverse_length]; exact Nat.le_of_not_lt h)

theorem Permutation.get_inverse {p : Permutation} (hp : p.valid) {j : Nat} :
    p.get (p.inverse.get j) = j := by
  by_cases hj : j < p.perm.length
  · obtain ⟨i, _, rfl⟩ := hp.get_surj hj
    rw [Permutation.inverse_get hp]
  · have h1 : p.inverse.get j = j := Permutation.get_of_ge
      (by rw [Permutation.inverse_length]; exact Nat.le_of_not_lt hj)
    rw [h1]
    exact Permutation.get_of_ge (Nat.le_of_not_lt hj)

theorem Permutation.valid.inverse {p : Permutation} (hp : p.valid) : p.inverse.valid := by
  constructor
  · rw [List.nodup_iff_injective_get]
    intro a b h
    have ha := Permutation.get_of_lt (p := p.inverse) a.2
    have hb := Permutation.get_of_lt (p := p.inverse) b.2
    have hab : p.inverse.get a.1 = p.inverse.get b.1 := by
      rw [ha, hb]; simpa using h
    have := congrArg p.get hab
    rw [Permutation.get_inverse hp, Permutation.get_inverse hp] at this
    exact Fin.ext this
  · intro v hv
    obtain ⟨j, hj, rfl⟩ := List.mem_iff_getElem.mp hv
    rw [Permutation.inverse_length] at hj ⊢
    rw [← Permutation.get_of_lt (by rwa [Permutation.inverse_length])]
    by_contra hge
    push_neg at hge
    have h1 : p.get (p.inverse.get j) = p.inverse.get j := Permutation.get_of_ge hge
    have h2 : p.get (p.inverse.get j) = j := Permutation.get_inverse hp
    omega

theorem Permutation.mul_inverse_idFun {p : Permutation} (hp : p.valid) (i : Nat) :
    (p.mul p.inverse).get i = i := by
  rw [Permutation.get_mul, Permutation.inverse_get hp]

/-! ### nonfix lemmas -/

theorem Permutation.nonfixAux_eq_none_iff (l : List Nat) (i : Nat) :
    Permutation.nonfixAux i l = none ↔ ∀ k, l.getD k (i + k) = i + k := by
  induction l generalizing i with
  | nil => simp [Permutation.nonfixAux, List.getD_nil]
  | cons v rest ih =>
      constructor
      · intro h k
        by_cases hv : i = v
        · subst hv
          rw [Permutation.nonfixAux, if_neg (by simp)] at h
          cases k with
          | zero => simp [List.getD_cons_zero]
          | succ k =>
              have h' := (ih (i + 1)).mp h k
              rw [List.getD_cons_succ]
              have he : i + (k + 1) = (i + 1) + k := by omega
              rw [he]
              exact h'
        · rw [Permutation.nonfixAux, if_pos hv] at h
          cases h
      · intro h
        have h0 : v = i := by
          have := h 0
          simpa [List.getD_cons_zero] using this
        rw [Permutation.nonfixAux, if_neg (by omega)]
        apply (ih (i + 1)).mpr
        intro k
        have := h (k + 1)
        rw [List.getD_cons_succ] at this
        have he : (i + 1) + k = i + (k + 1) := by omega
        rw [he]
        exact this

theorem Permutation.nonfixAux_first (l : List Nat) (i k : Nat)
    (hne : l.getD k (i + k) ≠ i + k) (hmin : ∀ j < k, l.getD j (i + j) = i + j) :
    Permutation.nonfixAux i l = some (l.getD k (i + k)) := by
  induction l generalizing i k with
  | nil => rw [List.getD_nil] at hne; exact absurd rfl hne
  | cons v rest ih =>
      cases k with
      | zero =>
          rw [List.getD_cons_zero] at hne ⊢
          rw [Permutation.nonfixAux, if_pos (by omega)]
      | succ k =>
          have h0 : v = i := by
            have := hmin 0 (Nat.succ_pos k)
            simpa [List.getD_cons_zero] using this
          rw [Permutation.nonfixAux, if_neg (by omega)]
          rw [List.getD_cons_succ] at hne ⊢
          have he : i + (k + 1) = (i + 1) + k := by omega
          rw [he] at hne ⊢
          exact ih (i + 1) k hne (fun j hj => by
            have := hmin (j + 1) (by omega)
            rw [List.getD_cons_succ] at this
            have he2 : i + (j + 1) = (i + 1) + j := by omega
            rw [he2] at this
            exact this)

theorem Permutation.nonfix_index_eq_none_iff (p : Permutation) :
    p.nonfix_index = none ↔ ∀ i, p.get i = i := by
  rw [Permutation.nonfix_index, Permutation.nonfixAux_eq_none_iff]
  constructor
  · intro h i
    have := h i
    simpa [Permutation.get] using this
  · intro h k
    have := h k
    simpa [Permutation.get] using this

theorem Permutation.is_identity_iff (p : Permutation) :
    p.is_identity = true ↔ ∀ i, p.get i = i := by
  rw [Permutation.is_identity, Option.isNone_iff_eq_none, Permutation.nonfix_index_eq_none_iff]

theorem Permutation.nonfix_index_eq_some (p : Permutation) (k : Nat)
    (hne : p.get k ≠ k) (hmin : ∀ j < k, p.get j = j) :
    p.nonfix_index = some (p.get k) := by
  have hgoal := Permutation.nonfixAux_first p.perm 0 k
    (by simpa [Permutation.get] using hne)
    (fun j hj => by simpa [Permutation.get] using hmin j hj)
  simpa [Permutation.nonfix_index, Permutation.get] using hgoal

/-! ### Claims C5, C10, C1 -/

/-- C5 counterexample: for π = (0 1), stored as `[1, 0]`, the smallest index
`i` with `π(i) ≠ i` is `0`, but `nonfix_index` returns `some 1` — the image at
that index — so it does not return the smallest non-fixed index. -/
theorem C5_counterexample :
    (Permutation.mk [1, 0]).get 0 ≠ 0 ∧
    Permutation.nonfix_index (Permutation.mk [1, 0]) ≠ some 0 ∧
    Permutation.nonfix_index (Permutation.mk [1, 0]) = some 1 := by
  refine ⟨by decide, by decide, by decide⟩

/-- C5 (amended): `nonfix_index` returns `some (π(i₀))` — the image stored at
the smallest non-fixed index `i₀`, itself a non-fixed point but not in
general the smallest — when a non-fixed index exists, and `none` when π acts
as the identity; consequently the base point of a lazily created automorphism
group is the image under the first non-trivial generator of that generator's
first non-fixed index. -/
theorem C5_nonfix_index_returns_image (p : Permutation) (k : Nat)
    (hne : p.get k ≠ k) (hmin : ∀ j < k, p.get j = j) :
    p.nonfix_index = some (p.get k) ∧
    (∀ q : Permutation, (∀ i, q.get i = i) → q.nonfix_index = none) ∧
    (∀ b, p.nonfix_index = some b → (PermutationGroup.new b).stab_point = b) := by
  refine ⟨Permutation.nonfix_index_eq_some p k hne hmin, ?_, ?_⟩
  · intro q hq
    exact (Permutation.nonfix_index_eq_none_iff q).mpr hq
  · intro b _
    rfl

/-- Witness for C5 at π = (0 1): the returned value is the image at index 0. -/
theorem C5_witness :
    Permutation.nonfix_index (Permutation.mk [1, 0]) =
      some ((Permutation.mk [1, 0]).get 0) :=
  (C5_nonfix_index_returns_image (Permutation.mk [1, 0]) 0 (by decide)
    (by intro j hj; omega)).1

/-- C10: `TreeEquivalence::right_to_left` passes `true` to
`TreeTransform::new` exactly as `left_to_right` does, so the two accessors
return the same transform, its `source_left` flag is `true`, and its source
is the left term — no right-to-left-oriented transform is produced. -/
theorem C10_right_to_left_eq_left_to_right {T : Type} (e : TreeEquivalence T) :
    e.right_to_left = e.left_to_right ∧
    (e.right_to_left).source_left = true ∧
    (e.right_to_left).source = e.left := by
  refine ⟨rfl, rfl, ?_⟩
  simp [TreeEquivalence.right_to_left, TreeTransform.new, TreeTransform.source]

/-- C1: evaluation of `Term::substitute` at the failing input.  Host
`H = (V*V)*V`, match site its left branch, rewrite bijection the identity on
`V*V`.  The accumulated vector of host-leaf indices is `[0, 2, 2]`: position 1
of the result receives host index 2 instead of 1 (the code offsets the range
by the running `leaf_index`, which has already advanced past earlier
replacement copies), so the map is not a permutation of `[0, 3)` and the
returned leaf map cannot be a total bijection. -/
theorem C1_substitute_map_not_bijection :
    Term.substitute (Term.Operation (Term.Operation Term.Variable Term.Variable) Term.Variable)
        [false]
        ⟨Term.Operation Term.Variable Term.Variable,
          Term.Operation Term.Variable Term.Variable, ⟨[0, 1]⟩, ⟨[0, 1]⟩⟩ =
      some (Term.Operation (Term.Operation Term.Variable Term.Variable) Term.Variable,
        [0, 2, 2]) ∧
    ¬ List.Nodup [0, 2, 2] ∧ ¬ List.Perm [0, 2, 2] (List.range 3) := by
  refine ⟨by decide, by decide, by decide⟩

/-! ### Substitution lemmas (C6) -/

theorem embedLeaves_spec :
    ∀ (L region : Term) (es : List Term), embedLeaves L region = some es →
      es.length = L.leafCount ∧ (es.map Term.leafCount).sum = region.leafCount := by
  intro L
  induction L with
  | Variable =>
      intro region es h
      simp only [embedLeaves, Option.some_inj] at h
      subst h
      simp [Term.leafCount]
  | Operation pl pr ihl ihr =>
      intro region es h
      cases region with
      | Variable => simp [embedLeaves] at h
      | Operation hl hr =>
          simp only [embedLeaves, bind, Option.pure_def, Option.bind_eq_some,
            Option.some_inj] at h
          obtain ⟨a, ha, b, hb, rfl⟩ := h
          obtain ⟨hal, has⟩ := ihl hl a ha
          obtain ⟨hbl, hbs⟩ := ihr hr b hb
          constructor
          · simp [Term.leafCount, hal, hbl]
          · simp [Term.leafCount, List.sum_append, has, hbs]

theorem mkReplacements_sizes :
    ∀ (es : List Term) (acc : Nat) (x : Term × Nat × Nat), x ∈ mkReplacements es acc →
      x.2.2 - x.2.1 = x.1.leafCount := by
  intro es
  induction es with
  | nil => intro acc x hx; cases hx
  | cons t rest ih =>
      intro acc x hx
      rcases List.mem_cons.mp hx with rfl | hx
      · simp
      · exact ih _ x hx

theorem mkReplacements_get? :
    ∀ (es : List Term) (acc ti : Nat),
      (mkReplacements es acc).get? ti =
        (es.get? ti).map (fun t =>
          (t, acc + ((es.take ti).map Term.leafCount).sum,
            acc + ((es.take ti).map Term.leafCount).sum + t.leafCount)) := by
  intro es
  induction es with
  | nil => intro acc ti; simp [mkReplacements]
  | cons t rest ih =>
      intro acc ti
      cases ti with
      | zero => simp [mkReplacements]
      | succ ti =>
          simp only [mkReplacements, List.get?_cons_succ, ih (acc + t.leafCount) ti,
            List.take_succ_cons, List.map_cons, List.sum_cons]
          cases h : rest.get? ti with
          | none => simp
          | some t' =>
              simp only [Option.map_some']
              have he : acc + t.leafCount + ((rest.take ti).map Term.leafCount).sum =
                  acc + (t.leafCount + ((rest.take ti).map Term.leafCount).sum) := by omega
              rw [he]

/-- Leaf-count bookkeeping of `instantiate_target`: the computed tree's leaf
count is the sum of the replacement sizes looked up through the consumed
backward segment, and `leaf_index` and the map length advance by exactly that
amount. -/
theorem instantiate_target_spec (reps : List (Term × Nat × Nat)) (bw : List Nat)
    (hreps : ∀ x ∈ reps, x.2.2 - x.2.1 = x.1.leafCount) :
    ∀ (R : Term) (j li : Nat) (t : Term) (j' li' : Nat) (cm : List Nat),
      instantiate_target reps bw R j li = some (t, j', li', cm) →
      j' = j + R.leafCount ∧ j + R.leafCount ≤ bw.length ∧
      li' = li + t.leafCount ∧ cm.length = t.leafCount ∧
      t.leafCount = (((bw.drop j).take R.leafCount).map
        (fun ti => ((reps.get? ti).map (fun x => x.1.leafCount)).getD 0)).sum := by
  intro R
  induction R with
  | Variable =>
      intro j li t j' li' cm h
      simp only [instantiate_target, bind, Option.bind_eq_some] at h
      obtain ⟨ti, hti, x, hrse, hrest⟩ := h
      obtain ⟨rep, s, e⟩ := x
      simp only [Option.pure_def, Option.some_inj, Prod.mk.injEq] at hrest
      obtain ⟨h1, h2, h3, h4⟩ := hrest
      subst h1; subst h2; subst h3; subst h4
      have hj : j < bw.length := (List.get?_eq_some.mp hti).1
      have hsz : e - s = rep.leafCount := hreps _ (List.get?_mem hrse)
      have hdrop : bw.drop j = bw[j] :: bw.drop (j + 1) := List.drop_eq_getElem_cons hj
      have hbwj : bw[j] = ti := by
        have := (List.get?_eq_some.mp hti).2
        simpa using this
      have hlookup : reps[ti]? = some (rep, s, e) := by
        rw [← List.get?_eq_getElem?]; exact hrse
      refine ⟨rfl, by simp [Term.leafCount]; omega, by simp [hsz], ?_, ?_⟩
      · simp [List.length_range', hsz]
      · simp [Term.leafCount, hdrop, hbwj, hrse, hlookup, hsz]
  | Operation l r ihl ihr =>
      intro j li t j' li' cm h
      simp only [instantiate_target, bind, Option.bind_eq_some] at h
      obtain ⟨x1, hl, x2, hr, hrest⟩ := h
      obtain ⟨tl, j₁, li₁, m₁⟩ := x1
      obtain ⟨tr, j₂, li₂, m₂⟩ := x2
      simp only [Option.pure_def, Option.some_inj, Prod.mk.injEq] at hrest
      obtain ⟨h1, h2, h3, h4⟩ := hrest
      subst h1; subst h2; subst h3; subst h4
      obtain ⟨hj1, hble, hli1, hcm1, hsz1⟩ := ihl j li tl j₁ li₁ m₁ hl
      obtain ⟨hj2, hble2, hli2, hcm2, hsz2⟩ := ihr j₁ li₁ tr j₂ li₂ m₂ hr
      subst hj1
      have hsplit : (bw.drop j).take (Term.Operation l r).leafCount =
          (bw.drop j).take l.leafCount ++ (bw.drop (j + l.leafCount)).take r.leafCount := by
        rw [show (Term.Operation l r).leafCount = l.leafCount + r.leafCount from rfl,
          List.take_add, List.drop_drop]
      refine ⟨by simp [Term.leafCount]; omega, by simp [Term.leafCount]; omega,
        by simp [Term.leafCount]; omega, by simp [Term.leafCount, hcm1, hcm2], ?_⟩
      rw [hsplit, List.map_append, List.sum_append, ← hsz1, ← hsz2]
      simp [Term.leafCount]

/-- Leaf-count bookkeeping of `insert_replacements_helper`: outside the match
site the tree is rebuilt leaf for leaf; when the path designates a branch node
the match region is replaced by the instantiated rewrite target. -/
theorem insert_helper_spec (reps : List (Term × Nat × Nat)) (bw : List Nat) (R : Term)
    (hreps : ∀ x ∈ reps, x.2.2 - x.2.1 = x.1.leafCount) :
    ∀ (t : Term) (mp : Option (List Bool)) (li : Nat) (t' : Term) (li' : Nat) (cm : List Nat),
      insert_replacements_helper reps bw R t mp li = some (t', li', cm) →
      li' = li + t'.leafCount ∧ cm.length = t'.leafCount ∧
        (t'.leafCount = t.leafCount ∨
          ∃ p region, mp = some p ∧ t.subtreeAt p = some region ∧
            t'.leafCount + region.leafCount =
              t.leafCount + ((bw.take R.leafCount).map
                (fun ti => ((reps.get? ti).map (fun x => x.1.leafCount)).getD 0)).sum) := by
  intro t
  induction t with
  | Variable =>
      intro mp li t' li' cm h
      simp only [insert_replacements_helper, Option.some_inj, Prod.mk.injEq] at h
      obtain ⟨h1, h2, h3⟩ := h
      subst h1; subst h2; subst h3
      exact ⟨by simp [Term.leafCount], by simp [Term.leafCount], Or.inl rfl⟩
  | Operation l r ihl ihr =>
      intro mp li t' li' cm h
      match mp with
      | some [] =>
          simp only [insert_replacements_helper, bind, Option.bind_eq_some] at h
          obtain ⟨x, hinst, hrest⟩ := h
          obtain ⟨ti, tj, tli, tcm⟩ := x
          simp only [Option.pure_def, Option.some_inj, Prod.mk.injEq] at hrest
          obtain ⟨h1, h2, h3⟩ := hrest
          subst h1; subst h2; subst h3
          obtain ⟨-, -, hli, hcm, hsz⟩ :=
            instantiate_target_spec reps bw hreps R 0 li _ _ _ _ hinst
          refine ⟨hli, hcm, Or.inr ⟨[], Term.Operation l r, rfl, rfl, ?_⟩⟩
          simp only [List.drop_zero] at hsz
          rw [hsz]
          simp [List.map_take]
          omega
      | none =>
          simp only [insert_replacements_helper, bind, Option.bind_eq_some] at h
          obtain ⟨x1, hL, x2, hR, hrest⟩ := h
          obtain ⟨tl, li₁, m₁⟩ := x1
          obtain ⟨tr, li₂, m₂⟩ := x2
          simp only [Option.pure_def, Option.some_inj, Prod.mk.injEq] at hrest
          obtain ⟨h1, h2, h3⟩ := hrest
          subst h1; subst h2; subst h3
          obtain ⟨hli1, hcm1, hd1⟩ := ihl none li tl li₁ m₁ hL
          obtain ⟨hli2, hcm2, hd2⟩ := ihr none li₁ tr li₂ m₂ hR
          have e1 : tl.leafCount = l.leafCount := by
            rcases hd1 with h | ⟨p, _, hp, _⟩
            · exact h
            · cases hp
          have e2 : tr.leafCount = r.leafCount := by
            rcases hd2 with h | ⟨p, _, hp, _⟩
            · exact h
            · cases hp
          exact ⟨by simp [Term.leafCount]; omega, by simp [Term.leafCount, hcm1, hcm2],
            Or.inl (by simp [Term.leafCount, e1, e2])⟩
      | some (true :: rest) =>
          simp only [insert_replacements_helper, bind, Option.bind_eq_some, if_true] at h
          obtain ⟨x1, hL, x2, hR, hrest⟩ := h
          obtain ⟨tl, li₁, m₁⟩ := x1
          obtain ⟨tr, li₂, m₂⟩ := x2
          simp only [Option.pure_def, Option.some_inj, Prod.mk.injEq] at hrest
          obtain ⟨h1, h2, h3⟩ := hrest
          subst h1; subst h2; subst h3
          obtain ⟨hli1, hcm1, hd1⟩ := ihl none li tl li₁ m₁ hL
          obtain ⟨hli2, hcm2, hd2⟩ := ihr (some rest) li₁ tr li₂ m₂ hR
          have e1 : tl.leafCount = l.leafCount := by
            rcases hd1 with h | ⟨p, _, hp, _⟩
            · exact h
            · cases hp
          refine ⟨by simp [Term.leafCount]; omega,
            by simp [Term.leafCount, hcm1, hcm2], ?_⟩
          rcases hd2 with h | ⟨p, region, hp, hsub, hsum⟩
          · exact Or.inl (by simp [Term.leafCount, e1, h])
          · obtain ⟨rfl⟩ : rest = p := by injection hp
            refine Or.inr ⟨true :: rest, region, rfl, ?_, ?_⟩
            · show Term.subtreeAt (if true then r else l) rest = some region
              simpa using hsub
            · simp only [Term.leafCount]
              omega
      | some (false :: rest) =>
          simp only [insert_replacements_helper, bind, Option.bind_eq_some,
            if_false] at h
          obtain ⟨x1, hL, x2, hR, hrest⟩ := h
          obtain ⟨tl, li₁, m₁⟩ := x1
          obtain ⟨tr, li₂, m₂⟩ := x2
          simp only [Option.pure_def, Option.some_inj, Prod.mk.injEq] at hrest
          obtain ⟨h1, h2, h3⟩ := hrest
          subst h1; subst h2; subst h3
          obtain ⟨hli1, hcm1, hd1⟩ := ihl (some rest) li tl li₁ m₁ hL
          obtain ⟨hli2, hcm2, hd2⟩ := ihr none li₁ tr li₂ m₂ hR
          have e2 : tr.leafCount = r.leafCount := by
            rcases hd2 with h | ⟨p, _, hp, _⟩
            · exact h
            · cases hp
          refine ⟨by simp [Term.leafCount]; omega,
            by simp [Term.leafCount, hcm1, hcm2], ?_⟩
          rcases hd1 with h | ⟨p, region, hp, hsub, hsum⟩
          · exact Or.inl (by simp [Term.leafCount, e2, h])
          · obtain ⟨rfl⟩ : rest = p := by injection hp
            refine Or.inr ⟨false :: rest, region, rfl, ?_, ?_⟩
            · show Term.subtreeAt (if false then r else l) rest = some region
              simpa using hsub
            · simp only [Term.leafCount]
              omega

/-- C6: every rewrite step performed by `substitute` with a rewrite bijection
whose backward array is a permutation of the target's leaf positions and
whose two sides have equal leaf counts preserves the host's leaf count. -/
theorem C6_substitute_preserves_leaf_count (H : Term) (path : List Bool) (b : TermBijection)
    (res : Term) (cmap : List Nat)
    (hsub : Term.substitute H path b = some (res, cmap))
    (hperm : List.Perm b.backward.perm (List.range b.target.leafCount))
    (hlen : b.source.leafCount = b.target.leafCount) :
    res.leafCount = H.leafCount := by
  simp only [Term.substitute, bind, Option.bind_eq_some] at hsub
  obtain ⟨region, hregion, es, hes, x, hhelp, hrest⟩ := hsub
  obtain ⟨rt, rli, rcm⟩ := x
  simp only [Option.pure_def, Option.some_inj, Prod.mk.injEq] at hrest
  obtain ⟨h1, h2⟩ := hrest
  subst h1; subst h2
  have hreps := mkReplacements_sizes es 0
  obtain ⟨-, -, hdisj⟩ := insert_helper_spec (mkReplacements es 0) b.backward.perm b.target
    hreps H (some path) 0 rt rli rcm hhelp
  rcases hdisj with h | ⟨p, reg2, hp, hsub2, hsum⟩
  · exact h
  · have hpp : p = path := by injection hp with h0; exact h0.symm
    subst hpp
    rw [hregion] at hsub2
    have heqr : reg2 = region := by injection hsub2 with h0; exact h0.symm
    rw [heqr] at hsum
    obtain ⟨heslen, hessum⟩ := embedLeaves_spec b.source region es hes
    have hbwlen : b.backward.perm.length = b.target.leafCount := by
      simpa using hperm.length_eq
    have htake : b.backward.perm.take b.target.leafCount = b.backward.perm := by
      rw [← hbwlen]; exact List.take_length _
    have hmapped : (List.range es.length).map
        (fun ti => (((mkReplacements es 0).get? ti).map (fun x => x.1.leafCount)).getD 0) =
        es.map Term.leafCount := by
      apply List.ext_getElem (by simp)
      intro n h₁ h₂
      have hn : n < es.length := by simpa using h₁
      have hget : es.get? n = some es[n] := by
        rw [List.get?_eq_getElem?, List.getElem?_eq_getElem hn]
      simp only [List.getElem_map, List.getElem_range]
      rw [mkReplacements_get?, hget]
      simp
    have hsum_eq : ((b.backward.perm.take b.target.leafCount).map
        (fun ti => (((mkReplacements es 0).get? ti).map (fun x => x.1.leafCount)).getD 0)).sum =
        region.leafCount := by
      rw [htake]
      have hp2 := hperm.map
        (fun ti => (((mkReplacements es 0).get? ti).map (fun x => x.1.leafCount)).getD 0)
      rw [hp2.sum_eq]
      have hnr : b.target.leafCount = es.length := by omega
      rw [hnr, hmapped, hessum]
    rw [hsum_eq] at hsum
    omega

/-- Witness for C6: the commuted rewrite `V*V → V*V` with π = (0 1) applied
at the left branch of `(V*V)*V` preserves the leaf count 3. -/
theorem C6_witness :
    (Term.Operation (Term.Operation Term.Variable Term.Variable) Term.Variable).leafCount =
      (Term.Operation (Term.Operation Term.Variable Term.Variable) Term.Variable).leafCount :=
  C6_substitute_preserves_leaf_count
    (Term.Operation (Term.Operation Term.Variable Term.Variable) Term.Variable) [false]
    ⟨Term.Operation Term.Variable Term.Variable,
      Term.Operation Term.Variable Term.Variable, ⟨[1, 0]⟩, ⟨[1, 0]⟩⟩
    (Term.Operation (Term.Operation Term.Variable Term.Variable) Term.Variable) [1, 1, 2]
    (by decide) (by decide) (by decide)

/-! ### Group lemmas (C7, C3) -/

theorem PermutationGroup.wfB_unfold (b : Nat) (gens : List Permutation)
    (tinv : List (Option Permutation)) (orbits : List Nat) (sub : Option PermutationGroup)
    (h : (PermutationGroup.mk b gens tinv orbits sub).wfB = true) :
    PermutationGroup.inv_coset_repr_list tinv b = some Permutation.identity ∧
    orbits.head? = some b ∧
    (∀ o ∈ tinv, ∀ u, o = some u → u.valid) ∧
    (∀ g, sub = some g → g.wfB = true) := by
  rw [PermutationGroup.wfB.eq_def] at h
  simp only [Bool.and_eq_true, decide_eq_true_eq, List.all_eq_true] at h
  obtain ⟨⟨⟨h1, h2⟩, h3⟩, h4⟩ := h
  refine ⟨h1, h2, ?_, ?_⟩
  · intro o ho u hu
    have := h3 o ho
    subst hu
    simpa [decide_eq_true_eq] using this
  · intro g hg
    subst hg
    exact h4

theorem PermutationGroup.depth_some (b : Nat) (gens : List Permutation)
    (tinv : List (Option Permutation)) (orbits : List Nat) (g' : PermutationGroup) :
    (PermutationGroup.mk b gens tinv orbits (some g')).depth = g'.depth + 1 := rfl

theorem PermutationGroup.contains_owned_mk (b : Nat) (gens : List Permutation)
    (tinv : List (Option Permutation)) (orbits : List Nat)
    (sub : Option PermutationGroup) (p : Permutation) :
    PermutationGroup.contains_owned (.mk b gens tinv orbits sub) p =
      match PermutationGroup.inv_coset_repr_list tinv (p.get b) with
      | none => false
      | some u =>
        match sub with
        | none => (p.mul u).is_identity
        | some g => PermutationGroup.contains_owned g (p.mul u) := by
  rw [PermutationGroup.contains_owned.eq_def]

theorem PermutationGroup.contains_id_aux :
    ∀ (n : Nat) (g : PermutationGroup) (p : Permutation), g.depth ≤ n →
      g.wfB = true → (∀ i, p.get i = i) → g.contains_owned p = true := by
  intro n
  induction n with
  | zero =>
      intro g p hd hwf hp
      obtain ⟨b, gens, tinv, orbits, sub⟩ := g
      cases sub with
      | none =>
          obtain ⟨h1, -, -, -⟩ := PermutationGroup.wfB_unfold _ _ _ _ _ hwf
          rw [PermutationGroup.contains_owned_mk, hp b, h1]
          show (p.mul Permutation.identity).is_identity = true
          rw [Permutation.mul_id]
          exact (Permutation.is_identity_iff p).mpr hp
      | some g' => rw [PermutationGroup.depth_some] at hd; omega
  | succ n ih =>
      intro g p hd hwf hp
      obtain ⟨b, gens, tinv, orbits, sub⟩ := g
      obtain ⟨h1, -, -, h4⟩ := PermutationGroup.wfB_unfold _ _ _ _ _ hwf
      cases sub with
      | none =>
          rw [PermutationGroup.contains_owned_mk, hp b, h1]
          show (p.mul Permutation.identity).is_identity = true
          rw [Permutation.mul_id]
          exact (Permutation.is_identity_iff p).mpr hp
      | some g' =>
          rw [PermutationGroup.contains_owned_mk, hp b, h1]
          show PermutationGroup.contains_owned g' (p.mul Permutation.identity) = true
          rw [Permutation.mul_id]
          exact ih g' p (by rw [PermutationGroup.depth_some] at hd; omega) (h4 g' rfl) hp

theorem PermutationGroup.contains_id {g : PermutationGroup} {p : Permutation}
    (hwf : g.wfB = true) (hp : ∀ i, p.get i = i) : g.contains_owned p = true :=
  PermutationGroup.contains_id_aux g.depth g p le_rfl hwf hp

theorem PermutationGroup.pick_stab_point_eq_none_iff (gens : List Permutation) :
    PermutationGroup.pick_stab_point gens = none ↔ ∀ g ∈ gens, g.is_identity = true := by
  unfold PermutationGroup.pick_stab_point
  cases hdw : (gens.map Permutation.nonfix_index).dropWhile Option.isNone with
  | nil =>
      simp only [hdw, List.head?_nil, Option.join]
      constructor
      · intro _ g hg
        have hall := List.dropWhile_eq_nil_iff.mp hdw
        have := hall (g.nonfix_index) (List.mem_map_of_mem _ hg)
        simpa [Permutation.is_identity] using this
      · intro _; rfl
  | cons o rest =>
      have hnotnone : o.isNone = false := by
        have := List.head?_dropWhile_not Option.isNone (gens.map Permutation.nonfix_index)
        rw [hdw] at this
        simpa using this
      have homem : o ∈ gens.map Permutation.nonfix_index := by
        have hsub : List.Sublist
            ((gens.map Permutation.nonfix_index).dropWhile Option.isNone)
            (gens.map Permutation.nonfix_index) := List.dropWhile_sublist _
        exact hsub.subset (hdw ▸ List.mem_cons_self o rest)
      obtain ⟨g, hg, hgo⟩ := List.mem_map.mp homem
      cases o with
      | none => simp at hnotnone
      | some v =>
          show some v = none ↔ ∀ g ∈ gens, g.is_identity = true
          constructor
          · intro h; cases h
          · intro hall
            have hgid := hall g hg
            rw [Permutation.is_identity, hgo] at hgid
            simp at hgid

theorem PermutationGroup.extendF_identity (fuel : Nat) (g : PermutationGroup)
    (hwf : g.wfB = true) :
    PermutationGroup.extendF (fuel + 1) g Permutation.identity = some g := by
  have hc := PermutationGroup.contains_id hwf Permutation.identity_get
  rw [PermutationGroup.extendF.eq_def]
  simp [hc]

/-- C7 counterexample: `from_generators` on the non-empty all-identity list
hits the "No non-identity generator" `expect` and panics (modelled as
`none`), so it is not total on every non-empty list of permutations. -/
theorem C7_counterexample :
    PermutationGroup.from_generators 5 [Permutation.identity] = none := rfl

/-- C7 (amended): the base-point extraction of `from_generators` fails
exactly when every generator is the identity (so `from_generators` is total
only on lists containing a non-identity generator, identity generators being
dropped), and `extend` with the identity permutation on a well-formed group
returns the group unchanged. -/
theorem C7_from_generators_amended :
    (∀ gens, PermutationGroup.pick_stab_point gens = none ↔
      ∀ g ∈ gens, g.is_identity = true) ∧
    (∀ fuel g, PermutationGroup.wfB g = true →
      PermutationGroup.extendF (fuel + 1) g Permutation.identity = some g) :=
  ⟨PermutationGroup.pick_stab_point_eq_none_iff,
    fun fuel g hwf => PermutationGroup.extendF_identity fuel g hwf⟩

/-- Witness for C7: the all-identity generator list has no base point, and
extending the fresh group stabilising 0 by the identity is a no-op. -/
theorem C7_witness :
    PermutationGroup.pick_stab_point [Permutation.identity] = none ∧
    PermutationGroup.extendF 4 (PermutationGroup.new 0) Permutation.identity =
      some (PermutationGroup.new 0) :=
  ⟨(C7_from_generators_amended.1 [Permutation.identity]).mpr (by decide),
    C7_from_generators_amended.2 3 (PermutationGroup.new 0) (by decide)⟩

/-! ### Infrastructure for the Schreier–Sims proof (C3) -/

theorem Permutation.identity_inverse : Permutation.identity.inverse = Permutation.identity := rfl

theorem PermutationGroup.wfB_mk (b : Nat) (gens : List Permutation)
    (tinv : List (Option Permutation)) (orbits : List Nat) (sub : Option PermutationGroup) :
    PermutationGroup.wfB (.mk b gens tinv orbits sub) =
      (decide (PermutationGroup.inv_coset_repr_list tinv b = some Permutation.identity) &&
        decide (orbits.head? = some b) &&
        tinv.all (fun o => match o with | none => true | some u => decide u.valid) &&
        (match sub with | none => true | some g => PermutationGroup.wfB g)) := by
  rw [PermutationGroup.wfB.eq_def]

theorem PermutationGroup.wfB_intro (b : Nat) (gens : List Permutation)
    (tinv : List (Option Permutation)) (orbits : List Nat) (sub : Option PermutationGroup)
    (h1 : PermutationGroup.inv_coset_repr_list tinv b = some Permutation.identity)
    (h2 : orbits.head? = some b)
    (h3 : ∀ o ∈ tinv, ∀ u, o = some u → u.valid)
    (h4 : ∀ g, sub = some g → g.wfB = true) :
    PermutationGroup.wfB (.mk b gens tinv orbits sub) = true := by
  rw [PermutationGroup.wfB_mk]
  simp only [Bool.and_eq_true, decide_eq_true_eq, List.all_eq_true]
  refine ⟨⟨⟨h1, h2⟩, ?_⟩, ?_⟩
  · intro o ho
    cases o with
    | none => rfl
    | some u => simpa [decide_eq_true_eq] using h3 _ ho u rfl
  · cases sub with
    | none => rfl
    | some g => exact h4 g rfl

theorem PermutationGroup.contains_gens_irrel (b : Nat) (gens gens' : List Permutation)
    (tinv : List (Option Permutation)) (orbits orbits' : List Nat)
    (sub : Option PermutationGroup) (p : Permutation) :
    PermutationGroup.contains_owned (.mk b gens' tinv orbits' sub) p =
      PermutationGroup.contains_owned (.mk b gens tinv orbits sub) p := by
  rw [PermutationGroup.contains_owned_mk, PermutationGroup.contains_owned_mk]

theorem PermutationGroup.wfB_gens_irrel (b : Nat) (gens gens' : List Permutation)
    (tinv : List (Option Permutation)) (orbits : List Nat) (sub : Option PermutationGroup) :
    PermutationGroup.wfB (.mk b gens' tinv orbits sub) =
      PermutationGroup.wfB (.mk b gens tinv orbits sub) := by
  rw [PermutationGroup.wfB_mk, PermutationGroup.wfB_mk]

theorem PermutationGroup.inv_coset_repr_list_eq (tinv : List (Option Permutation)) (j : Nat) :
    PermutationGroup.inv_coset_repr_list tinv j = (tinv[j]?).getD none := by
  simp [PermutationGroup.inv_coset_repr_list, List.getD_eq_getElem?_getD]

theorem PermutationGroup.inv_coset_some_lt {tinv : List (Option Permutation)} {j : Nat}
    {u : Permutation} (h : PermutationGroup.inv_coset_repr_list tinv j = some u) :
    j < tinv.length := by
  by_contra hge
  rw [PermutationGroup.inv_coset_repr_list_eq,
    List.getElem?_eq_none (Nat.le_of_not_lt hge)] at h
  cases h

theorem PermutationGroup.wfB_new (b : Nat) : (PermutationGroup.new b).wfB = true := by
  apply PermutationGroup.wfB_intro
  · rw [PermutationGroup.inv_coset_repr_list_eq]
    have hb : b < ((List.range (b + 1)).map
        (fun i => if i = b then some Permutation.identity else none)).length := by
      simp
    rw [List.getElem?_eq_getElem hb]
    simp [List.getElem_map, List.getElem_range]
  · rfl
  · intro o ho u hu
    subst hu
    simp only [List.mem_map, List.mem_range] at ho
    obtain ⟨i, -, hio⟩ := ho
    by_cases hib : i = b
    · rw [if_pos hib] at hio
      have : u = Permutation.identity := by injection hio with h; exact h.symm
      subst this
      exact Permutation.valid_identity
    · rw [if_neg hib] at hio
      cases hio
  · intro g hg
    cases hg

theorem growSet_length_gt (tinv : List (Option Permutation)) (i : Nat) (v : Option Permutation) :
    i < (growSet tinv i v).length := by
  unfold growSet
  rw [List.length_set]
  by_cases h : i < tinv.length
  · simpa [h] using h
  · rw [if_neg h]
    simp
    omega

theorem growSet_get_self (tinv : List (Option Permutation)) (i : Nat) (v : Option Permutation) :
    PermutationGroup.inv_coset_repr_list (growSet tinv i v) i = v := by
  rw [PermutationGroup.inv_coset_repr_list_eq]
  unfold growSet
  set base := if i < tinv.length then tinv else tinv ++ List.replicate (i + 1 - tinv.length) none
    with hbase
  have hib : i < base.length := by
    rw [hbase]
    by_cases h : i < tinv.length
    · simpa [h] using h
    · rw [if_neg h]; simp; omega
  rw [List.getElem?_set_self', List.getElem?_eq_getElem hib]
  rfl

theorem growSet_get_other {tinv : List (Option Permutation)} {j : Nat} {u : Permutation}
    (hj : PermutationGroup.inv_coset_repr_list tinv j = some u) (i : Nat)
    (hi : PermutationGroup.inv_coset_repr_list tinv i = none) (v : Option Permutation) :
    PermutationGroup.inv_coset_repr_list (growSet tinv i v) j = some u := by
  have hjl : j < tinv.length := PermutationGroup.inv_coset_some_lt hj
  have hij : i ≠ j := by
    intro h; subst h; rw [hj] at hi; cases hi
  rw [PermutationGroup.inv_coset_repr_list_eq] at hj ⊢
  unfold growSet
  rw [List.getElem?_set_ne hij]
  by_cases h : i < tinv.length
  · rw [if_pos h]; exact hj
  · rw [if_neg h]
    rw [List.getElem?_append, if_pos hjl]
    exact hj

theorem growSet_mem {tinv : List (Option Permutation)} {i : Nat} {v o : Option Permutation}
    (h : o ∈ growSet tinv i v) : o ∈ tinv ∨ o = none ∨ o = v := by
  unfold growSet at h
  rcases List.mem_or_eq_of_mem_set h with h' | h'
  · by_cases hc : i < tinv.length
    · rw [if_pos hc] at h'; exact Or.inl h'
    · rw [if_neg hc] at h'
      rcases List.mem_append.mp h' with h'' | h''
      · exact Or.inl h''
      · exact Or.inr (Or.inl (List.eq_of_mem_replicate h''))
  · exact Or.inr (Or.inr h')

theorem StepOk.refl (g : PermutationGroup) (hwf : g.wfB = true) : StepOk g g :=
  ⟨hwf, rfl, fun _ _ h => h, fun _ h => h⟩

theorem StepOk.trans {g₁ g₂ g₃ : PermutationGroup} (h12 : StepOk g₁ g₂)
    (h23 : StepOk g₂ g₃) : StepOk g₁ g₃ :=
  ⟨h23.1, h23.2.1.trans h12.2.1, fun j u h => h23.2.2.1 j u (h12.2.2.1 j u h),
    fun σ h => h23.2.2.2 σ (h12.2.2.2 σ h)⟩

theorem PermutationGroup.inv_coset_mem {tinv : List (Option Permutation)} {j : Nat}
    {u : Permutation} (h : PermutationGroup.inv_coset_repr_list tinv j = some u) :
    some u ∈ tinv := by
  have hl : j < tinv.length := PermutationGroup.inv_coset_some_lt h
  rw [PermutationGroup.inv_coset_repr_list_eq, List.getElem?_eq_getElem hl] at h
  rw [show (some tinv[j]).getD none = tinv[j] from rfl] at h
  rw [← h]
  exact List.getElem_mem hl

theorem PermutationGroup.process_orbit_mk (fuel b : Nat) (gens : List Permutation)
    (tinv : List (Option Permutation)) (orbits : List Nat) (sub : Option PermutationGroup)
    (generator : Permutation) (generator_inv : Option Permutation) (orbit : Nat)
    (queue : List Nat) :
    PermutationGroup.process_orbit (fuel + 1) (.mk b gens tinv orbits sub)
      generator generator_inv orbit queue =
      match PermutationGroup.inv_coset_repr_list tinv orbit with
      | none => none
      | some u =>
        let new_orbit := generator.get orbit
        match PermutationGroup.inv_coset_repr_list tinv new_orbit with
        | some u' =>
          let subgroup_generator := (u.inverse.mul generator).mul u'
          match subgroup_generator.nonfix_index with
          | none => some (.mk b gens tinv orbits sub, generator_inv, queue)
          | some non_fixpoint =>
            match PermutationGroup.extendF fuel
                (sub.getD (PermutationGroup.new non_fixpoint)) subgroup_generator with
            | none => none
            | some sub' => some (.mk b gens tinv orbits (some sub'), generator_inv, queue)
        | none =>
          let gi := generator_inv.getD generator.inverse
          some (.mk b gens (growSet tinv new_orbit (some (gi.mul u)))
            (orbits ++ [new_orbit]) sub, some gi, queue ++ [new_orbit]) := by
  rw [PermutationGroup.process_orbit.eq_def]

theorem PermutationGroup.foldOrbits_cons (fuel : Nat) (generator : Permutation) (o : Nat)
    (rest : List Nat) (g : PermutationGroup) (gi : Option Permutation) (q : List Nat) :
    PermutationGroup.foldOrbits (fuel + 1) generator (o :: rest) g gi q = (do
      let (g', gi', q') ← PermutationGroup.process_orbit fuel g generator gi o q
      PermutationGroup.foldOrbits fuel generator rest g' gi' q') := by
  rw [PermutationGroup.foldOrbits.eq_def]

theorem PermutationGroup.foldOrbits_nil (fuel : Nat) (generator : Permutation)
    (g : PermutationGroup) (gi : Option Permutation) (q : List Nat) :
    PermutationGroup.foldOrbits fuel generator [] g gi q = some (g, gi, q) := by
  cases fuel <;> rw [PermutationGroup.foldOrbits.eq_def]

theorem PermutationGroup.drain_cons (fuel : Nat) (generator : Permutation)
    (g : PermutationGroup) (gi : Option Permutation) (o : Nat) (rest : List Nat) :
    PermutationGroup.drain (fuel + 1) generator g gi (o :: rest) = (do
      let (g', gi', q') ← PermutationGroup.process_orbit fuel g generator gi o rest
      PermutationGroup.drain fuel generator g' gi' q') := by
  rw [PermutationGroup.drain.eq_def]

theorem PermutationGroup.drain_nil (fuel : Nat) (generator : Permutation)
    (g : PermutationGroup) (gi : Option Permutation) :
    PermutationGroup.drain fuel generator g gi [] = some (g, gi) := by
  cases fuel <;> rw [PermutationGroup.drain.eq_def]

theorem PermutationGroup.extendF_succ (fuel : Nat) (g : PermutationGroup)
    (generator : Permutation) :
    PermutationGroup.extendF (fuel + 1) g generator =
      if PermutationGroup.contains_owned g generator then some g
      else
        match g with
        | .mk b gens tinv orbits sub => (do
          let (g₂, gi₂, q₂) ← PermutationGroup.foldOrbits fuel generator orbits
            (PermutationGroup.mk b (gens ++ [generator]) tinv orbits sub) none []
          let (g₃, _) ← PermutationGroup.drain fuel generator g₂ gi₂ q₂
          pure g₃) := by
  rw [PermutationGroup.extendF.eq_def]

theorem ppo_succ (f : Nat) (ihExt : PextP f) : PpoP (f + 1) := by
  intro g gen gi o q g' gi' q' hwf hgen hgi hx
  obtain ⟨b, gens, tinv, orbits, sub⟩ := g
  obtain ⟨hw1, hw2, hw3, hw4⟩ := PermutationGroup.wfB_unfold _ _ _ _ _ hwf
  rw [PermutationGroup.process_orbit_mk] at hx
  cases hu : PermutationGroup.inv_coset_repr_list tinv o with
  | none => simp only [hu] at hx; exact Option.noConfusion hx
  | some u =>
    have hu_valid : u.valid := hw3 _ (PermutationGroup.inv_coset_mem hu) u rfl
    cases hnu : PermutationGroup.inv_coset_repr_list tinv (gen.get o) with
    | some u' =>
      have hu'_valid : u'.valid := hw3 _ (PermutationGroup.inv_coset_mem hnu) u' rfl
      cases hnf : ((u.inverse.mul gen).mul u').nonfix_index with
      | none =>
          simp only [hu, hnu, hnf] at hx
          simp only [Option.some_inj, Prod.mk.injEq] at hx
          obtain ⟨h1, h2, h3⟩ := hx
          subst h1; subst h2; subst h3
          refine ⟨StepOk.refl _ hwf, hgi, ?_⟩
          intro hob _
          have hob' : o = b := hob
          subst hob'
          rw [hw1] at hu
          have huid : u = Permutation.identity := by injection hu with h; exact h.symm
          subst huid
          rw [Permutation.identity_inverse, Permutation.id_mul] at hnf
          have hidf := (Permutation.nonfix_index_eq_none_iff _).mp hnf
          rw [PermutationGroup.contains_owned_mk]
          cases sub with
          | none =>
              simp only [hnu]
              exact (Permutation.is_identity_iff _).mpr hidf
          | some g₀ =>
              simp only [hnu]
              exact PermutationGroup.contains_id (hw4 g₀ rfl) hidf
      | some nf =>
          simp only [hu, hnu, hnf] at hx
          cases hsx : PermutationGroup.extendF f (sub.getD (PermutationGroup.new nf))
              ((u.inverse.mul gen).mul u') with
          | none => simp only [hsx] at hx; exact Option.noConfusion hx
          | some sub' =>
              simp only [hsx, Option.some_inj, Prod.mk.injEq] at hx
              obtain ⟨h1, h2, h3⟩ := hx
              subst h1; subst h2; subst h3
              have hsub₀wf : (sub.getD (PermutationGroup.new nf)).wfB = true := by
                cases sub with
                | none => exact PermutationGroup.wfB_new nf
                | some g₀ => exact hw4 g₀ rfl
              have hsgval : ((u.inverse.mul gen).mul u').valid :=
                (hu_valid.inverse.mul hgen).mul hu'_valid
              obtain ⟨hsubStep, hsubContains⟩ := ihExt _ _ _ hsub₀wf hsgval hsx
              refine ⟨⟨?_, rfl, ?_, ?_⟩, hgi, ?_⟩
              · exact PermutationGroup.wfB_intro b _ tinv orbits (some sub') hw1 hw2 hw3
                  (fun g₁ hg₁ => by
                    have : sub' = g₁ := by injection hg₁
                    exact this ▸ hsubStep.1)
              · intro j u₀ h
                exact h
              · intro σ hσ
                rw [PermutationGroup.contains_owned_mk] at hσ ⊢
                cases hσu : PermutationGroup.inv_coset_repr_list tinv (σ.get b) with
                | none => simp only [hσu] at hσ; exact Bool.noConfusion hσ
                | some u₀ =>
                    simp only [hσu] at hσ ⊢
                    cases sub with
                    | none =>
                        have hidf := (Permutation.is_identity_iff _).mp hσ
                        exact hsubStep.2.2.2 _
                          (PermutationGroup.contains_id (PermutationGroup.wfB_new nf) hidf)
                    | some g₀ => exact hsubStep.2.2.2 _ hσ
              · intro hob _
                have hob' : o = b := hob
                subst hob'
                rw [hw1] at hu
                have huid : u = Permutation.identity := by injection hu with h; exact h.symm
                subst huid
                rw [Permutation.identity_inverse, Permutation.id_mul] at hsubContains
                rw [PermutationGroup.contains_owned_mk]
                simp only [hnu]
                exact hsubContains
    | none =>
        simp only [hu, hnu, Option.some_inj, Prod.mk.injEq] at hx
        obtain ⟨h1, h2, h3⟩ := hx
        subst h1; subst h2; subst h3
        have hgi₀ : gi.getD gen.inverse = gen.inverse := by
          rcases hgi with h | h
          · rw [h]; rfl
          · rw [h]; rfl
        have horb : ∃ tl, orbits = b :: tl := by
          cases orbits with
          | nil => simp at hw2
          | cons o₀ tl =>
              have : o₀ = b := by simpa using hw2
              exact ⟨tl, by rw [this]⟩
        refine ⟨⟨?_, rfl, ?_, ?_⟩, Or.inr (by rw [hgi₀]), ?_⟩
        · apply PermutationGroup.wfB_intro
          · exact growSet_get_other hw1 _ hnu _
          · obtain ⟨tl, rfl⟩ := horb
            simp
          · intro e he u₁ hu₁
            rcases growSet_mem he with h' | h' | h'
            · exact hw3 _ h' u₁ hu₁
            · rw [h'] at hu₁; cases hu₁
            · rw [h'] at hu₁
              have : (gi.getD gen.inverse).mul u = u₁ := by injection hu₁
              rw [← this, hgi₀]
              exact hgen.inverse.mul hu_valid
          · exact hw4
        · intro j u₀ h
          exact growSet_get_other h _ hnu _
        · intro σ hσ
          rw [PermutationGroup.contains_owned_mk] at hσ ⊢
          cases hσu : PermutationGroup.inv_coset_repr_list tinv (σ.get b) with
          | none => simp only [hσu] at hσ; exact Bool.noConfusion hσ
          | some u₀ =>
              simp only [hσu] at hσ
              simp only [growSet_get_other hσu _ hnu _]
              exact hσ
        · intro hob hginone
          have hob' : o = b := hob
          subst hob'
          rw [hw1] at hu
          have huid : u = Permutation.identity := by injection hu with h; exact h.symm
          subst huid
          rw [PermutationGroup.contains_owned_mk]
          simp only [growSet_get_self]
          rw [hgi₀, Permutation.mul_id]
          have hidf : ∀ i, (gen.mul gen.inverse).get i = i := Permutation.mul_inverse_idFun hgen
          cases sub with
          | none => exact (Permutation.is_identity_iff _).mpr hidf
          | some g₀ => exact PermutationGroup.contains_id (hw4 g₀ rfl) hidf

theorem pfold_succ (f : Nat) (ihPo : PpoP f) (ihFold : PfoldP f) : PfoldP (f + 1) := by
  intro gen l g gi q g' gi' q' hwf hgen hgi hx
  cases l with
  | nil =>
      rw [PermutationGroup.foldOrbits_nil] at hx
      simp only [Option.some_inj, Prod.mk.injEq] at hx
      obtain ⟨h1, h2, h3⟩ := hx
      subst h1; subst h2; subst h3
      exact ⟨StepOk.refl _ hwf, hgi, fun h _ => by simp at h⟩
  | cons o rest =>
      rw [PermutationGroup.foldOrbits_cons] at hx
      simp only [bind, Option.bind_eq_some] at hx
      obtain ⟨x, hpo, hrest⟩ := hx
      obtain ⟨gA, giA, qA⟩ := x
      obtain ⟨hstepA, hgiA, hextraA⟩ := ihPo g gen gi o q gA giA qA hwf hgen hgi hpo
      obtain ⟨hstepB, hgiB, -⟩ :=
        ihFold gen rest gA giA qA g' gi' q' hstepA.1 hgen hgiA hrest
      refine ⟨StepOk.trans hstepA hstepB, hgiB, ?_⟩
      intro hh hginone
      have ho : o = g.stab_point := by simpa using hh
      exact hstepB.2.2.2 _ (hextraA ho hginone)

theorem pdrain_succ (f : Nat) (ihPo : PpoP f) (ihDrain : PdrainP f) : PdrainP (f + 1) := by
  intro gen g gi q g' gi' hwf hgen hgi hx
  cases q with
  | nil =>
      rw [PermutationGroup.drain_nil] at hx
      simp only [Option.some_inj, Prod.mk.injEq] at hx
      obtain ⟨h1, h2⟩ := hx
      subst h1; subst h2
      exact ⟨StepOk.refl _ hwf, hgi⟩
  | cons o rest =>
      rw [PermutationGroup.drain_cons] at hx
      simp only [bind, Option.bind_eq_some] at hx
      obtain ⟨x, hpo, hrest⟩ := hx
      obtain ⟨gA, giA, qA⟩ := x
      obtain ⟨hstepA, hgiA, -⟩ := ihPo g gen gi o rest gA giA qA hwf hgen hgi hpo
      obtain ⟨hstepB, hgiB⟩ := ihDrain gen gA giA qA g' gi' hstepA.1 hgen hgiA hrest
      exact ⟨StepOk.trans hstepA hstepB, hgiB⟩

theorem pext_succ (f : Nat) (ihFold : PfoldP f) (ihDrain : PdrainP f) : PextP (f + 1) := by
  intro G p G' hwf hp hx
  rw [PermutationGroup.extendF_succ] at hx
  by_cases hc : PermutationGroup.contains_owned G p = true
  · rw [if_pos hc] at hx
    have : G = G' := by injection hx
    subst this
    exact ⟨StepOk.refl _ hwf, hc⟩
  · rw [if_neg (by simpa using hc)] at hx
    obtain ⟨b, gens, tinv, orbits, sub⟩ := G
    obtain ⟨hw1, hw2, hw3, hw4⟩ := PermutationGroup.wfB_unfold _ _ _ _ _ hwf
    simp only [bind, Option.bind_eq_some] at hx
    obtain ⟨x, hfold, y, hdrain, hpure⟩ := hx
    obtain ⟨g₂, gi₂, q₂⟩ := x
    obtain ⟨g₃, gi₃⟩ := y
    have hG' : g₃ = G' := by
      simpa [Option.pure_def, Option.some_inj] using hpure
    subst hG'
    have hwfg₁ : (PermutationGroup.mk b (gens ++ [p]) tinv orbits sub).wfB = true := by
      rw [PermutationGroup.wfB_gens_irrel b gens (gens ++ [p]) tinv orbits sub]
      exact hwf
    obtain ⟨hstepF, hgiF, hextraF⟩ :=
      ihFold p orbits _ none [] g₂ gi₂ q₂ hwfg₁ hp (Or.inl rfl) hfold
    obtain ⟨hstepD, -⟩ := ihDrain p g₂ gi₂ q₂ g₃ gi₃ hstepF.1 hp hgiF hdrain
    have hcg₂ : PermutationGroup.contains_owned g₂ p = true := hextraF hw2 rfl
    have hcg₃ : PermutationGroup.contains_owned g₃ p = true := hstepD.2.2.2 _ hcg₂
    have hSt : StepOk (PermutationGroup.mk b (gens ++ [p]) tinv orbits sub) g₃ :=
      StepOk.trans hstepF hstepD
    refine ⟨⟨hSt.1, hSt.2.1, hSt.2.2.1, ?_⟩, hcg₃⟩
    intro σ hσ
    apply hSt.2.2.2 σ
    rw [PermutationGroup.contains_gens_irrel b gens (gens ++ [p]) tinv orbits orbits sub σ]
    exact hσ

theorem schreier_zero : PextP 0 ∧ PpoP 0 ∧ PfoldP 0 ∧ PdrainP 0 := by
  refine ⟨?_, ?_, ?_, ?_⟩
  · intro G p G' _ _ hx
    rw [PermutationGroup.extendF.eq_def] at hx
    exact Option.noConfusion hx
  · intro g gen gi o q g' gi' q' _ _ _ hx
    rw [PermutationGroup.process_orbit.eq_def] at hx
    exact Option.noConfusion hx
  · intro gen l g gi q g' gi' q' hwf _ hgi hx
    cases l with
    | nil =>
        rw [PermutationGroup.foldOrbits_nil] at hx
        simp only [Option.some_inj, Prod.mk.injEq] at hx
        obtain ⟨h1, h2, h3⟩ := hx
        subst h1; subst h2; subst h3
        exact ⟨StepOk.refl _ hwf, hgi, fun h _ => by simp at h⟩
    | cons o rest =>
        rw [PermutationGroup.foldOrbits.eq_def] at hx
        exact Option.noConfusion hx
  · intro gen g gi q g' gi' hwf _ hgi hx
    cases q with
    | nil =>
        rw [PermutationGroup.drain_nil] at hx
        simp only [Option.some_inj, Prod.mk.injEq] at hx
        obtain ⟨h1, h2⟩ := hx
        subst h1; subst h2
        exact ⟨StepOk.refl _ hwf, hgi⟩
    | cons o rest =>
        rw [PermutationGroup.drain.eq_def] at hx
        exact Option.noConfusion hx

theorem schreier_aux : ∀ fuel, PextP fuel ∧ PpoP fuel ∧ PfoldP fuel ∧ PdrainP fuel := by
  intro fuel
  induction fuel with
  | zero => exact schreier_zero
  | succ f ih =>
      obtain ⟨ihE, ihP, ihF, ihD⟩ := ih
      exact ⟨pext_succ f ihF ihD, ppo_succ f ihE, pfold_succ f ihP ihF, pdrain_succ f ihP ihD⟩

/-- `extend` preserves well-formedness; with `wfB_new` this shows every group
built by `new` or `from_generators` and extended arbitrarily stays
well-formed, justifying the `wfB` hypothesis of C3. -/
theorem PermutationGroup.extendF_preserves_wfB (fuel : Nat) (G G' : PermutationGroup)
    (p : Permutation) (hwf : G.wfB = true) (hp : p.valid)
    (hext : PermutationGroup.extendF fuel G p = some G') : G'.wfB = true :=
  ((schreier_aux fuel).1 G p G' hwf hp hext).1.1

/-- C3: extending a well-formed permutation group (as built by `new` or
`from_generators`, possibly after prior `extend` calls) by a permutation and
then testing membership of that permutation returns true, whenever the
fuelled model of `extend` completes (the Rust recursion always does). -/
theorem C3_extend_then_contains (fuel : Nat) (G G' : PermutationGroup) (p : Permutation)
    (hwf : G.wfB = true) (hp : p.valid)
    (hext : PermutationGroup.extendF fuel G p = some G') :
    PermutationGroup.contains G' p = true :=
  ((schreier_aux fuel).1 G p G' hwf hp hext).2

/-- Witness for C3: extending the fresh group stabilising 1 by (0 1). -/
theorem C3_witness :
    PermutationGroup.contains
      ((PermutationGroup.extendF 9 (PermutationGroup.new 1) ⟨[1, 0]⟩).getD
        (PermutationGroup.new 0)) ⟨[1, 0]⟩ = true :=
  C3_extend_then_contains 9 (PermutationGroup.new 1) _ ⟨[1, 0]⟩ (by decide) (by decide) rfl

theorem parse_prefix_aux : ∀ fuel : Nat,
    (∀ input t rest, DAG.parse_inner fuel input = some (t, rest) →
        ∃ pre, input = pre ++ rest ∧ ExprG pre) ∧
    (∀ left input t rest, DAG.parseTail fuel left input = some (t, rest) →
        input = rest ∨ ∃ pre, input = '*' :: (pre ++ rest) ∧ ExprG pre) := by
  intro fuel
  induction fuel with
  | zero =>
      constructor
      · intro input t rest hx
        simp only [DAG.parse_inner] at hx
        exact Option.noConfusion hx
      · intro left input t rest hx
        simp only [DAG.parseTail] at hx
        exact Option.noConfusion hx
  | succ f ih =>
      obtain ⟨ihI, ihT⟩ := ih
      constructor
      · intro input t rest hx
        simp only [DAG.parse_inner] at hx
        split at hx
        · -- parenthesised atom
          rename_i rest₀
          simp only [bind, Option.bind_eq_some] at hx
          obtain ⟨⟨child, rest₁⟩, hchild, hrest⟩ := hx
          obtain ⟨pre₁, heq₁, hg₁⟩ := ihI rest₀ child rest₁ hchild
          split at hrest
          · rename_i rest₂ heq₂
            have h2 : rest₁ = ')' :: rest₂ := heq₂
            rcases ihT child rest₂ t rest hrest with h | ⟨pre₂, heq₃, hg₂⟩
            · refine ⟨'(' :: (pre₁ ++ [')']), ?_, ExprG.atom _ (AtomG.paren _ hg₁)⟩
              subst h
              simp [heq₁, h2, List.append_assoc]
            · refine ⟨('(' :: (pre₁ ++ [')'])) ++ '*' :: pre₂, ?_,
                ExprG.star _ _ (AtomG.paren _ hg₁) hg₂⟩
              simp [heq₁, h2, heq₃, List.append_assoc]
          · exact Option.noConfusion hrest
        · -- single letter
          rename_i c rest₀ hne
          split at hx
          · rename_i hc
            rcases ihT (DAG.Leaf c.toString) rest₀ t rest hx with h | ⟨pre₂, heq₃, hg₂⟩
            · exact ⟨[c], by simp [h], ExprG.atom _ (AtomG.letter c hc)⟩
            · exact ⟨[c] ++ '*' :: pre₂, by simp [heq₃],
                ExprG.star _ _ (AtomG.letter c hc) hg₂⟩
          · exact Option.noConfusion hx
        · exact Option.noConfusion hx
      · intro left input t rest hx
        simp only [DAG.parseTail] at hx
        split at hx
        · rename_i rest₀
          simp only [bind, Option.bind_eq_some] at hx
          obtain ⟨⟨right, rest'⟩, hr, hpure⟩ := hx
          have hrr : rest' = rest := by
            have := hpure
            simp only [Option.pure_def, Option.some_inj, Prod.mk.injEq] at this
            exact this.2
          obtain ⟨pre, heq, hg⟩ := ihI rest₀ right rest' hr
          exact Or.inr ⟨pre, by rw [heq, hrr], hg⟩
        · have : input = rest := by
            have := hx
            simp only [Option.some_inj, Prod.mk.injEq] at this
            exact this.2
          exact Or.inl this

theorem ExprG_inv (s : List Char) (h : ExprG s) :
    AtomG s ∨ ∃ a e, AtomG a ∧ ExprG e ∧ s = a ++ '*' :: e := by
  cases h with
  | atom a ha => exact Or.inl ha
  | star a e ha he => exact Or.inr ⟨a, e, ha, he, rfl⟩

theorem AtomG_inv (s : List Char) (h : AtomG s) :
    (∃ c, isLetter c ∧ s = [c]) ∨ ∃ e, ExprG e ∧ s = '(' :: (e ++ [')']) := by
  cases h with
  | letter c hc => exact Or.inl ⟨c, hc, rfl⟩
  | paren e he => exact Or.inr ⟨e, he, rfl⟩

theorem not_ExprG_ab : ¬ ExprG ['a', 'b'] := by
  intro h
  rcases ExprG_inv _ h with ha | ⟨a, e, ha, he, heq⟩
  · rcases AtomG_inv _ ha with ⟨c, hc, heq⟩ | ⟨e, he, heq⟩
    · simp at heq
    · obtain ⟨h1, -⟩ := List.cons.inj heq
      exact absurd h1 (by decide)
  · cases a with
    | nil =>
        rw [List.nil_append] at heq
        obtain ⟨h1, -⟩ := List.cons.inj heq
        exact absurd h1 (by decide)
    | cons x a' =>
        rw [List.cons_append] at heq
        obtain ⟨-, h2⟩ := List.cons.inj heq
        cases a' with
        | nil =>
            rw [List.nil_append] at h2
            obtain ⟨h3, -⟩ := List.cons.inj h2
            exact absurd h3 (by decide)
        | cons y a'' =>
            rw [List.cons_append] at h2
            obtain ⟨-, h4⟩ := List.cons.inj h2
            simp at h4

/-- C9 counterexample: `"ab"` is not generated by the rule grammar
(`expr := atom (\x27*\x27 expr)?`), yet `DAG::parse` silently returns the
term `a`, ignoring the trailing `b` instead of reporting an error. -/
theorem C9_counterexample :
    ¬ ExprG ['a', 'b'] ∧ DAG.parse ['a', 'b'] = some (DAG.Leaf "a") :=
  ⟨not_ExprG_ab, rfl⟩

/-- C9 amended: whenever `DAG::parse` returns a term, some *prefix* of the
space-stripped input is generated by the rule grammar; equivalently, the
parser aborts on every input no prefix of which is a well-formed expression,
but it does not detect trailing garbage after a well-formed prefix. -/
theorem C9_parse_prefix_sound (input : List Char) (t : DAG String)
    (h : DAG.parse input = some t) :
    ∃ pre rest, input.filter (fun c => c ≠ ' ') = pre ++ rest ∧ ExprG pre := by
  unfold DAG.parse at h
  rw [Option.map_eq_some'] at h
  obtain ⟨⟨t', rest⟩, hr, -⟩ := h
  obtain ⟨pre, heq, hg⟩ := (parse_prefix_aux _).1 _ _ _ hr
  exact ⟨pre, rest, heq, hg⟩

/-- Witness for C9: the well-formed input `(a)*b` parses, and the theorem
exhibits a grammatical prefix. -/
theorem C9_witness :
    ∃ pre rest, (['(', 'a', ')', '*', 'b'].filter (fun c => c ≠ ' ')) = pre ++ rest ∧
      ExprG pre :=
  C9_parse_prefix_sound ['(', 'a', ')', '*', 'b']
    (DAG.Branch (DAG.Leaf "a") (DAG.Leaf "b")) rfl

/-! ### Pattern-index lemmas (C4) -/

theorem Term.leafCount_pos (t : Term) : 0 < t.leafCount := by
  induction t with
  | Variable => simp [Term.leafCount]
  | Operation l r ihl ihr => simp [Term.leafCount]; omega

theorem HasLabel.mono {tbl tbl' : List ((Nat × Nat) × Nat)} (hsub : ∀ e ∈ tbl, e ∈ tbl')
    {t : Term} {l : Nat} (h : HasLabel tbl t l) : HasLabel tbl' t l := by
  induction h with
  | var => exact HasLabel.var
  | op tl tr a b lab hl hr hm ihl ihr => exact HasLabel.op tl tr a b lab ihl ihr (hsub _ hm)

theorem HasLabel.le_length {tbl : List ((Nat × Nat) × Nat)} {t : Term} {l : Nat}
    (hInv : tblInv tbl) (h : HasLabel tbl t l) : l ≤ tbl.length := by
  cases h with
  | var => exact Nat.zero_le _
  | op tl tr a b _x hl hr hm =>
      obtain ⟨i, hi, hget⟩ := List.mem_iff_getElem.mp hm
      have hget' : tbl.get ⟨i, hi⟩ = ((a, b), l) := hget
      have hv := (hInv i hi).1
      rw [hget'] at hv
      omega

theorem HasLabel.functional {tbl : List ((Nat × Nat) × Nat)} (hInv : tblInv tbl) :
    ∀ l t t', HasLabel tbl t l → HasLabel tbl t' l → t = t' := by
  intro l
  induction l using Nat.strong_induction_on with
  | _ l ih =>
    intro t t' h h'
    cases h with
    | var =>
        cases h' with
        | var => rfl
        | op tl tr a b _x hl hr hm =>
            obtain ⟨i, hi, hget⟩ := List.mem_iff_getElem.mp hm
            have hget' : tbl.get ⟨i, hi⟩ = ((a, b), 0) := hget
            have hv := (hInv i hi).1
            rw [hget'] at hv
            exact absurd (show (0 : Nat) = i + 1 from hv) (by omega)
    | op tl₁ tr₁ a₁ b₁ _x hl₁ hr₁ hm₁ =>
        cases h' with
        | var =>
            obtain ⟨i, hi, hget⟩ := List.mem_iff_getElem.mp hm₁
            have hget' : tbl.get ⟨i, hi⟩ = ((a₁, b₁), 0) := hget
            have hv := (hInv i hi).1
            rw [hget'] at hv
            exact absurd (show (0 : Nat) = i + 1 from hv) (by omega)
        | op tl₂ tr₂ a₂ b₂ _y hl₂ hr₂ hm₂ =>
            obtain ⟨i, hi, hget₁⟩ := List.mem_iff_getElem.mp hm₁
            obtain ⟨j, hj, hget₂⟩ := List.mem_iff_getElem.mp hm₂
            have hget₁' : tbl.get ⟨i, hi⟩ = ((a₁, b₁), l) := hget₁
            have hget₂' : tbl.get ⟨j, hj⟩ = ((a₂, b₂), l) := hget₂
            have hv₁ := (hInv i hi).1
            rw [hget₁'] at hv₁
            have hv₁' : l = i + 1 := hv₁
            have hv₂ := (hInv j hj).1
            rw [hget₂'] at hv₂
            have hv₂' : l = j + 1 := hv₂
            have hka := (hInv i hi).2.1
            rw [hget₁'] at hka
            have hka' : a₁ ≤ i := hka
            have hkb := (hInv i hi).2.2
            rw [hget₁'] at hkb
            have hkb' : b₁ ≤ i := hkb
            have hij : i = j := by omega
            subst hij
            rw [hget₁'] at hget₂'
            obtain ⟨hkey, -⟩ := Prod.mk.inj hget₂'
            obtain ⟨haa, hbb⟩ := Prod.mk.inj hkey
            subst haa; subst hbb
            have h₁ : tl₁ = tl₂ := ih a₁ (by omega) tl₁ tl₂ hl₁ hl₂
            have h₂ : tr₁ = tr₂ := ih b₁ (by omega) tr₁ tr₂ hr₁ hr₂
            rw [h₁, h₂]

theorem lookupPair_some {tbl : List ((Nat × Nat) × Nat)} {k : Nat × Nat} {v : Nat}
    (h : lookupPair tbl k = some v) : (k, v) ∈ tbl := by
  unfold lookupPair at h
  rw [Option.map_eq_some'] at h
  obtain ⟨e, he, hv⟩ := h
  have hmem := List.mem_of_find?_eq_some he
  have hkey := List.find?_some he
  simp only [decide_eq_true_eq] at hkey
  have : e = (k, v) := by
    obtain ⟨k', v'⟩ := e
    simp only at hkey hv
    rw [hkey, hv]
  rw [← this]
  exact hmem

theorem buildAux_spec (t : Term) : ∀ tbl, tblInv tbl →
    tblInv (buildAux t tbl).1 ∧
    (∀ e ∈ tbl, e ∈ (buildAux t tbl).1) ∧
    HasLabel (buildAux t tbl).1 t (buildAux t tbl).2 ∧
    (∀ e ∈ (buildAux t tbl).1, e ∈ tbl ∨
      ∃ u, u.leafCount ≤ t.leafCount ∧ HasLabel (buildAux t tbl).1 u e.2) := by
  induction t with
  | Variable =>
      intro tbl hInv
      exact ⟨hInv, fun e he => he, HasLabel.var, fun e he => Or.inl he⟩
  | Operation l r ihl ihr =>
      intro tbl hInv
      obtain ⟨hInv₁, hsub₁, hlab₁, hcov₁⟩ := ihl tbl hInv
      obtain ⟨hInv₂, hsub₂, hlab₂, hcov₂⟩ := ihr (buildAux l tbl).1 hInv₁
      have hred : buildAux (Term.Operation l r) tbl =
          tableStep (buildAux r (buildAux l tbl).1).1
            ((buildAux l tbl).2, (buildAux r (buildAux l tbl).1).2) := rfl
      cases hlk : lookupPair (buildAux r (buildAux l tbl).1).1
          ((buildAux l tbl).2, (buildAux r (buildAux l tbl).1).2) with
      | some lab =>
          have hred₂ : buildAux (Term.Operation l r) tbl =
              ((buildAux r (buildAux l tbl).1).1, lab) := by
            rw [hred]; unfold tableStep; rw [hlk]
          rw [hred₂]
          refine ⟨hInv₂, fun e he => hsub₂ _ (hsub₁ _ he), ?_, ?_⟩
          · exact HasLabel.op l r _ _ lab (hlab₁.mono hsub₂) hlab₂ (lookupPair_some hlk)
          · intro e he
            rcases hcov₂ e he with he₁ | ⟨u, hu, hul⟩
            · rcases hcov₁ e he₁ with he₀ | ⟨u, hu, hul⟩
              · exact Or.inl he₀
              · exact Or.inr ⟨u, Nat.le_trans hu (Nat.le_add_right _ _),
                  hul.mono hsub₂⟩
            · exact Or.inr ⟨u, Nat.le_trans hu (Nat.le_add_left _ _), hul⟩
      | none =>
          have hred₂ : buildAux (Term.Operation l r) tbl =
              ((buildAux r (buildAux l tbl).1).1 ++
                [(((buildAux l tbl).2, (buildAux r (buildAux l tbl).1).2),
                  (buildAux r (buildAux l tbl).1).1.length + 1)],
                (buildAux r (buildAux l tbl).1).1.length + 1) := by
            rw [hred]; unfold tableStep; rw [hlk]
          rw [hred₂]
          have hsubApp : ∀ e ∈ (buildAux r (buildAux l tbl).1).1,
              e ∈ (buildAux r (buildAux l tbl).1).1 ++
                [(((buildAux l tbl).2, (buildAux r (buildAux l tbl).1).2),
                  (buildAux r (buildAux l tbl).1).1.length + 1)] :=
            fun e he => List.mem_append_left _ he
          have ha_le : (buildAux l tbl).2 ≤ (buildAux r (buildAux l tbl).1).1.length :=
            HasLabel.le_length hInv₂ (hlab₁.mono hsub₂)
          have hb_le : (buildAux r (buildAux l tbl).1).2 ≤
              (buildAux r (buildAux l tbl).1).1.length :=
            HasLabel.le_length hInv₂ hlab₂
          have hmemNew : (((buildAux l tbl).2, (buildAux r (buildAux l tbl).1).2),
              (buildAux r (buildAux l tbl).1).1.length + 1) ∈
              (buildAux r (buildAux l tbl).1).1 ++
                [(((buildAux l tbl).2, (buildAux r (buildAux l tbl).1).2),
                  (buildAux r (buildAux l tbl).1).1.length + 1)] :=
            List.mem_append_right _ (List.mem_singleton.mpr rfl)
          have hlabNew : HasLabel ((buildAux r (buildAux l tbl).1).1 ++
                [(((buildAux l tbl).2, (buildAux r (buildAux l tbl).1).2),
                  (buildAux r (buildAux l tbl).1).1.length + 1)])
              (Term.Operation l r) ((buildAux r (buildAux l tbl).1).1.length + 1) :=
            HasLabel.op l r _ _ _ ((hlab₁.mono hsub₂).mono hsubApp) (hlab₂.mono hsubApp)
              hmemNew
          refine ⟨?_, fun e he => hsubApp _ (hsub₂ _ (hsub₁ _ he)), hlabNew, ?_⟩
          · intro i hi
            rw [List.length_append, List.length_singleton] at hi
            by_cases hilt : i < (buildAux r (buildAux l tbl).1).1.length
            · have hg : ((buildAux r (buildAux l tbl).1).1 ++
                  [(((buildAux l tbl).2, (buildAux r (buildAux l tbl).1).2),
                    (buildAux r (buildAux l tbl).1).1.length + 1)]).get
                  ⟨i, by rw [List.length_append, List.length_singleton]; omega⟩ =
                  (buildAux r (buildAux l tbl).1).1.get ⟨i, hilt⟩ := by
                rw [List.get_append _ hilt]
              rw [hg]
              exact hInv₂ i hilt
            · have hieq : i = (buildAux r (buildAux l tbl).1).1.length := by omega
              subst hieq
              have hg : ((buildAux r (buildAux l tbl).1).1 ++
                  [(((buildAux l tbl).2, (buildAux r (buildAux l tbl).1).2),
                    (buildAux r (buildAux l tbl).1).1.length + 1)]).get
                  ⟨(buildAux r (buildAux l tbl).1).1.length,
                    by rw [List.length_append, List.length_singleton]; omega⟩ =
                  (((buildAux l tbl).2, (buildAux r (buildAux l tbl).1).2),
                    (buildAux r (buildAux l tbl).1).1.length + 1) := by
                rw [List.get_append_right] <;> simp
              rw [hg]
              exact ⟨rfl, ha_le, hb_le⟩
          · intro e he
            rcases List.mem_append.mp he with he₂ | heNew
            · rcases hcov₂ e he₂ with he₁ | ⟨u, hu, hul⟩
              · rcases hcov₁ e he₁ with he₀ | ⟨u, hu, hul⟩
                · exact Or.inl he₀
                · exact Or.inr ⟨u, Nat.le_trans hu (Nat.le_add_right _ _),
                    (hul.mono hsub₂).mono hsubApp⟩
              · exact Or.inr ⟨u, Nat.le_trans hu (Nat.le_add_left _ _), hul.mono hsubApp⟩
            · rw [List.mem_singleton] at heNew
              subst heNew
              exact Or.inr ⟨Term.Operation l r, Nat.le_refl _, hlabNew⟩

theorem tblInv_nil : tblInv [] := by
  intro i hi
  simp at hi

theorem buildAux_root_label (pl pr : Term) :
    (buildAux (Term.Operation pl pr) []).2 = (buildAux (Term.Operation pl pr) []).1.length := by
  obtain ⟨hInv₁, -, hlab₁, hcov₁⟩ := buildAux_spec pl [] tblInv_nil
  obtain ⟨hInv₂, hsub₂, hlab₂, hcov₂⟩ := buildAux_spec pr (buildAux pl []).1 hInv₁
  have hred : buildAux (Term.Operation pl pr) [] =
      tableStep (buildAux pr (buildAux pl []).1).1
        ((buildAux pl []).2, (buildAux pr (buildAux pl []).1).2) := rfl
  cases hlk : lookupPair (buildAux pr (buildAux pl []).1).1
      ((buildAux pl []).2, (buildAux pr (buildAux pl []).1).2) with
  | some lab =>
      exfalso
      have hmem := lookupPair_some hlk
      have hlabRoot : HasLabel (buildAux pr (buildAux pl []).1).1
          (Term.Operation pl pr) lab :=
        HasLabel.op pl pr _ _ lab (hlab₁.mono hsub₂) hlab₂ hmem
      have hsmall : ∃ u, (u.leafCount ≤ pl.leafCount ∨ u.leafCount ≤ pr.leafCount) ∧
          HasLabel (buildAux pr (buildAux pl []).1).1 u lab := by
        rcases hcov₂ _ hmem with he₁ | ⟨u, hu, hul⟩
        · rcases hcov₁ _ he₁ with he₀ | ⟨u, hu, hul⟩
          · exact absurd he₀ (List.not_mem_nil _)
          · exact ⟨u, Or.inl hu, hul.mono hsub₂⟩
        · exact ⟨u, Or.inr hu, hul⟩
      obtain ⟨u, hsize, hul⟩ := hsmall
      have hue : u = Term.Operation pl pr := HasLabel.functional hInv₂ lab u _ hul hlabRoot
      subst hue
      have h1 := Term.leafCount_pos pl
      have h2 := Term.leafCount_pos pr
      have h3 : (Term.Operation pl pr).leafCount = pl.leafCount + pr.leafCount := rfl
      rcases hsize with h | h <;> omega
  | none =>
      have hred₂ : buildAux (Term.Operation pl pr) [] =
          ((buildAux pr (buildAux pl []).1).1 ++
            [(((buildAux pl []).2, (buildAux pr (buildAux pl []).1).2),
              (buildAux pr (buildAux pl []).1).1.length + 1)],
            (buildAux pr (buildAux pl []).1).1.length + 1) := by
        rw [hred]; unfold tableStep; rw [hlk]
      rw [hred₂]
      simp

theorem matchStep_fold (tbl : List ((Nat × Nat) × Nat)) (lls rls : List Nat) :
    ∀ (es : List ((Nat × Nat) × Nat)) (acc : List Nat × Bool),
      (∀ l, l ∈ (es.foldl
          (fun acc e =>
            if e.1.1 ∈ lls ∧ e.1.2 ∈ rls then
              (e.2 :: acc.1, acc.2 || decide (e.2 = tbl.length))
            else acc) acc).1 ↔
        l ∈ acc.1 ∨ ∃ e ∈ es, (e.1.1 ∈ lls ∧ e.1.2 ∈ rls) ∧ e.2 = l) ∧
      ((es.foldl
          (fun acc e =>
            if e.1.1 ∈ lls ∧ e.1.2 ∈ rls then
              (e.2 :: acc.1, acc.2 || decide (e.2 = tbl.length))
            else acc) acc).2 = true ↔
        acc.2 = true ∨ ∃ e ∈ es, (e.1.1 ∈ lls ∧ e.1.2 ∈ rls) ∧ e.2 = tbl.length) := by
  intro es
  induction es with
  | nil => intro acc; simp
  | cons e es ih =>
      intro acc
      by_cases hc : e.1.1 ∈ lls ∧ e.1.2 ∈ rls
      · constructor
        · intro l
          rw [List.foldl_cons, if_pos hc, (ih _).1 l]
          simp only [List.mem_cons, List.mem_cons]
          constructor
          · rintro ((rfl | h) | ⟨e', he', hc', hv'⟩)
            · exact Or.inr ⟨e, Or.inl rfl, hc, rfl⟩
            · exact Or.inl h
            · exact Or.inr ⟨e', Or.inr he', hc', hv'⟩
          · rintro (h | ⟨e', he', hc', hv'⟩)
            · exact Or.inl (Or.inr h)
            · rcases he' with rfl | he''
              · exact Or.inl (Or.inl hv'.symm)
              · exact Or.inr ⟨e', he'', hc', hv'⟩
        · rw [List.foldl_cons, if_pos hc, (ih _).2]
          simp only [Bool.or_eq_true, decide_eq_true_eq]
          constructor
          · rintro ((h | h) | ⟨e', he', hc', hv'⟩)
            · exact Or.inl h
            · exact Or.inr ⟨e, List.mem_cons_self _ _, hc, h⟩
            · exact Or.inr ⟨e', List.mem_cons_of_mem _ he', hc', hv'⟩
          · rintro (h | ⟨e', he', hc', hv'⟩)
            · exact Or.inl (Or.inl h)
            · rcases List.mem_cons.mp he' with rfl | he''
              · exact Or.inl (Or.inr hv')
              · exact Or.inr ⟨e', he'', hc', hv'⟩
      · constructor
        · intro l
          rw [List.foldl_cons, if_neg hc, (ih _).1 l]
          constructor
          · rintro (h | ⟨e', he', hc', hv'⟩)
            · exact Or.inl h
            · exact Or.inr ⟨e', List.mem_cons_of_mem _ he', hc', hv'⟩
          · rintro (h | ⟨e', he', hc', hv'⟩)
            · exact Or.inl h
            · rcases List.mem_cons.mp he' with rfl | he''
              · exact absurd hc' hc
              · exact Or.inr ⟨e', he'', hc', hv'⟩
        · rw [List.foldl_cons, if_neg hc, (ih _).2]
          constructor
          · rintro (h | ⟨e', he', hc', hv'⟩)
            · exact Or.inl h
            · exact Or.inr ⟨e', List.mem_cons_of_mem _ he', hc', hv'⟩
          · rintro (h | ⟨e', he', hc', hv'⟩)
            · exact Or.inl h
            · rcases List.mem_cons.mp he' with rfl | he''
              · exact absurd hc' hc
              · exact Or.inr ⟨e', he'', hc', hv'⟩

theorem matchStep_mem (tbl : List ((Nat × Nat) × Nat)) (lls rls : List Nat) (l : Nat) :
    l ∈ (matchStep tbl lls rls).1 ↔
      l = 0 ∨ ∃ e ∈ tbl, (e.1.1 ∈ lls ∧ e.1.2 ∈ rls) ∧ e.2 = l := by
  have h := (matchStep_fold tbl lls rls tbl ([0], false)).1 l
  unfold matchStep
  rw [h]
  simp

theorem matchStep_hit (tbl : List ((Nat × Nat) × Nat)) (lls rls : List Nat) :
    (matchStep tbl lls rls).2 = true ↔
      ∃ e ∈ tbl, (e.1.1 ∈ lls ∧ e.1.2 ∈ rls) ∧ e.2 = tbl.length := by
  have h := (matchStep_fold tbl lls rls tbl ([0], false)).2
  unfold matchStep
  rw [h]
  simp

theorem matchesAux_labels (tbl : List ((Nat × Nat) × Nat)) (s : Term) :
    ∀ l, l ∈ (matchesAux tbl s).1 ↔
      (l = 0 ∨ ∃ t, HasLabel tbl t l ∧ t.embedsB s = true) := by
  induction s with
  | Variable =>
      intro l
      constructor
      · intro h
        have h' : l ∈ [0] := h
        rw [List.mem_singleton] at h'
        exact Or.inl h'
      · rintro (rfl | ⟨t, hlab, hemb⟩)
        · exact List.mem_singleton.mpr rfl
        · cases t with
          | Variable =>
              cases hlab
              exact List.mem_singleton.mpr rfl
          | Operation a b => exact absurd hemb (by simp [Term.embedsB])
  | Operation hl hr ihl ihr =>
      intro l
      have hred : (matchesAux tbl (Term.Operation hl hr)).1 =
          (matchStep tbl (matchesAux tbl hl).1 (matchesAux tbl hr).1).1 := rfl
      rw [hred, matchStep_mem]
      constructor
      · rintro (rfl | ⟨e, he, ⟨hca, hcb⟩, hev⟩)
        · exact Or.inl rfl
        · right
          obtain ⟨ta, hta, hemba⟩ : ∃ t, HasLabel tbl t e.1.1 ∧ t.embedsB hl = true := by
            rcases (ihl e.1.1).mp hca with h0 | h
            · exact ⟨Term.Variable, by rw [h0]; exact HasLabel.var, rfl⟩
            · exact h
          obtain ⟨tb, htb, hembb⟩ : ∃ t, HasLabel tbl t e.1.2 ∧ t.embedsB hr = true := by
            rcases (ihr e.1.2).mp hcb with h0 | h
            · exact ⟨Term.Variable, by rw [h0]; exact HasLabel.var, rfl⟩
            · exact h
          refine ⟨Term.Operation ta tb, ?_, ?_⟩
          · refine HasLabel.op ta tb e.1.1 e.1.2 l hta htb ?_
            rw [← hev]
            exact he
          · show (Term.embedsB ta hl && Term.embedsB tb hr) = true
            rw [hemba, hembb]
            rfl
      · rintro (rfl | ⟨t, hlab, hemb⟩)
        · exact Or.inl rfl
        · cases t with
          | Variable =>
              cases hlab
              exact Or.inl rfl
          | Operation ta tb =>
              have hembs : ta.embedsB hl = true ∧ tb.embedsB hr = true := by
                have : (Term.embedsB ta hl && Term.embedsB tb hr) = true := hemb
                simp only [Bool.and_eq_true] at this
                exact this
              cases hlab with
              | op _ _ a b _x hta htb hmem =>
                  right
                  refine ⟨((a, b), l), hmem, ⟨?_, ?_⟩, rfl⟩
                  · exact (ihl a).mpr (Or.inr ⟨ta, hta, hembs.1⟩)
                  · exact (ihr b).mpr (Or.inr ⟨tb, htb, hembs.2⟩)

theorem matchesAux_paths (tbl : List ((Nat × Nat) × Nat)) (s : Term) :
    ∀ p, p ∈ (matchesAux tbl s).2 ↔
      ∃ hl hr, s.subtreeAt p = some (Term.Operation hl hr) ∧
        (matchStep tbl (matchesAux tbl hl).1 (matchesAux tbl hr).1).2 = true := by
  induction s with
  | Variable =>
      intro p
      constructor
      · intro h
        exact absurd h (List.not_mem_nil p)
      · rintro ⟨hl, hr, hsub, -⟩
        cases p with
        | nil =>
            have : some Term.Variable = some (Term.Operation hl hr) := hsub
            exact absurd this (by simp)
        | cons d p' =>
            have : (none : Option Term) = some (Term.Operation hl hr) := hsub
            exact absurd this (by simp)
  | Operation l r ihl ihr =>
      intro p
      have hred : (matchesAux tbl (Term.Operation l r)).2 =
          (matchesAux tbl l).2.map (List.cons false) ++
          ((matchesAux tbl r).2.map (List.cons true) ++
          (if (matchStep tbl (matchesAux tbl l).1 (matchesAux tbl r).1).2 then
            [([] : List Bool)] else [])) := by
      -- the definition appends the three blocks left-nested; reassociate
        show ((matchesAux tbl l).2.map (List.cons false) ++
            (matchesAux tbl r).2.map (List.cons true) ++
            (if (matchStep tbl (matchesAux tbl l).1 (matchesAux tbl r).1).2 then
              [([] : List Bool)] else [])) = _
        rw [List.append_assoc]
      rw [hred]
      cases p with
      | nil =>
          cases hhit : (matchStep tbl (matchesAux tbl l).1 (matchesAux tbl r).1).2 with
          | true =>
              rw [if_pos rfl]
              constructor
              · intro h
                exact ⟨l, r, rfl, hhit⟩
              · intro h
                refine List.mem_append_right _ (List.mem_append_right _ ?_)
                simp
          | false =>
              rw [if_neg (by decide)]
              constructor
              · intro h
                simp at h
              · rintro ⟨hl', hr', hsub, hhit'⟩
                have h2 : some (Term.Operation l r) = some (Term.Operation hl' hr') := hsub
                rw [Option.some_inj] at h2
                obtain ⟨h3, h4⟩ := Term.Operation.inj h2
                rw [← h3, ← h4] at hhit'
                rw [hhit] at hhit'
                exact Bool.noConfusion hhit'
      | cons d p' =>
          cases d with
          | false =>
              constructor
              · intro h
                rcases List.mem_append.mp h with hA | hBC
                · obtain ⟨q, hq, hcons⟩ := List.mem_map.mp hA
                  have hq' : q = p' := (List.cons.inj hcons).2
                  subst hq'
                  obtain ⟨hl', hr', hsub, hh⟩ := (ihl q).mp hq
                  exact ⟨hl', hr', hsub, hh⟩
                · rcases List.mem_append.mp hBC with hB | hC
                  · obtain ⟨q, hq, hcons⟩ := List.mem_map.mp hB
                    exact absurd (List.cons.inj hcons).1 (by decide)
                  · exfalso
                    cases hhit : (matchStep tbl (matchesAux tbl l).1
                        (matchesAux tbl r).1).2 with
                    | true => rw [hhit] at hC; simp at hC
                    | false => rw [hhit] at hC; simp at hC
              · rintro ⟨hl', hr', hsub, hh⟩
                have hmem : p' ∈ (matchesAux tbl l).2 := (ihl p').mpr ⟨hl', hr', hsub, hh⟩
                exact List.mem_append_left _ (List.mem_map.mpr ⟨p', hmem, rfl⟩)
          | true =>
              constructor
              · intro h
                rcases List.mem_append.mp h with hA | hBC
                · obtain ⟨q, hq, hcons⟩ := List.mem_map.mp hA
                  exact absurd (List.cons.inj hcons).1 (by decide)
                · rcases List.mem_append.mp hBC with hB | hC
                  · obtain ⟨q, hq, hcons⟩ := List.mem_map.mp hB
                    have hq' : q = p' := (List.cons.inj hcons).2
                    subst hq'
                    obtain ⟨hl', hr', hsub, hh⟩ := (ihr q).mp hq
                    exact ⟨hl', hr', hsub, hh⟩
                  · exfalso
                    cases hhit : (matchStep tbl (matchesAux tbl l).1
                        (matchesAux tbl r).1).2 with
                    | true => rw [hhit] at hC; simp at hC
                    | false => rw [hhit] at hC; simp at hC
              · rintro ⟨hl', hr', hsub, hh⟩
                have hmem : p' ∈ (matchesAux tbl r).2 := (ihr p').mpr ⟨hl', hr', hsub, hh⟩
                exact List.mem_append_right _
                  (List.mem_append_left _ (List.mem_map.mpr ⟨p', hmem, rfl⟩))

theorem matchesAux_nodup (tbl : List ((Nat × Nat) × Nat)) (s : Term) :
    (matchesAux tbl s).2.Nodup := by
  induction s with
  | Variable => exact List.nodup_nil
  | Operation l r ihl ihr =>
      have hred : (matchesAux tbl (Term.Operation l r)).2 =
          (matchesAux tbl l).2.map (List.cons false) ++
          (matchesAux tbl r).2.map (List.cons true) ++
          (if (matchStep tbl (matchesAux tbl l).1 (matchesAux tbl r).1).2 then
            [([] : List Bool)] else []) := rfl
      rw [hred]
      have hinjF : Function.Injective (List.cons false) :=
        fun a b h => (List.cons.inj h).2
      have hinjT : Function.Injective (List.cons true) :=
        fun a b h => (List.cons.inj h).2
      refine List.Nodup.append (List.Nodup.append (ihl.map hinjF) (ihr.map hinjT) ?_)
        ?_ ?_
      · intro p hpF hpT
        obtain ⟨q, -, hq⟩ := List.mem_map.mp hpF
        obtain ⟨q', -, hq'⟩ := List.mem_map.mp hpT
        rw [← hq] at hq'
        exact absurd (List.cons.inj hq').1 (by decide)
      · cases hhit : (matchStep tbl (matchesAux tbl l).1 (matchesAux tbl r).1).2 <;> simp
      · intro p hp hp'
        have hpe : p = [] := by
          cases hhit : (matchStep tbl (matchesAux tbl l).1 (matchesAux tbl r).1).2 with
          | true => rw [hhit] at hp'; simpa using hp'
          | false => rw [hhit] at hp'; simp at hp'
        subst hpe
        rcases List.mem_append.mp hp with hA | hB
        · obtain ⟨q, -, hq⟩ := List.mem_map.mp hA
          exact List.noConfusion hq
        · obtain ⟨q, -, hq⟩ := List.mem_map.mp hB
          exact List.noConfusion hq

/-- C4 counterexample: the single-leaf pattern embeds at the root of `V*V`
(and at both leaves), yet the matcher returns no sites at all: the pattern
table of a leaf is empty, so the sentinel label `table.len() = 0` is never
inserted and nothing is ever pushed. -/
theorem C4_counterexample :
    (IndexedTerm.fromTerm Term.Variable).matches
        (Term.Operation Term.Variable Term.Variable) = [] ∧
      Term.Variable.embedsB (Term.Operation Term.Variable Term.Variable) = true := by
  constructor <;> rfl

/-- C4 amended: for every pattern with at least one branch node, `matches`
returns exactly the host nodes (root paths) at which the pattern structurally
embeds — sound, complete, and with no duplicates.  (For the single-leaf
pattern the matcher instead returns nothing, see the counterexample.) -/
theorem C4_matches_sound_complete_once (pl pr H : Term) :
    ((IndexedTerm.fromTerm (Term.Operation pl pr)).matches H).Nodup ∧
    ∀ p : List Bool,
      p ∈ (IndexedTerm.fromTerm (Term.Operation pl pr)).matches H ↔
        ∃ s, H.subtreeAt p = some s ∧ (Term.Operation pl pr).embedsB s = true := by
  have hInvTbl : tblInv (TermIndexing.build (Term.Operation pl pr)) ∧
      HasLabel (TermIndexing.build (Term.Operation pl pr)) (Term.Operation pl pr)
        (TermIndexing.build (Term.Operation pl pr)).length := by
    obtain ⟨hInv, -, hlab, -⟩ :=
      buildAux_spec (Term.Operation pl pr) [] tblInv_nil
    refine ⟨hInv, ?_⟩
    show HasLabel (buildAux (Term.Operation pl pr) []).1 (Term.Operation pl pr)
      ((buildAux (Term.Operation pl pr) []).1.length)
    rw [← buildAux_root_label]
    exact hlab
  obtain ⟨hInv, hrootlab⟩ := hInvTbl
  constructor
  · exact matchesAux_nodup _ H
  · intro p
    have hm : p ∈ (IndexedTerm.fromTerm (Term.Operation pl pr)).matches H ↔
        ∃ hl hr, H.subtreeAt p = some (Term.Operation hl hr) ∧
          (matchStep (TermIndexing.build (Term.Operation pl pr))
            (matchesAux (TermIndexing.build (Term.Operation pl pr)) hl).1
            (matchesAux (TermIndexing.build (Term.Operation pl pr)) hr).1).2 = true :=
      matchesAux_paths _ H p
    rw [hm]
    constructor
    · rintro ⟨hl, hr, hsub, hhit⟩
      obtain ⟨e, he, ⟨hca, hcb⟩, hev⟩ := (matchStep_hit _ _ _).mp hhit
      obtain ⟨ta, hta, hemba⟩ : ∃ t, HasLabel (TermIndexing.build (Term.Operation pl pr))
          t e.1.1 ∧ t.embedsB hl = true := by
        rcases (matchesAux_labels _ hl e.1.1).mp hca with h0 | h
        · exact ⟨Term.Variable, by rw [h0]; exact HasLabel.var, rfl⟩
        · exact h
      obtain ⟨tb, htb, hembb⟩ : ∃ t, HasLabel (TermIndexing.build (Term.Operation pl pr))
          t e.1.2 ∧ t.embedsB hr = true := by
        rcases (matchesAux_labels _ hr e.1.2).mp hcb with h0 | h
        · exact ⟨Term.Variable, by rw [h0]; exact HasLabel.var, rfl⟩
        · exact h
      have hOpLab : HasLabel (TermIndexing.build (Term.Operation pl pr))
          (Term.Operation ta tb) (TermIndexing.build (Term.Operation pl pr)).length := by
        refine HasLabel.op ta tb e.1.1 e.1.2 _ hta htb ?_
        rw [← hev]
        exact he
      have heq : Term.Operation ta tb = Term.Operation pl pr :=
        HasLabel.functional hInv _ _ _ hOpLab hrootlab
      obtain ⟨heql, heqr⟩ := Term.Operation.inj heq
      refine ⟨Term.Operation hl hr, hsub, ?_⟩
      show (Term.embedsB pl hl && Term.embedsB pr hr) = true
      rw [← heql, ← heqr, hemba, hembb]
      rfl
    · rintro ⟨s, hsub, hemb⟩
      cases s with
      | Variable => exact absurd hemb (by simp [Term.embedsB])
      | Operation hl hr =>
          refine ⟨hl, hr, hsub, ?_⟩
          have hembs : pl.embedsB hl = true ∧ pr.embedsB hr = true := by
            have : (Term.embedsB pl hl && Term.embedsB pr hr) = true := hemb
            simp only [Bool.and_eq_true] at this
            exact this
          cases hrootlab with
          | op _ _ a b _x hta htb hmem =>
              refine (matchStep_hit _ _ _).mpr ⟨((a, b),
                (TermIndexing.build (Term.Operation pl pr)).length), hmem, ⟨?_, ?_⟩, rfl⟩
              · exact (matchesAux_labels _ hl a).mpr (Or.inr ⟨pl, hta, hembs.1⟩)
              · exact (matchesAux_labels _ hr b).mpr (Or.inr ⟨pr, htb, hembs.2⟩)

/-! ### Tree-enumerator lemmas (C8) -/

theorem flatMap_congr_aux {α β : Type} {l : List α} {f g : α → List β}
    (h : ∀ a ∈ l, f a = g a) : l.flatMap f = l.flatMap g := by
  induction l with
  | nil => rfl
  | cons a l ih =>
      rw [List.flatMap_cons, List.flatMap_cons, h a (List.mem_cons_self a l),
        ih (fun b hb => h b (List.mem_cons_of_mem _ hb))]

theorem DAG.one_le_leafCount (t : DAG Unit) : 1 ≤ t.leafCount := by
  induction t with
  | Leaf v => exact Nat.le_refl 1
  | Branch l r ihl ihr =>
      show 1 ≤ l.leafCount + r.leafCount
      omega

theorem allTreesF_stable : ∀ k f, k ≤ f → allTreesF f k = allTrees k := by
  intro k
  induction k using Nat.strong_induction_on with
  | _ k ih =>
    intro f hf
    cases k with
    | zero => cases f with | zero => rfl | succ f => rfl
    | succ k' =>
      cases k' with
      | zero =>
          cases f with
          | zero => omega
          | succ f => rfl
      | succ k'' =>
        cases f with
        | zero => omega
        | succ f' =>
          show allTreesF (f' + 1) (k'' + 2) = allTreesF (k'' + 2) (k'' + 2)
          simp only [allTreesF, List.bind]
          apply flatMap_congr_aux
          intro i hi
          rw [List.mem_range] at hi
          rw [ih (k'' + 1 - i) (by omega) f' (by omega),
            ih (k'' + 1 - i) (by omega) (k'' + 1) (by omega)]
          apply flatMap_congr_aux
          intro r hr
          rw [ih (i + 1) (by omega) f' (by omega),
            ih (i + 1) (by omega) (k'' + 1) (by omega)]

theorem splitsFrom_step (k ls : Nat) (h : ls < k) :
    splitsFrom k ls =
      (allTrees (k - ls)).bind (fun r => (allTrees ls).map (fun l => DAG.Branch l r)) ++
      splitsFrom k (ls + 1) := by
  have h1 : List.range' ls (k - ls) = ls :: List.range' (ls + 1) (k - (ls + 1)) := by
    have h2 : k - ls = (k - (ls + 1)) + 1 := by omega
    rw [h2, List.range'_succ]
  unfold splitsFrom
  simp only [List.bind]
  rw [h1, List.flatMap_cons]

theorem splitsFrom_self (k : Nat) : splitsFrom k k = [] := by
  unfold splitsFrom
  simp

theorem allTrees_eq_splitsFrom (k : Nat) (h : 2 ≤ k) : allTrees k = splitsFrom k 1 := by
  obtain ⟨k', rfl⟩ : ∃ k', k = k' + 2 := ⟨k - 2, by omega⟩
  show allTreesF (k' + 2) (k' + 2) = _
  simp only [allTreesF]
  unfold splitsFrom
  have hr : List.range' 1 (k' + 2 - 1) = (List.range (k' + 1)).map (fun i => 1 + i) := by
    have h1 : k' + 2 - 1 = k' + 1 := by omega
    rw [h1, List.range'_eq_map_range]
  simp only [List.bind]
  rw [hr, List.flatMap_map]
  apply flatMap_congr_aux
  intro i hi
  rw [List.mem_range] at hi
  have h2 : k' + 2 - (1 + i) = k' + 1 - i := by omega
  have h3 : 1 + i = i + 1 := by omega
  rw [h2, h3]
  rw [allTreesF_stable (k' + 1 - i) (k' + 1) (by omega)]
  apply flatMap_congr_aux
  intro r hr
  rw [allTreesF_stable (i + 1) (k' + 1) (by omega)]

theorem mem_allTrees (t : DAG Unit) : t ∈ allTrees t.leafCount := by
  induction t with
  | Leaf v =>
      cases v
      exact List.mem_singleton.mpr rfl
  | Branch l r ihl ihr =>
      have ha := DAG.one_le_leafCount l
      have hb := DAG.one_le_leafCount r
      show DAG.Branch l r ∈ allTrees (l.leafCount + r.leafCount)
      rw [allTrees_eq_splitsFrom _ (by omega)]
      unfold splitsFrom
      simp only [List.bind]
      rw [List.mem_flatMap]
      refine ⟨l.leafCount, ?_, ?_⟩
      · rw [List.mem_range'_1]
        omega
      · rw [List.mem_flatMap]
        refine ⟨r, ?_, ?_⟩
        · have h2 : l.leafCount + r.leafCount - l.leafCount = r.leafCount := by omega
          rw [h2]
          exact ihr
        · exact List.mem_map.mpr ⟨l, ihl, rfl⟩

theorem remaining_inner (left right : TreeStructureIterator) (ll rl : Nat) (rs : DAG Unit) :
    remaining (.InnerIterator false left right ll rl rs) =
      (remaining left).map (fun lt => DAG.Branch lt rs) ++
      (remaining right).bind (fun r => (allTrees ll).map (fun l => DAG.Branch l r)) ++
      splitsFrom (ll + rl) (ll + 1) := by
  simp [remaining]

theorem remaining_leaf_false : remaining (.LeafIterator false) = [DAG.Leaf ()] := by
  simp [remaining]

theorem remaining_leaf_true : remaining (.LeafIterator true) = [] := by
  simp [remaining]

theorem remaining_frame (left right : TreeStructureIterator) (ll rl : Nat) (rt : DAG Unit)
    (hl : remaining left = allTrees ll) :
    remaining (.InnerIterator false left right ll rl rt) =
      ((rt :: remaining right).flatMap
        (fun r => (allTrees ll).map (fun l => DAG.Branch l r))) ++
        splitsFrom (ll + rl) (ll + 1) := by
  rw [remaining_inner, hl]
  simp only [List.bind]
  rw [List.flatMap_cons, List.append_assoc]

theorem iter_aux : ∀ fuel,
    (∀ it res, WFit it → TreeStructureIterator.nextF fuel it = some res →
      (res = none ∧ remaining it = []) ∨
      (∃ t it', res = some (t, it') ∧ remaining it = t :: remaining it' ∧ WFit it')) ∧
    (∀ k it, 1 ≤ k → TreeStructureIterator.newF fuel k = some it →
      WFit it ∧ remaining it = allTrees k) := by
  intro fuel
  induction fuel with
  | zero =>
      constructor
      · intro it res _ hx
        simp only [TreeStructureIterator.nextF] at hx
        exact Option.noConfusion hx
      · intro k it _ hx
        simp only [TreeStructureIterator.newF] at hx
        exact Option.noConfusion hx
  | succ f ih =>
      obtain ⟨ihP, ihQ⟩ := ih
      constructor
      · intro it res hWF hx
        cases it with
        | LeafIterator done =>
            cases done with
            | true =>
                have hx' : some (none : Option (DAG Unit × TreeStructureIterator)) =
                    some res := hx
                left
                refine ⟨(Option.some.inj hx').symm, ?_⟩
                rw [remaining_leaf_true]
            | false =>
                have hx' : some (some (DAG.Leaf (),
                    TreeStructureIterator.LeafIterator true)) = some res := hx
                right
                refine ⟨DAG.Leaf (), .LeafIterator true, (Option.some.inj hx').symm, ?_,
                  trivial⟩
                rw [remaining_leaf_false, remaining_leaf_true]
        | InnerIterator done left right ll rl rs =>
            obtain ⟨hdone, hWl, hWr, hll, hrl⟩ := hWF
            subst hdone
            simp only [TreeStructureIterator.nextF] at hx
            simp only [bind, Option.bind_eq_some] at hx
            obtain ⟨resL, hL, hx₂⟩ := hx
            cases resL with
            | some p =>
                obtain ⟨lt, left'⟩ := p
                have hres : res = some (DAG.Branch lt rs,
                    .InnerIterator false left' right ll rl rs) := by
                  simpa [Option.pure_def, eq_comm] using hx₂
                rcases ihP left _ hWl hL with ⟨hn, -⟩ | ⟨t, l', hsome, hrem, hW'⟩
                · exact Option.noConfusion hn
                · obtain ⟨h1, h2⟩ := Prod.mk.inj (Option.some.inj hsome)
                  subst h1
                  subst h2
                  right
                  refine ⟨DAG.Branch lt rs, _, hres, ?_, ?_⟩
                  · rw [remaining_inner, remaining_inner, hrem, List.map_cons,
                      List.cons_append, List.cons_append]
                  · exact ⟨rfl, hW', hWr, hll, hrl⟩
            | none =>
                rcases ihP left _ hWl hL with ⟨-, hlnil⟩ | ⟨t, l', hsome, -, -⟩
                swap
                · exact Option.noConfusion hsome
                simp only [bind, Option.bind_eq_some] at hx₂
                obtain ⟨resR, hR, hx₃⟩ := hx₂
                cases resR with
                | some p =>
                    obtain ⟨rt, right'⟩ := p
                    rcases ihP right _ hWr hR with ⟨hn, -⟩ |
                      ⟨t, r', hsome, hremR, hWr'⟩
                    · exact Option.noConfusion hn
                    obtain ⟨h1, h2⟩ := Prod.mk.inj (Option.some.inj hsome)
                    subst h1
                    subst h2
                    simp only [bind, Option.bind_eq_some] at hx₃
                    obtain ⟨newleft, hnl, hx₄⟩ := hx₃
                    obtain ⟨hWnl, hremNl⟩ := ihQ ll newleft hll hnl
                    have hEq : remaining (.InnerIterator false left right ll rl rs) =
                        remaining (.InnerIterator false newleft right' ll rl rt) := by
                      rw [remaining_inner, hlnil, hremR,
                        remaining_frame newleft right' ll rl rt hremNl]
                      simp only [List.map_nil, List.nil_append, List.bind]
                    rcases ihP (.InnerIterator false newleft right' ll rl rt) res
                      ⟨rfl, hWnl, hWr', hll, hrl⟩ hx₄ with
                      ⟨h1, h2⟩ | ⟨t, it', h1, h2, h3⟩
                    · exact Or.inl ⟨h1, by rw [hEq]; exact h2⟩
                    · exact Or.inr ⟨t, it', h1, by rw [hEq]; exact h2, h3⟩
                | none =>
                    rcases ihP right _ hWr hR with ⟨-, hrnil⟩ | ⟨t, r', hsome, -, -⟩
                    swap
                    · exact Option.noConfusion hsome
                    rw [if_neg (by omega)] at hx₃
                    by_cases hrl1 : rl - 1 = 0
                    · rw [if_pos hrl1] at hx₃
                      have hres : res = none := by simpa [eq_comm] using hx₃
                      left
                      refine ⟨hres, ?_⟩
                      rw [remaining_inner, hlnil, hrnil]
                      have hrleq : rl = 1 := by omega
                      subst hrleq
                      simp [splitsFrom_self, List.bind]
                    · rw [if_neg hrl1] at hx₃
                      simp only [bind, Option.bind_eq_some] at hx₃
                      obtain ⟨newleft, hnl, hx₄⟩ := hx₃
                      obtain ⟨newright, hnr, hx₅⟩ := hx₄
                      obtain ⟨hWnl, hremNl⟩ := ihQ (ll + 1) newleft (by omega) hnl
                      obtain ⟨hWnr, hremNr⟩ := ihQ (rl - 1) newright (by omega) hnr
                      obtain ⟨resR₂, hR₂, hx₆⟩ := hx₅
                      cases resR₂ with
                      | none => exact Option.noConfusion hx₆
                      | some p =>
                          obtain ⟨rs₂, newright'⟩ := p
                          rcases ihP newright _ hWnr hR₂ with ⟨hn, -⟩ |
                            ⟨t, r2', hsome₂, hremR₂, hWr₂⟩
                          · exact Option.noConfusion hn
                          obtain ⟨h1, h2⟩ := Prod.mk.inj (Option.some.inj hsome₂)
                          subst h1
                          subst h2
                          have hEq : remaining (.InnerIterator false left right ll rl rs) =
                              remaining (.InnerIterator false newleft newright'
                                (ll + 1) (rl - 1) rs₂) := by
                            rw [remaining_inner, hlnil, hrnil,
                              remaining_frame newleft newright' (ll + 1) (rl - 1) rs₂ hremNl]
                            have h5 : ll + 1 + (rl - 1) = ll + rl := by omega
                            rw [h5, splitsFrom_step (ll + rl) (ll + 1) (by omega)]
                            have h6 : ll + rl - (ll + 1) = rl - 1 := by omega
                            rw [h6, ← hremNr, hremR₂]
                            simp only [List.map_nil, List.nil_append, List.bind,
                              List.flatMap_nil]
                          rcases ihP (.InnerIterator false newleft newright'
                              (ll + 1) (rl - 1) rs₂) res
                            ⟨rfl, hWnl, hWr₂, (by omega), (by omega)⟩ hx₆ with
                            ⟨h1, h2⟩ | ⟨t, it', h1, h2, h3⟩
                          · exact Or.inl ⟨h1, by rw [hEq]; exact h2⟩
                          · exact Or.inr ⟨t, it', h1, by rw [hEq]; exact h2, h3⟩
      · intro k it hk hx
        simp only [TreeStructureIterator.newF] at hx
        by_cases hk1 : k = 1
        · rw [if_pos hk1] at hx
          have hit : TreeStructureIterator.LeafIterator false = it := by
            simpa using hx
          subst hit
          refine ⟨trivial, ?_⟩
          rw [remaining_leaf_false, hk1]
          rfl
        · rw [if_neg hk1] at hx
          simp only [bind, Option.bind_eq_some] at hx
          obtain ⟨right, hr, hx₂⟩ := hx
          obtain ⟨hWr, hremR⟩ := ihQ (k - 1) right (by omega) hr
          obtain ⟨resR, hR, hx₃⟩ := hx₂
          cases resR with
          | none => exact Option.noConfusion hx₃
          | some p =>
              obtain ⟨rs, right'⟩ := p
              have hit : it = .InnerIterator false (.LeafIterator false) right' 1
                  (k - 1) rs := by
                simpa [Option.pure_def, eq_comm] using hx₃
              subst hit
              rcases ihP right _ hWr hR with ⟨hn, -⟩ | ⟨t, r', hsome, hremR', hWr'⟩
              · exact Option.noConfusion hn
              obtain ⟨h1, h2⟩ := Prod.mk.inj (Option.some.inj hsome)
              subst h1
              subst h2
              refine ⟨⟨rfl, trivial, hWr', Nat.le_refl 1, by omega⟩, ?_⟩
              rw [remaining_frame (.LeafIterator false) right' 1 (k - 1) rs
                (by rw [remaining_leaf_false]; rfl)]
              have hcons : rs :: remaining right' = allTrees (k - 1) :=
                hremR'.symm.trans hremR
              rw [hcons]
              have h1k : 1 + (k - 1) = k := by omega
              rw [h1k, allTrees_eq_splitsFrom k (by omega),
                splitsFrom_step k 1 (by omega)]

theorem runF_eq_remaining : ∀ fuel it l, WFit it →
    TreeStructureIterator.runF fuel it = some l → l = remaining it := by
  intro fuel
  induction fuel with
  | zero =>
      intro it l _ hx
      simp only [TreeStructureIterator.runF] at hx
      exact Option.noConfusion hx
  | succ f ih =>
      intro it l hWF hx
      simp only [TreeStructureIterator.runF] at hx
      simp only [bind, Option.bind_eq_some] at hx
      obtain ⟨res, hnext, hrest⟩ := hx
      rcases (iter_aux (f + 1)).1 it res hWF hnext with ⟨rfl, hrem⟩ |
        ⟨t, it', rfl, hrem, hW'⟩
      · have hl : l = [] := by simpa [eq_comm] using hrest
        rw [hl, hrem]
      · simp only [bind, Option.bind_eq_some, Option.pure_def, Option.some_inj] at hrest
        obtain ⟨rest, hrun, hl⟩ := hrest
        rw [← hl, hrem, ih it' rest hW' hrun]

/-- C8: for every `k ≥ 1`, whenever the fuelled model of the tree-structure
iterator is created for `k` leaves and run to exhaustion (the Rust recursion
always completes), the resulting finite sequence is exactly `allTrees k` — in
particular it contains every structurally distinct binary tree with `k`
leaves — and the iterator reports `None` afterwards (success of `runF`). -/
theorem C8_enumerator_complete (k : Nat) (hk : 1 ≤ k)
    (fuel₁ fuel₂ : Nat) (it : TreeStructureIterator) (l : List (DAG Unit))
    (hnew : TreeStructureIterator.newF fuel₁ k = some it)
    (hrun : TreeStructureIterator.runF fuel₂ it = some l) :
    l = allTrees k ∧ ∀ t : DAG Unit, t.leafCount = k → t ∈ l := by
  obtain ⟨hWF, hrem⟩ := (iter_aux fuel₁).2 k it hk hnew
  have hl : l = allTrees k := by
    rw [runF_eq_remaining fuel₂ it l hWF hrun, hrem]
  refine ⟨hl, ?_⟩
  intro t ht
  rw [hl, ← ht]
  exact mem_allTrees t

/-- Witness for C8 at `k = 3`: creation and the full run complete, the output
is `allTrees 3`, and every 3-leaf tree occurs. -/
theorem C8_witness :
    ((TreeStructureIterator.runF 30 ((TreeStructureIterator.newF 5 3).getD
        (.LeafIterator true))).getD [] = allTrees 3) ∧
    ∀ t : DAG Unit, t.leafCount = 3 →
      t ∈ (TreeStructureIterator.runF 30 ((TreeStructureIterator.newF 5 3).getD
        (.LeafIterator true))).getD [] :=
  C8_enumerator_complete 3 (by decide) 5 30
    ((TreeStructureIterator.newF 5 3).getD (.LeafIterator true))
    ((TreeStructureIterator.runF 30 ((TreeStructureIterator.newF 5 3).getD
      (.LeafIterator true))).getD []) rfl rfl

/-! ### Union-find lemmas (C2) -/

theorem get?_set_self {α : Type} : ∀ (l : List α) (i : Nat) (v : α), i < l.length →
    (l.set i v).get? i = some v := by
  intro l
  induction l with
  | nil => intro i v h; simp at h
  | cons a l ih =>
      intro i v h
      cases i with
      | zero => rfl
      | succ i => exact ih i v (by simpa using h)

theorem get?_set_ne {α : Type} : ∀ (l : List α) (i j : Nat) (v : α), i ≠ j →
    (l.set i v).get? j = l.get? j := by
  intro l
  induction l with
  | nil => intro i j v h; rfl
  | cons a l ih =>
      intro i j v h
      cases i with
      | zero =>
          cases j with
          | zero => exact absurd rfl h
          | succ j => rfl
      | succ i =>
          cases j with
          | zero => rfl
          | succ j => exact ih i j v (fun hh => h (by rw [hh]))

theorem lt_of_get?_some {α : Type} : ∀ (l : List α) (i : Nat) (v : α),
    l.get? i = some v → i < l.length := by
  intro l i v h
  by_contra hlt
  rw [List.get?_eq_getElem?, List.getElem?_eq_none (by omega)] at h
  exact Option.noConfusion h

theorem get?_append_lt {α : Type} (l l' : List α) (i : Nat) (h : i < l.length) :
    (l ++ l').get? i = l.get? i := by
  rw [List.get?_eq_getElem?, List.get?_eq_getElem?, List.getElem?_append_left h]

theorem get?_append_last {α : Type} (l : List α) (v : α) :
    (l ++ [v]).get? l.length = some v := by
  rw [List.get?_eq_getElem?, List.getElem?_append_right (Nat.le_refl _)]
  simp

theorem set_get?_eq {α : Type} : ∀ (l : List α) (i : Nat) (v : α),
    l.get? i = some v → l.set i v = l := by
  intro l
  induction l with
  | nil => intro i v h; rfl
  | cons a l ih =>
      intro i v h
      cases i with
      | zero =>
          have : a = v := by simpa [eq_comm] using h
          rw [List.set]
          rw [this]
      | succ i =>
          rw [List.set]
          rw [ih i v (by simpa using h)]

theorem TermMap.comp_assoc (a b c : TermMap) : (a.comp b).comp c = a.comp (b.comp c) := by
  unfold TermMap.comp
  simp [Permutation.mul_assoc]

theorem mapToRootAux_mono : ∀ fuel s i acc x,
    EquivalenceClasses.mapToRootAux fuel s i acc = some x →
    EquivalenceClasses.mapToRootAux (fuel + 1) s i acc = some x := by
  intro fuel
  induction fuel with
  | zero =>
      intro s i acc x hx
      exact Option.noConfusion hx
  | succ f ih =>
      intro s i acc x hx
      simp only [EquivalenceClasses.mapToRootAux] at hx ⊢
      cases hg : s.entries.get? i with
      | none => rw [hg] at hx; exact Option.noConfusion hx
      | some e =>
          rw [hg] at hx
          cases e with
          | Root t r a => exact hx
          | Child t p pm => exact ih s p (acc.comp pm) x hx

theorem mapToRootAux_mono_le (f g : Nat) (s : EquivalenceClasses) (i : Nat) (acc : TermMap)
    (x : TermMap × Nat) (h : f ≤ g)
    (hx : EquivalenceClasses.mapToRootAux f s i acc = some x) :
    EquivalenceClasses.mapToRootAux g s i acc = some x := by
  obtain ⟨d, rfl⟩ := Nat.exists_eq_add_of_le h
  induction d with
  | zero => exact hx
  | succ d ihd => exact mapToRootAux_mono (f + d) s i acc x (ihd (Nat.le_add_right f d))

theorem mapToRootAux_det (f g : Nat) (s : EquivalenceClasses) (i : Nat) (acc : TermMap)
    (x y : TermMap × Nat)
    (hx : EquivalenceClasses.mapToRootAux f s i acc = some x)
    (hy : EquivalenceClasses.mapToRootAux g s i acc = some y) : x = y := by
  have h1 := mapToRootAux_mono_le f (max f g) s i acc x (Nat.le_max_left _ _) hx
  have h2 := mapToRootAux_mono_le g (max f g) s i acc y (Nat.le_max_right _ _) hy
  rw [h1] at h2
  exact Option.some.inj h2

theorem mapToRootAux_term (s : EquivalenceClasses) (rk : Nat → Nat)
    (hInv : ∀ i t p pm, s.entries.get? i = some (EqClassEntry.Child t p pm) →
      p < s.entries.length ∧ rk i < rk p ∧ pm.source = t.term ∧
      ∃ pe, s.entries.get? p = some pe ∧ pm.target = pe.termOf) :
    ∀ fuel i acc e, s.entries.get? i = some e → acc.target = e.termOf →
      ((Finset.range s.entries.length).filter (fun j => rk i < rk j)).card < fuel →
      ∃ m r re, EquivalenceClasses.mapToRootAux fuel s i acc = some (m, r) ∧
        s.entries.get? r = some re ∧ s.isRootAt r = true ∧
        m.source = acc.source ∧ m.target = re.termOf := by
  intro fuel
  induction fuel with
  | zero =>
      intro i acc e hg ht hμ
      exact absurd hμ (Nat.not_lt_zero _)
  | succ f ih =>
      intro i acc e hg ht hμ
      cases e with
      | Root t r a =>
          refine ⟨acc, i, EqClassEntry.Root t r a, ?_, hg, ?_, rfl, ht⟩
          · simp only [EquivalenceClasses.mapToRootAux]
            rw [hg]
          · unfold EquivalenceClasses.isRootAt
            rw [hg]
      | Child t p pm =>
          obtain ⟨hp, hrk, hsrc, pe, hpe, htgt⟩ := hInv i t p pm hg
          have hμp : ((Finset.range s.entries.length).filter
              (fun j => rk p < rk j)).card <
              ((Finset.range s.entries.length).filter (fun j => rk i < rk j)).card := by
            apply Finset.card_lt_card
            rw [Finset.ssubset_iff_of_subset]
            · exact ⟨p, Finset.mem_filter.mpr ⟨Finset.mem_range.mpr hp, hrk⟩,
                fun hmem => absurd (Finset.mem_filter.mp hmem).2 (lt_irrefl _)⟩
            · intro q hq
              rw [Finset.mem_filter] at hq ⊢
              exact ⟨hq.1, Nat.lt_trans hrk hq.2⟩
          obtain ⟨m, r, re, haux, hgr, hroot, hmsrc, hmtgt⟩ :=
            ih p (acc.comp pm) pe hpe htgt (by omega)
          refine ⟨m, r, re, ?_, hgr, hroot, hmsrc, hmtgt⟩
          simp only [EquivalenceClasses.mapToRootAux]
          rw [hg]
          exact haux

theorem mapToRoot_total (s : EquivalenceClasses) (hInv : EqInv s) (i : Nat)
    (hi : i < s.entries.length) :
    ∃ m r re, EquivalenceClasses.mapToRoot s i = some (m, r) ∧
      s.entries.get? r = some re ∧ s.isRootAt r = true ∧
      (∃ e, s.entries.get? i = some e ∧ m.source = e.termOf) ∧
      m.target = re.termOf := by
  obtain ⟨-, rk, hrk⟩ := hInv
  obtain ⟨e, hg⟩ : ∃ e, s.entries.get? i = some e := by
    rw [List.get?_eq_getElem?]
    rw [List.getElem?_eq_getElem hi]
    exact ⟨_, rfl⟩
  have hμ : ((Finset.range s.entries.length).filter (fun j => rk i < rk j)).card <
      s.entries.length + 1 := by
    have h1 := Finset.card_filter_le (Finset.range s.entries.length)
      (fun j => rk i < rk j)
    have h2 : (Finset.range s.entries.length).card = s.entries.length :=
      Finset.card_range _
    omega
  obtain ⟨m, r, re, haux, hgr, hroot, hms, hmt⟩ :=
    mapToRootAux_term s rk hrk (s.entries.length + 1) i
      (TermMap.identity_map e.termOf) e hg rfl hμ
  refine ⟨m, r, re, ?_, hgr, hroot, ⟨e, hg, hms⟩, hmt⟩
  unfold EquivalenceClasses.mapToRoot
  rw [hg]
  exact haux

theorem compress_eval (s : EquivalenceClasses) (j p pp : Nat) (ct : IndexedTerm)
    (pt : IndexedTerm) (pm ppm : TermMap)
    (hj : s.entries.get? j = some (.Child ct p pm))
    (hp : s.entries.get? p = some (.Child pt pp ppm)) :
    ∀ fuel i acc x,
      EquivalenceClasses.mapToRootAux fuel s i acc = some x →
      ∃ fuel', EquivalenceClasses.mapToRootAux fuel'
        ⟨s.entries.set j (.Child ct pp (pm.comp ppm)), s.by_shape⟩ i acc = some x := by
  intro fuel
  induction fuel with
  | zero =>
      intro i acc x hx
      exact Option.noConfusion hx
  | succ f ihf =>
      intro i acc x hx
      by_cases hij : i = j
      · subst hij
        simp only [EquivalenceClasses.mapToRootAux] at hx
        rw [hj] at hx
        cases hfz : f with
        | zero =>
            rw [hfz] at hx
            exact Option.noConfusion hx
        | succ f' =>
            rw [hfz] at hx
            simp only [EquivalenceClasses.mapToRootAux] at hx
            rw [hp] at hx
            have hx2 : EquivalenceClasses.mapToRootAux f s pp ((acc.comp pm).comp ppm) =
                some x := by
              rw [hfz]
              exact mapToRootAux_mono f' s pp ((acc.comp pm).comp ppm) x hx
            obtain ⟨f₂, hf₂⟩ := ihf pp ((acc.comp pm).comp ppm) x hx2
            refine ⟨f₂ + 1, ?_⟩
            simp only [EquivalenceClasses.mapToRootAux]
            rw [show (⟨s.entries.set i (.Child ct pp (pm.comp ppm)),
              s.by_shape⟩ : EquivalenceClasses).entries.get? i = some
                (.Child ct pp (pm.comp ppm)) from
              get?_set_self _ _ _ (lt_of_get?_some _ _ _ hj)]
            show EquivalenceClasses.mapToRootAux f₂
              ⟨s.entries.set i (.Child ct pp (pm.comp ppm)), s.by_shape⟩ pp
              (acc.comp (pm.comp ppm)) = some x
            rw [show acc.comp (pm.comp ppm) = (acc.comp pm).comp ppm from
              (TermMap.comp_assoc acc pm ppm).symm]
            exact hf₂
      · simp only [EquivalenceClasses.mapToRootAux] at hx
        cases hg : s.entries.get? i with
        | none => rw [hg] at hx; exact Option.noConfusion hx
        | some e =>
            rw [hg] at hx
            cases e with
            | Root t r a =>
                refine ⟨1, ?_⟩
                simp only [EquivalenceClasses.mapToRootAux]
                rw [show (⟨s.entries.set j (.Child ct pp (pm.comp ppm)),
                  s.by_shape⟩ : EquivalenceClasses).entries.get? i =
                    s.entries.get? i from get?_set_ne _ _ _ _ (fun h => hij h.symm)]
                rw [hg]
                exact hx
            | Child t p₀ pm₀ =>
                obtain ⟨f₂, hf₂⟩ := ihf p₀ (acc.comp pm₀) x hx
                refine ⟨f₂ + 1, ?_⟩
                simp only [EquivalenceClasses.mapToRootAux]
                rw [show (⟨s.entries.set j (.Child ct pp (pm.comp ppm)),
                  s.by_shape⟩ : EquivalenceClasses).entries.get? i =
                    s.entries.get? i from get?_set_ne _ _ _ _ (fun h => hij h.symm)]
                rw [hg]
                exact hf₂

theorem mapToRoot_none (s : EquivalenceClasses) (i : Nat) (hi : ¬ i < s.entries.length) :
    EquivalenceClasses.mapToRoot s i = none := by
  unfold EquivalenceClasses.mapToRoot
  rw [List.get?_eq_getElem?, List.getElem?_eq_none (by omega)]

theorem mapToRoot_preserved (s s' : EquivalenceClasses)
    (hlen : s'.entries.length = s.entries.length)
    (hterm : ∀ i, EquivalenceClasses.termAt s' i = EquivalenceClasses.termAt s i)
    (hInv : EqInv s) (hInv' : EqInv s')
    (heval : ∀ fuel i acc x, EquivalenceClasses.mapToRootAux fuel s i acc = some x →
      ∃ f', EquivalenceClasses.mapToRootAux f' s' i acc = some x) :
    ∀ i, EquivalenceClasses.mapToRoot s' i = EquivalenceClasses.mapToRoot s i := by
  intro i
  by_cases hi : i < s.entries.length
  · obtain ⟨m, r, re, hmr, -, -, -, -⟩ := mapToRoot_total s hInv i hi
    obtain ⟨m', r', re', hmr', -, -, -, -⟩ :=
      mapToRoot_total s' hInv' i (by omega)
    obtain ⟨e, hg⟩ : ∃ e, s.entries.get? i = some e := by
      rw [List.get?_eq_getElem?, List.getElem?_eq_getElem hi]
      exact ⟨_, rfl⟩
    obtain ⟨e', hg'⟩ : ∃ e', s'.entries.get? i = some e' := by
      rw [List.get?_eq_getElem?, List.getElem?_eq_getElem (by omega : i < s'.entries.length)]
      exact ⟨_, rfl⟩
    have hterms : e'.termOf = e.termOf := by
      have := hterm i
      unfold EquivalenceClasses.termAt at this
      rw [hg, hg'] at this
      simpa using this
    have haux : EquivalenceClasses.mapToRootAux (s.entries.length + 1) s i
        (TermMap.identity_map e.termOf) = some (m, r) := by
      have h0 := hmr
      unfold EquivalenceClasses.mapToRoot at h0
      rw [hg] at h0
      exact h0
    obtain ⟨f', hf'⟩ := heval _ _ _ _ haux
    have haux' : EquivalenceClasses.mapToRootAux (s'.entries.length + 1) s' i
        (TermMap.identity_map e'.termOf) = some (m', r') := by
      have h0 := hmr'
      unfold EquivalenceClasses.mapToRoot at h0
      rw [hg'] at h0
      exact h0
    have hdet : (m', r') = (m, r) := by
      apply mapToRootAux_det (s'.entries.length + 1) f' s' i
        (TermMap.identity_map e'.termOf)
      · exact haux'
      · rw [hterms]
        exact hf'
    rw [hmr, hmr', hdet]
  · rw [mapToRoot_none s i hi, mapToRoot_none s' i (by omega)]

theorem termAt_set_same_term (s : EquivalenceClasses) (j : Nat) (e e' : EqClassEntry)
    (hg : s.entries.get? j = some e) (hterm : e'.termOf = e.termOf) :
    ∀ i, EquivalenceClasses.termAt ⟨s.entries.set j e', s.by_shape⟩ i =
      EquivalenceClasses.termAt s i := by
  intro i
  unfold EquivalenceClasses.termAt
  by_cases hij : i = j
  · subst hij
    rw [show (⟨s.entries.set i e', s.by_shape⟩ : EquivalenceClasses).entries.get? i =
      some e' from get?_set_self _ _ _ (lt_of_get?_some _ _ _ hg), hg]
    simp [hterm]
  · rw [show (⟨s.entries.set j e', s.by_shape⟩ : EquivalenceClasses).entries.get? i =
      s.entries.get? i from get?_set_ne _ _ _ _ (fun h => hij h.symm)]

theorem compress_inv (s : EquivalenceClasses) (j p pp : Nat) (ct pt : IndexedTerm)
    (pm ppm : TermMap)
    (hj : s.entries.get? j = some (.Child ct p pm))
    (hp : s.entries.get? p = some (.Child pt pp ppm))
    (hInv : EqInv s) :
    EqInv ⟨s.entries.set j (.Child ct pp (pm.comp ppm)), s.by_shape⟩ := by
  obtain ⟨hshape, rk, hrk⟩ := hInv
  obtain ⟨hpl, hrkjp, hsrc, pe, hpe, htgt⟩ := hrk j ct p pm hj
  obtain ⟨hppl, hrkppp, hsrc₂, ppe, hppe, htgt₂⟩ := hrk p pt pp ppm hp
  have hppj : pp ≠ j := by
    intro h
    subst h
    exact absurd (Nat.lt_trans hrkjp hrkppp) (lt_irrefl _)
  constructor
  · intro q hq
    obtain ⟨e, hge, hte⟩ := hshape q hq
    by_cases hqj : q.2 = j
    · refine ⟨.Child ct pp (pm.comp ppm), ?_, ?_⟩
      · rw [hqj]
        exact get?_set_self _ _ _ (lt_of_get?_some _ _ _ hj)
      · rw [hqj] at hge
        rw [hge] at hj
        have he : e = .Child ct p pm := Option.some.inj hj
        rw [← hte, he]
        rfl
    · exact ⟨e, by
        rw [show (⟨s.entries.set j (.Child ct pp (pm.comp ppm)), s.by_shape⟩ :
          EquivalenceClasses).entries.get? q.2 = s.entries.get? q.2 from
          get?_set_ne _ _ _ _ (fun h => hqj h.symm)]
        exact hge, hte⟩
  · refine ⟨rk, ?_⟩
    intro i t q pmq hgi
    have hlen : (⟨s.entries.set j (.Child ct pp (pm.comp ppm)), s.by_shape⟩ :
        EquivalenceClasses).entries.length = s.entries.length := by
      simp [List.length_set]
    by_cases hij : i = j
    · subst hij
      rw [show (⟨s.entries.set i (.Child ct pp (pm.comp ppm)), s.by_shape⟩ :
        EquivalenceClasses).entries.get? i = some (.Child ct pp (pm.comp ppm)) from
        get?_set_self _ _ _ (lt_of_get?_some _ _ _ hj)] at hgi
      obtain ⟨ht, hq, hpm⟩ := EqClassEntry.Child.inj (Option.some.inj hgi)
      subst ht; subst hq; subst hpm
      refine ⟨by rw [hlen]; exact hppl, Nat.lt_trans hrkjp hrkppp, hsrc, ?_⟩
      refine ⟨ppe, ?_, htgt₂⟩
      rw [show (⟨s.entries.set i (.Child ct pp (pm.comp ppm)), s.by_shape⟩ :
        EquivalenceClasses).entries.get? pp = s.entries.get? pp from
        get?_set_ne _ _ _ _ (fun h => hppj h.symm)]
      exact hppe
    · rw [show (⟨s.entries.set j (.Child ct pp (pm.comp ppm)), s.by_shape⟩ :
        EquivalenceClasses).entries.get? i = s.entries.get? i from
        get?_set_ne _ _ _ _ (fun h => hij h.symm)] at hgi
      obtain ⟨hql, hrkq, hsq, pe', hpe', htq⟩ := hrk i t q pmq hgi
      refine ⟨by rw [hlen]; exact hql, hrkq, hsq, ?_⟩
      by_cases hqj : q = j
      · subst hqj
        refine ⟨.Child ct pp (pm.comp ppm),
          get?_set_self _ _ _ (lt_of_get?_some _ _ _ hj), ?_⟩
        rw [hpe'] at hj
        have : pe' = .Child ct p pm := Option.some.inj hj
        rw [htq, this]
        rfl
      · exact ⟨pe', by
          rw [show (⟨s.entries.set j (.Child ct pp (pm.comp ppm)), s.by_shape⟩ :
            EquivalenceClasses).entries.get? q = s.entries.get? q from
            get?_set_ne _ _ _ _ (fun h => hqj h.symm)]
          exact hpe', htq⟩

theorem findF_spec : ∀ fuel s j tr s' r tr', EqInv s →
    EquivalenceClasses.findF fuel s j tr = some (s', r, tr') →
    EqInv s' ∧ s'.entries.length = s.entries.length ∧
    (∀ i, EquivalenceClasses.termAt s' i = EquivalenceClasses.termAt s i) ∧
    s'.by_shape = s.by_shape ∧
    (∀ i, EquivalenceClasses.mapToRoot s' i = EquivalenceClasses.mapToRoot s i) ∧
    s'.isRootAt r = true ∧ tr'.source = tr.source ∧
    (∀ e, s.entries.get? j = some e → tr.target = e.termOf →
      ∃ re, s'.entries.get? r = some re ∧ tr'.target = re.termOf) := by
  intro fuel
  induction fuel with
  | zero =>
      intro s j tr s' r tr' _ hx
      exact Option.noConfusion hx
  | succ f ih =>
      intro s j tr s' r tr' hInv hx
      simp only [EquivalenceClasses.findF] at hx
      cases hg : s.entries.get? j with
      | none => rw [hg] at hx; exact Option.noConfusion hx
      | some e =>
          cases e with
          | Root t rr a =>
              simp only [hg] at hx
              have hinj := Option.some.inj hx
              obtain ⟨hs, hjr⟩ := Prod.mk.inj hinj
              obtain ⟨hj2, htr2⟩ := Prod.mk.inj hjr
              subst hs; subst hj2; subst htr2
              refine ⟨hInv, rfl, fun i => rfl, rfl, fun i => rfl, ?_, rfl, ?_⟩
              · unfold EquivalenceClasses.isRootAt
                rw [hg]
              · intro e hge hte
                refine ⟨.Root t rr a, hg, ?_⟩
                rw [hte, ← Option.some.inj hge]
          | Child ct p pm =>
              simp only [hg] at hx
              by_cases hjp : j = p
              · rw [if_pos hjp] at hx
                exact Option.noConfusion hx
              · rw [if_neg hjp] at hx
                cases hgp : s.entries.get? p with
                | none => rw [hgp] at hx; exact Option.noConfusion hx
                | some pe =>
                    cases pe with
                    | Root pt prr pa =>
                        simp only [hgp] at hx
                        have hseq : (⟨s.entries.set j (.Child ct p pm), s.by_shape⟩ :
                            EquivalenceClasses) = s := by
                          rw [set_get?_eq _ _ _ hg]
                        have hx' : EquivalenceClasses.findF f
                            ⟨s.entries.set j (.Child ct p pm), s.by_shape⟩ p
                            (tr.comp pm) = some (s', r, tr') := hx
                        rw [hseq] at hx'
                        obtain ⟨hI, hL, hT, hS, hM, hR, hsrc', htgt'⟩ :=
                          ih s p (tr.comp pm) s' r tr' hInv hx'
                        refine ⟨hI, hL, hT, hS, hM, hR, hsrc', ?_⟩
                        intro e hge hte
                        obtain ⟨-, rk, hrk⟩ := hInv
                        obtain ⟨-, -, -, pe', hpe', htgtpm⟩ := hrk j ct p pm hg
                        exact htgt' pe' hpe' htgtpm
                    | Child pt pp ppm =>
                        simp only [hgp] at hx
                        have hx' : EquivalenceClasses.findF f
                            ⟨s.entries.set j (.Child ct pp (pm.comp ppm)), s.by_shape⟩ pp
                            (tr.comp (pm.comp ppm)) = some (s', r, tr') := hx
                        have hInv₂ := compress_inv s j p pp ct pt pm ppm hg hgp hInv
                        obtain ⟨hI, hL, hT, hS, hM, hR, hsrc', htgt'⟩ :=
                          ih _ pp (tr.comp (pm.comp ppm)) s' r tr' hInv₂ hx'
                        have hlen₂ : (⟨s.entries.set j (.Child ct pp (pm.comp ppm)),
                            s.by_shape⟩ : EquivalenceClasses).entries.length =
                            s.entries.length := by
                          simp [List.length_set]
                        have hterm₂ := termAt_set_same_term s j (.Child ct p pm)
                          (.Child ct pp (pm.comp ppm)) hg rfl
                        have hM₂ := mapToRoot_preserved s
                          ⟨s.entries.set j (.Child ct pp (pm.comp ppm)), s.by_shape⟩
                          hlen₂ hterm₂ hInv hInv₂
                          (compress_eval s j p pp ct pt pm ppm hg hgp)
                        refine ⟨hI, hL.trans hlen₂, fun i => (hT i).trans (hterm₂ i), hS,
                          fun i => (hM i).trans (hM₂ i), hR, hsrc', ?_⟩
                        intro e hge hte
                        obtain ⟨-, rk, hrk⟩ := hInv
                        obtain ⟨-, hrkjp, -, pe₁, hpe₁, -⟩ := hrk j ct p pm hg
                        obtain ⟨-, hrkppp, -, ppe, hppe, htgt₂⟩ := hrk p pt pp ppm hgp
                        have hppj : pp ≠ j := by
                          intro h
                          subst h
                          exact absurd (Nat.lt_trans hrkjp hrkppp) (lt_irrefl _)
                        refine htgt' ppe ?_ htgt₂
                        rw [show (⟨s.entries.set j (.Child ct pp (pm.comp ppm)),
                          s.by_shape⟩ : EquivalenceClasses).entries.get? pp =
                          s.entries.get? pp from
                          get?_set_ne _ _ _ _ (fun h => hppj h.symm)]
                        exact hppe

theorem lookupShape_mem {bs : List (Term × Nat)} {t : Term} {i : Nat}
    (h : lookupShape bs t = some i) : (t, i) ∈ bs := by
  unfold lookupShape at h
  rw [Option.map_eq_some'] at h
  obtain ⟨e, he, hv⟩ := h
  have hmem := List.mem_of_find?_eq_some he
  have hkey := List.find?_some he
  simp only [decide_eq_true_eq] at hkey
  have : e = (t, i) := by
    obtain ⟨k', v'⟩ := e
    simp only at hkey hv
    rw [hkey, hv]
  rw [← this]
  exact hmem

theorem entry_for_term_spec (s : EquivalenceClasses) (t : Term) (hInv : EqInv s) :
    EqInv (s.entry_for_term t).1 ∧
    (∀ i e, s.entries.get? i = some e → (s.entry_for_term t).1.entries.get? i = some e) ∧
    (∃ e, (s.entry_for_term t).1.entries.get? (s.entry_for_term t).2 = some e ∧
      e.termOf = t) := by
  unfold EquivalenceClasses.entry_for_term
  cases hlk : lookupShape s.by_shape t with
  | some i =>
      refine ⟨hInv, fun i e h => h, ?_⟩
      obtain ⟨e, hge, hte⟩ := hInv.1 (t, i) (lookupShape_mem hlk)
      exact ⟨e, hge, hte⟩
  | none =>
      refine ⟨⟨?_, ?_⟩, ?_, ?_⟩
      · intro q hq
        rcases List.mem_append.mp hq with hq₀ | hqN
        · obtain ⟨e, hge, hte⟩ := hInv.1 q hq₀
          exact ⟨e, by
            rw [get?_append_lt _ _ _ (lt_of_get?_some _ _ _ hge)]
            exact hge, hte⟩
        · rw [List.mem_singleton] at hqN
          subst hqN
          exact ⟨.Root (IndexedTerm.fromTerm t) 0 none, get?_append_last _ _, rfl⟩
      · obtain ⟨-, rk, hrk⟩ := hInv
        refine ⟨rk, ?_⟩
        intro i ti q pmq hgi
        by_cases hil : i < s.entries.length
        · rw [get?_append_lt _ _ _ hil] at hgi
          obtain ⟨hql, hrkq, hsq, pe, hpe, htq⟩ := hrk i ti q pmq hgi
          refine ⟨by simp only [List.length_append, List.length_singleton]; omega,
            hrkq, hsq, pe, by rw [get?_append_lt _ _ _ hql]; exact hpe, htq⟩
        · exfalso
          by_cases hieq : i = s.entries.length
          · subst hieq
            rw [get?_append_last] at hgi
            exact EqClassEntry.noConfusion (Option.some.inj hgi)
          · rw [List.get?_eq_getElem?, List.getElem?_eq_none
              (by simp only [List.length_append, List.length_singleton]; omega)] at hgi
            exact Option.noConfusion hgi
      · intro i e h
        rw [get?_append_lt _ _ _ (lt_of_get?_some _ _ _ h)]
        exact h
      · exact ⟨.Root (IndexedTerm.fromTerm t) 0 none, get?_append_last _ _, rfl⟩

theorem set_root_inv (s : EquivalenceClasses) (i : Nat) (t : IndexedTerm) (r₁ r₂ : Nat)
    (a₁ a₂ : Option PermutationGroup)
    (hg : s.entries.get? i = some (.Root t r₁ a₁)) (hInv : EqInv s) :
    EqInv ⟨s.entries.set i (.Root t r₂ a₂), s.by_shape⟩ := by
  obtain ⟨hshape, rk, hrk⟩ := hInv
  constructor
  · intro q hq
    obtain ⟨e, hge, hte⟩ := hshape q hq
    by_cases hqi : q.2 = i
    · refine ⟨.Root t r₂ a₂, ?_, ?_⟩
      · rw [hqi]
        exact get?_set_self _ _ _ (lt_of_get?_some _ _ _ hg)
      · rw [hqi] at hge
        rw [hge] at hg
        have he : e = .Root t r₁ a₁ := Option.some.inj hg
        rw [← hte, he]
        rfl
    · exact ⟨e, by
        rw [show (⟨s.entries.set i (.Root t r₂ a₂), s.by_shape⟩ :
          EquivalenceClasses).entries.get? q.2 = s.entries.get? q.2 from
          get?_set_ne _ _ _ _ (fun h => hqi h.symm)]
        exact hge, hte⟩
  · refine ⟨rk, ?_⟩
    intro k ti q pmq hgk
    by_cases hki : k = i
    · subst hki
      rw [get?_set_self _ _ _ (lt_of_get?_some _ _ _ hg)] at hgk
      exact EqClassEntry.noConfusion (Option.some.inj hgk)
    · rw [show (⟨s.entries.set i (.Root t r₂ a₂), s.by_shape⟩ :
        EquivalenceClasses).entries.get? k = s.entries.get? k from
        get?_set_ne _ _ _ _ (fun h => hki h.symm)] at hgk
      obtain ⟨hql, hrkq, hsq, pe, hpe, htq⟩ := hrk k ti q pmq hgk
      refine ⟨by simp only [List.length_set]; exact hql, hrkq, hsq, ?_⟩
      by_cases hqi : q = i
      · subst hqi
        refine ⟨.Root t r₂ a₂, get?_set_self _ _ _ (lt_of_get?_some _ _ _ hg), ?_⟩
        rw [hpe] at hg
        have : pe = .Root t r₁ a₁ := Option.some.inj hg
        rw [htq, this]
        rfl
      · exact ⟨pe, by
          rw [show (⟨s.entries.set i (.Root t r₂ a₂), s.by_shape⟩ :
            EquivalenceClasses).entries.get? q = s.entries.get? q from
            get?_set_ne _ _ _ _ (fun h => hqi h.symm)]
          exact hpe, htq⟩

theorem union_child_inv (s : EquivalenceClasses) (sroot troot : Nat)
    (st tt : IndexedTerm) (sr tr : Nat) (sa ta : Option PermutationGroup) (m' : TermMap)
    (hgs : s.entries.get? sroot = some (.Root st sr sa))
    (hgt : s.entries.get? troot = some (.Root tt tr ta))
    (hne : troot ≠ sroot)
    (hms : m'.source = tt.term) (hmt : m'.target = st.term)
    (hInv : EqInv s) :
    EqInv ⟨s.entries.set troot (.Child tt sroot m'), s.by_shape⟩ := by
  obtain ⟨hshape, rk, hrk⟩ := hInv
  constructor
  · intro q hq
    obtain ⟨e, hge, hte⟩ := hshape q hq
    by_cases hqt : q.2 = troot
    · refine ⟨.Child tt sroot m', ?_, ?_⟩
      · rw [hqt]
        exact get?_set_self _ _ _ (lt_of_get?_some _ _ _ hgt)
      · rw [hqt] at hge
        rw [hge] at hgt
        have he : e = .Root tt tr ta := Option.some.inj hgt
        rw [← hte, he]
        rfl
    · exact ⟨e, by
        rw [show (⟨s.entries.set troot (.Child tt sroot m'), s.by_shape⟩ :
          EquivalenceClasses).entries.get? q.2 = s.entries.get? q.2 from
          get?_set_ne _ _ _ _ (fun h => hqt h.symm)]
        exact hge, hte⟩
  · refine ⟨fun x => if x = sroot then max (rk sroot) (rk troot) + 1 else rk x, ?_⟩
    intro i ti q pmq hgi
    by_cases hit : i = troot
    · subst hit
      rw [get?_set_self _ _ _ (lt_of_get?_some _ _ _ hgt)] at hgi
      obtain ⟨ht, hq, hpm⟩ := EqClassEntry.Child.inj (Option.some.inj hgi)
      subst ht; subst hq; subst hpm
      refine ⟨by simp only [List.length_set]; exact lt_of_get?_some _ _ _ hgs, ?_,
        hms, ?_⟩
      · show (if i = sroot then max (rk sroot) (rk i) + 1 else rk i) <
          (if sroot = sroot then max (rk sroot) (rk i) + 1 else rk sroot)
        rw [if_neg hne, if_pos rfl]
        have := Nat.le_max_right (rk sroot) (rk i)
        omega
      · refine ⟨.Root st sr sa, ?_, ?_⟩
        · rw [show (⟨s.entries.set i (.Child tt sroot m'), s.by_shape⟩ :
            EquivalenceClasses).entries.get? sroot = s.entries.get? sroot from
            get?_set_ne _ _ _ _ hne]
          exact hgs
        · exact hmt
    · rw [show (⟨s.entries.set troot (.Child tt sroot m'), s.by_shape⟩ :
        EquivalenceClasses).entries.get? i = s.entries.get? i from
        get?_set_ne _ _ _ _ (fun h => hit h.symm)] at hgi
      obtain ⟨hql, hrkq, hsq, pe, hpe, htq⟩ := hrk i ti q pmq hgi
      have hisroot : i ≠ sroot := by
        intro h
        subst h
        rw [hgs] at hgi
        exact EqClassEntry.noConfusion (Option.some.inj hgi)
      refine ⟨by simp only [List.length_set]; exact hql, ?_, hsq, ?_⟩
      · show (if i = sroot then _ else rk i) < (if q = sroot then
          max (rk sroot) (rk troot) + 1 else rk q)
        rw [if_neg hisroot]
        by_cases hqs : q = sroot
        · rw [if_pos hqs]
          subst hqs
          have := Nat.le_max_left (rk q) (rk troot)
          omega
        · rw [if_neg hqs]
          exact hrkq
      · by_cases hqt : q = troot
        · subst hqt
          refine ⟨.Child tt sroot m',
            get?_set_self _ _ _ (lt_of_get?_some _ _ _ hgt), ?_⟩
          rw [hpe] at hgt
          have : pe = .Root tt tr ta := Option.some.inj hgt
          rw [htq, this]
          rfl
        · exact ⟨pe, by
            rw [show (⟨s.entries.set troot (.Child tt sroot m'), s.by_shape⟩ :
              EquivalenceClasses).entries.get? q = s.entries.get? q from
              get?_set_ne _ _ _ _ (fun h => hqt h.symm)]
            exact hpe, htq⟩

theorem add_equiv_inv (gfuel : Nat) (s : EquivalenceClasses) (m : TermMap)
    (s' : EquivalenceClasses) (hInv : EqInv s)
    (h : EquivalenceClasses.add_equiv gfuel s m = some s') : EqInv s' := by
  unfold EquivalenceClasses.add_equiv at h
  obtain ⟨hI₁, hpres₁, e_t, hget_t, hterm_t⟩ := entry_for_term_spec s m.target hInv
  obtain ⟨hI₂, hpres₂, e_s, hget_s, hterm_s⟩ :=
    entry_for_term_spec (s.entry_for_term m.target).1 m.source hI₁
  simp only [bind, Option.bind_eq_some] at h
  obtain ⟨x₁, hfind₁, h₂⟩ := h
  obtain ⟨s₃, target_root, st_map⟩ := x₁
  obtain ⟨x₂, hfind₂, h₃⟩ := h₂
  obtain ⟨s₄, source_root, ts_map⟩ := x₂
  obtain ⟨hI₃, hL₃, hT₃, hS₃, hM₃, hR₃, hsrc₃, htgt₃⟩ :=
    findF_spec _ _ _ _ _ _ _ hI₂ hfind₁
  obtain ⟨hI₄, hL₄, hT₄, hS₄, hM₄, hR₄, hsrc₄, htgt₄⟩ :=
    findF_spec _ _ _ _ _ _ _ hI₃ hfind₂
  have hget_t₂ : ((s.entry_for_term m.target).1.entry_for_term m.source).1.entries.get?
      (s.entry_for_term m.target).2 = some e_t := hpres₂ _ _ hget_t
  obtain ⟨e₃, hge₃, hte₃⟩ : ∃ e₃, s₃.entries.get?
      (((s.entry_for_term m.target).1.entry_for_term m.source).2) = some e₃ ∧
      e₃.termOf = m.source := by
    have h1 := hT₃ (((s.entry_for_term m.target).1.entry_for_term m.source).2)
    unfold EquivalenceClasses.termAt at h1
    rw [hget_s] at h1
    simp only [Option.map_some'] at h1
    rw [Option.map_eq_some'] at h1
    obtain ⟨e₃, hge₃, hte₃⟩ := h1
    exact ⟨e₃, hge₃, by rw [hte₃, hterm_s]⟩
  obtain ⟨re_s, hre_s, hts_tgt⟩ := htgt₄ e₃ hge₃
    (show st_map.source = e₃.termOf from hsrc₃.trans hte₃.symm)
  obtain ⟨re_t, hre_t, hst_tgt⟩ := htgt₃ e_t hget_t₂ hterm_t.symm
  have htermTR : EquivalenceClasses.termAt s₄ target_root = some re_t.termOf := by
    rw [hT₄]
    unfold EquivalenceClasses.termAt
    rw [hre_t]
    rfl
  have hts_src : ts_map.source = re_t.termOf := by
    have h0 : ts_map.source = st_map.target := hsrc₄
    rw [h0, hst_tgt]
  by_cases heq : target_root = source_root
  · rw [if_pos heq] at h₃
    cases hgr : s₄.entries.get? target_root with
    | none =>
        simp only [hgr] at h₃
        exact Option.noConfusion h₃
    | some er =>
        cases er with
        | Child a b c =>
            simp only [hgr] at h₃
            exact Option.noConfusion h₃
        | Root rt rrank rauto =>
            simp only [hgr] at h₃
            cases hnf : ts_map.into_perm.nonfix_index with
            | none =>
                simp only [hnf] at h₃
                have hs' : s₄ = s' := by simpa using h₃
                rw [← hs']
                exact hI₄
            | some nf =>
                simp only [hnf] at h₃
                cases hext : PermutationGroup.extendF gfuel
                    (rauto.getD (PermutationGroup.new nf)) ts_map.into_perm with
                | none =>
                    simp only [hext] at h₃
                    exact Option.noConfusion h₃
                | some grp' =>
                    simp only [hext] at h₃
                    have hs' : (⟨s₄.entries.set target_root (.Root rt rrank (some grp')),
                        s₄.by_shape⟩ : EquivalenceClasses) = s' := by simpa using h₃
                    rw [← hs']
                    exact set_root_inv s₄ target_root rt rrank rrank rauto (some grp')
                      hgr hI₄
  · rw [if_neg heq] at h₃
    cases hgs₄ : s₄.entries.get? source_root with
    | none =>
        simp only [hgs₄] at h₃
        exact Option.noConfusion h₃
    | some es =>
        cases es with
        | Child a b c =>
            simp only [hgs₄] at h₃
            exact Option.noConfusion h₃
        | Root st srank sauto =>
            cases hgt₄ : s₄.entries.get? target_root with
            | none =>
                simp only [hgs₄, hgt₄] at h₃
                exact Option.noConfusion h₃
            | some et =>
                cases et with
                | Child a b c =>
                    simp only [hgs₄, hgt₄] at h₃
                    exact Option.noConfusion h₃
                | Root tt trank tauto =>
                    simp only [hgs₄, hgt₄] at h₃
                    have hts_tgt' : ts_map.target = st.term := by
                      rw [hts_tgt]
                      have : re_s = .Root st srank sauto :=
                        Option.some.inj (hre_s.symm.trans hgs₄)
                      rw [this]
                      rfl
                    have hts_src' : ts_map.source = tt.term := by
                      rw [hts_src]
                      have h1 : EquivalenceClasses.termAt s₄ target_root =
                          some tt.term := by
                        unfold EquivalenceClasses.termAt
                        rw [hgt₄]
                        rfl
                      exact Option.some.inj (htermTR.symm.trans h1)
                    by_cases hlt : srank < trank
                    · rw [if_pos hlt, if_neg (by omega : ¬ srank = trank)] at h₃
                      have hs' : (⟨s₄.entries.set source_root (.Child st target_root
                          ts_map.into_backward), s₄.by_shape⟩ : EquivalenceClasses) =
                          s' := by simpa using h₃
                      rw [← hs']
                      exact union_child_inv s₄ target_root source_root tt st trank srank
                        tauto sauto ts_map.into_backward hgt₄ hgs₄
                        (fun hh => heq hh.symm)
                        (show ts_map.target = st.term from hts_tgt')
                        (show ts_map.source = tt.term from hts_src') hI₄
                    · rw [if_neg hlt] at h₃
                      by_cases heqr : srank = trank
                      · rw [if_pos heqr] at h₃
                        have hs' : (⟨(s₄.entries.set source_root
                            (.Root st (srank + 1) sauto)).set target_root
                            (.Child tt source_root ts_map), s₄.by_shape⟩ :
                            EquivalenceClasses) = s' := by simpa using h₃
                        rw [← hs']
                        have hbump := set_root_inv s₄ source_root st srank (srank + 1)
                          sauto sauto hgs₄ hI₄
                        have hgs₅ : (⟨s₄.entries.set source_root
                            (.Root st (srank + 1) sauto), s₄.by_shape⟩ :
                            EquivalenceClasses).entries.get? source_root =
                            some (.Root st (srank + 1) sauto) :=
                          get?_set_self _ _ _ (lt_of_get?_some _ _ _ hgs₄)
                        have hgt₅ : (⟨s₄.entries.set source_root
                            (.Root st (srank + 1) sauto), s₄.by_shape⟩ :
                            EquivalenceClasses).entries.get? target_root =
                            some (.Root tt trank tauto) := by
                          rw [show (⟨s₄.entries.set source_root
                            (.Root st (srank + 1) sauto), s₄.by_shape⟩ :
                            EquivalenceClasses).entries.get? target_root =
                            s₄.entries.get? target_root from
                            get?_set_ne _ _ _ _ (fun hh => heq hh.symm)]
                          exact hgt₄
                        exact union_child_inv _ source_root target_root st tt
                          (srank + 1) trank sauto tauto ts_map hgs₅ hgt₅ heq
                          (show ts_map.source = tt.term from hts_src')
                          (show ts_map.target = st.term from hts_tgt') hbump
                      · rw [if_neg heqr] at h₃
                        have hs' : (⟨s₄.entries.set target_root
                            (.Child tt source_root ts_map), s₄.by_shape⟩ :
                            EquivalenceClasses) = s' := by simpa using h₃
                        rw [← hs']
                        exact union_child_inv s₄ source_root target_root st tt srank
                          trank sauto tauto ts_map hgs₄ hgt₄ heq
                          (show ts_map.source = tt.term from hts_src')
                          (show ts_map.target = st.term from hts_tgt') hI₄

theorem run_inv (gfuel : Nat) : ∀ ops s, EquivalenceClasses.run gfuel ops = some s →
    EqInv s := by
  have hnew : EqInv EquivalenceClasses.new := by
    constructor
    · intro q hq
      exact absurd hq (List.not_mem_nil q)
    · exact ⟨id, fun i t p pm hgi => absurd hgi (by simp [EquivalenceClasses.new])⟩
  suffices h : ∀ (ops : List TermMap) (s₀ s : EquivalenceClasses), EqInv s₀ →
      List.foldlM (fun s m => EquivalenceClasses.add_equiv gfuel s m) s₀ ops = some s →
      EqInv s by
    intro ops s hrun
    exact h ops EquivalenceClasses.new s hnew hrun
  intro ops
  induction ops with
  | nil =>
      intro s₀ s h0 hx
      have : s₀ = s := by simpa using hx
      rw [← this]
      exact h0
  | cons op ops ih =>
      intro s₀ s h0 hx
      rw [List.foldlM_cons] at hx
      simp only [bind, Option.bind_eq_some] at hx
      obtain ⟨s₁, hadd, hrest⟩ := hx
      exact ih s₁ s (add_equiv_inv gfuel s₀ op s₁ h0 hadd) hrest

/-- C2: in every state reachable from `new()` by a serial sequence of
`add_equiv` calls, following parent links from any entry reaches a root
within the `entries.len() + 1` fuel bound, the composition of the parent maps
along that path is a map from the entry's term to the root's term, and
running `find` (with its map-composing path compression) leaves the composed
child-to-root map of every entry unchanged. -/
theorem C2_union_find_invariants (gfuel : Nat) (ops : List TermMap)
    (s : EquivalenceClasses) (hrun : EquivalenceClasses.run gfuel ops = some s) :
    (∀ i, i < s.entries.length →
      ∃ m r, EquivalenceClasses.mapToRoot s i = some (m, r) ∧
        s.isRootAt r = true ∧
        some m.source = s.termAt i ∧ some m.target = s.termAt r) ∧
    (∀ fuel j tr s' r tr',
      EquivalenceClasses.findF fuel s j tr = some (s', r, tr') →
      ∀ i, EquivalenceClasses.mapToRoot s' i = EquivalenceClasses.mapToRoot s i) := by
  have hInv := run_inv gfuel ops s hrun
  constructor
  · intro i hi
    obtain ⟨m, r, re, hmr, hgr, hroot, ⟨e, hge, hms⟩, hmt⟩ := mapToRoot_total s hInv i hi
    refine ⟨m, r, hmr, hroot, ?_, ?_⟩
    · unfold EquivalenceClasses.termAt
      rw [hge, hms]
      rfl
    · unfold EquivalenceClasses.termAt
      rw [hgr, hmt]
      rfl
  · intro fuel j tr s' r tr' hf i
    exact (findF_spec fuel s j tr s' r tr' hInv hf).2.2.2.2.1 i

/-- Witness for C2: the run recording `V*V ≡ V` completes, and the resulting
state satisfies both conclusions. -/
theorem C2_witness :
    (∀ i, i < ((EquivalenceClasses.run 9 [⟨Term.Operation Term.Variable Term.Variable,
        Term.Variable, ⟨[]⟩⟩]).getD EquivalenceClasses.new).entries.length →
      ∃ m r, EquivalenceClasses.mapToRoot
          ((EquivalenceClasses.run 9 [⟨Term.Operation Term.Variable Term.Variable,
            Term.Variable, ⟨[]⟩⟩]).getD EquivalenceClasses.new) i = some (m, r) ∧
        EquivalenceClasses.isRootAt
          ((EquivalenceClasses.run 9 [⟨Term.Operation Term.Variable Term.Variable,
            Term.Variable, ⟨[]⟩⟩]).getD EquivalenceClasses.new) r = true ∧
        some m.source = EquivalenceClasses.termAt
          ((EquivalenceClasses.run 9 [⟨Term.Operation Term.Variable Term.Variable,
            Term.Variable, ⟨[]⟩⟩]).getD EquivalenceClasses.new) i ∧
        some m.target = EquivalenceClasses.termAt
          ((EquivalenceClasses.run 9 [⟨Term.Operation Term.Variable Term.Variable,
            Term.Variable, ⟨[]⟩⟩]).getD EquivalenceClasses.new) r) ∧
    (∀ fuel j tr s' r tr',
      EquivalenceClasses.findF fuel
        ((EquivalenceClasses.run 9 [⟨Term.Operation Term.Variable Term.Variable,
          Term.Variable, ⟨[]⟩⟩]).getD EquivalenceClasses.new) j tr = some (s', r, tr') →
      ∀ i, EquivalenceClasses.mapToRoot s' i = EquivalenceClasses.mapToRoot
        ((EquivalenceClasses.run 9 [⟨Term.Operation Term.Variable Term.Variable,
          Term.Variable, ⟨[]⟩⟩]).getD EquivalenceClasses.new) i) :=
  C2_union_find_invariants 9
    [⟨Term.Operation Term.Variable Term.Variable, Term.Variable, ⟨[]⟩⟩]
    ((EquivalenceClasses.run 9 [⟨Term.Operation Term.Variable Term.Variable,
      Term.Variable, ⟨[]⟩⟩]).getD EquivalenceClasses.new) rfl

end Trees
